import Mathlib

/-!
# kevent: a single-threaded event reactor

A shallow embedding of `const.go`, `api_epoll.go` and `event_loop.go`.

Conventions of the embedding.

* Go `int` / `int64` values are `Int`.  The bitwise operators `|`, `&`, `^x`
  are `Int.lor`, `Int.land`, `Int.lnot` (two's complement, no overflow is
  possible for them).  Timer ids and times in milliseconds are `Int` as well.
  The two `int64` operations on times, `now + retval` (event_loop.go 262) and
  `earlist.when - now` (event_loop.go 211), wrap around: they are `wrap64` of
  the exact result.  The counters (`timeEventNextId`, `refcount`, `processed`)
  move by one at a time and are exact as long as they stay within 64 bits.
* A Go value of type `any` is an `Option Nat`: `none` is `nil`, `some k` is an
  opaque token.  A Go `func` value is an `Option Nat` as well: `none` is the
  `nil` func, `some h` a handle whose behaviour is looked up in `Procs`.
* A slice is a `List`; indexing outside it is the run-time panic
  `Fault.indexOutOfRange`.
* The operating system is the record `Os` of responses; theorems quantify over
  it.
* `*TimeEvent` pointers are indices into `World.heap`.
-/

namespace Kevent

/-! ## const.go -/

def KE_Event_None : Int := 0
def KE_Event_Readable : Int := 1
def KE_Event_Writable : Int := 2
def KE_Event_Barrier : Int := 4

def KE_DeleteEventId : Int := -1
def KE_FileEvents : Int := 1
def KE_TimeEvents : Int := 2
def KE_AllEvents : Int := Int.lor KE_FileEvents KE_TimeEvents
def KE_DontWait : Int := 4
def KE_CallBeforeSleep : Int := 8
def KE_CallAfterSleep : Int := 16

/-! ## Constants of `golang.org/x/sys/unix` (linux) -/

def EPOLL_CLOEXEC : Int := 524288
def EPOLL_CTL_ADD : Int := 1
def EPOLL_CTL_DEL : Int := 2
def EPOLL_CTL_MOD : Int := 3
def EPOLLIN : Nat := 1
def EPOLLOUT : Nat := 4
def EPOLLERR : Nat := 8
def EPOLLHUP : Nat := 16
def EINTR : Nat := 4

/-- Run-time failures of the Go program: a panic, or a loop that never ends
(`outOfFuel`, reported by the fuelled loops). -/
inductive Fault where
  | indexOutOfRange
  | makeNegativeLen
  | nilCall
  | nilDeref
  | apiPollPanic (err : Option Nat)
  | outOfFuel
deriving DecidableEq, Repr

deriving instance DecidableEq for Except

/-! ## Data model (event_loop.go 16-51, api_epoll.go 9-12) -/

structure fileEvent where
  mask : Int
  rFileProc : Option Nat
  wFileProc : Option Nat
  clientData : Option Nat
deriving DecidableEq, Repr

structure firedEvent where
  fd : Int
  mask : Int
deriving DecidableEq, Repr

/-- The type `unix.EpollEvent`: `Events` is a `uint32`, `Fd` an `int32`. -/
structure EpollEvent where
  Events : Nat
  Fd : Int
deriving DecidableEq, Repr

structure ApiState where
  EpFd : Int
  Events : List EpollEvent
deriving DecidableEq, Repr

structure TimeEvent where
  id : Int
  when : Int
  timeProc : Option Nat
  finalizerProc : Option Nat
  clientData : Option Nat
  prev : Option Nat
  next : Option Nat
  refcount : Int
deriving DecidableEq, Repr

structure EventLoop where
  setsize : Int
  maxfd : Int
  apiData : ApiState
  events : List fileEvent
  fired : List firedEvent
  timeEventHead : Option Nat
  timeEventNextId : Int
  nowProc : Option Nat
  flags : Int
  beforeSleep : Option Nat
  afterSleep : Option Nat
deriving DecidableEq, Repr

/-- Responses of the operating system to the three epoll system calls. -/
structure Os where
  /-- `unix.EpollCreate1(flag)`: the descriptor and the error. -/
  EpollCreate1 : Int → Int × Option Nat
  /-- `unix.EpollCtl(epfd, op, fd, event)`: the error. -/
  EpollCtl : Int → Int → Int → EpollEvent → Option Nat
  /-- `unix.EpollWait(epfd, events, msec)`: the count, the error and the events
  written to the front of the buffer. -/
  EpollWait : Int → List EpollEvent → Int → Int × Option Nat × List EpollEvent

/-! ## Go primitives -/

/-- Zero value of `fileEvent`. -/
def fileEvent.zero : fileEvent := ⟨0, none, none, none⟩

/-- Zero value of `firedEvent`. -/
def firedEvent.zero : firedEvent := ⟨0, 0⟩

/-- Zero value of `unix.EpollEvent`. -/
def EpollEvent.zero : EpollEvent := ⟨0, 0⟩

/-- Slice read `xs[i]` for a Go `int` index. -/
def slot {α : Type} (xs : List α) (i : Int) : Option α :=
  if i < 0 then none else xs[i.toNat]?

/-- The builtin `copy(dst, src)`: the first `min (len dst) (len src)` elements
of `dst` are overwritten. -/
def copySlice {α : Type} (dst src : List α) : List α :=
  src.take dst.length ++ dst.drop src.length

/-- The conversion `int32(x)`. -/
def toInt32 (x : Int) : Int := (x + 2147483648) % 4294967296 - 2147483648

/-- The least `int64`. -/
def MinInt64 : Int := -9223372036854775808

/-- The greatest `int64`. -/
def MaxInt64 : Int := 9223372036854775807

/-- The `int64` result of an addition or subtraction whose exact result is `x`:
Go wraps around in two's complement. -/
def wrap64 (x : Int) : Int :=
  (x + 9223372036854775808) % 18446744073709551616 - 9223372036854775808

/-! ## api_epoll.go -/

/-- `ApiCreate` (api_epoll.go 14-24): the new backend state, or the error. -/
def ApiCreate (os : Os) (setsize : Int) : Except Nat ApiState :=
  match os.EpollCreate1 EPOLL_CLOEXEC with
  | (_, some err) => .error err
  | (epfd, none) => .ok ⟨epfd, List.replicate setsize.toNat EpollEvent.zero⟩

/-- `ApiResize` (api_epoll.go 26-31). -/
def ApiResize (el : EventLoop) (setSize : Int) : EventLoop :=
  let src := el.apiData.Events
  { el with apiData :=
      { el.apiData with
        Events := copySlice (List.replicate setSize.toNat EpollEvent.zero) src } }

/-- The epoll bits for an interest mask (api_epoll.go 55-60 and 74-79). -/
def epollBits (mask : Int) : Nat :=
  (if Int.land mask KE_Event_Readable ≠ 0 then EPOLLIN else 0) |||
  (if Int.land mask KE_Event_Writable ≠ 0 then EPOLLOUT else 0)

/-- `ApiAddEvent` (api_epoll.go 39-64): the error returned by `EpollCtl`. -/
def ApiAddEvent (os : Os) (el : EventLoop) (fd mask : Int) : Except Fault (Option Nat) :=
  match slot el.events fd with
  | none => .error Fault.indexOutOfRange
  | some fe =>
    let op := if KE_Event_None = fe.mask then EPOLL_CTL_ADD else EPOLL_CTL_MOD
    let mask := Int.lor mask fe.mask
    .ok (os.EpollCtl el.apiData.EpFd op fd ⟨epollBits mask, toInt32 fd⟩)

/-- `ApiDeleteEvent` (api_epoll.go 66-86): the request handed to `EpollCtl`,
whose result the code discards. -/
def ApiDeleteEvent (el : EventLoop) (fd delmask : Int) : Except Fault (Int × EpollEvent) :=
  match slot el.events fd with
  | none => .error Fault.indexOutOfRange
  | some fe =>
    let mask := Int.land fe.mask (Int.lnot delmask)
    let op := if KE_Event_None ≠ mask then EPOLL_CTL_MOD else EPOLL_CTL_DEL
    .ok (op, ⟨epollBits mask, 0⟩)

/-! ## event_loop.go: descriptor table -/

/-- `CreateEventLoop` (event_loop.go 53-69): `none` is the `nil` result. -/
def CreateEventLoop (os : Os) (setsize : Int) : Except Fault (Option EventLoop) :=
  if setsize < 0 then .error Fault.makeNegativeLen else
  let events := List.replicate setsize.toNat fileEvent.zero
  let fired := List.replicate setsize.toNat firedEvent.zero
  match ApiCreate os setsize with
  | .error _ => .ok none
  | .ok state =>
    .ok (some
      { setsize := setsize
        maxfd := 0
        apiData := state
        events := events.map fun fe => { fe with mask := KE_Event_None }
        fired := fired
        timeEventHead := none
        timeEventNextId := 0
        nowProc := none
        flags := 0
        beforeSleep := none
        afterSleep := none })

/-- `GetSetSize` (event_loop.go 71-73). -/
def GetSetSize (el : EventLoop) : Int := el.setsize

/-- The loop `for i := el.maxfd + 1; i < setsize; i++` of `ResizeSetSize`
(event_loop.go 90-92); `n` is the number of iterations left. -/
def ResizeSetSize.clear (events : List fileEvent) (i : Int) : Nat → Except Fault (List fileEvent)
  | 0 => .ok events
  | n + 1 =>
    match slot events i with
    | none => .error Fault.indexOutOfRange
    | some fe =>
      ResizeSetSize.clear (events.set i.toNat { fe with mask := KE_Event_None }) (i + 1) n

/-- `ResizeSetSize` (event_loop.go 75-94). -/
def ResizeSetSize (el : EventLoop) (setsize : Int) : Except Fault (Bool × EventLoop) :=
  if setsize = el.setsize then .ok (true, el) else
  if el.maxfd ≥ setsize then .ok (false, el) else
  if setsize < 0 then .error Fault.makeNegativeLen else
  let el := ApiResize el setsize
  let events := el.events
  let fired := el.fired
  let el := { el with events := List.replicate setsize.toNat fileEvent.zero }
  let el := { el with fired := List.replicate setsize.toNat firedEvent.zero }
  let el := { el with events := copySlice el.events events }
  let el := { el with fired := copySlice el.fired fired }
  match ResizeSetSize.clear el.events (el.maxfd + 1) (setsize - (el.maxfd + 1)).toNat with
  | .error e => .error e
  | .ok events => .ok (true, { el with events := events })

/-- The writes to the slot `fe` in `CreateFileEvent` (event_loop.go 114-121). -/
def CreateFileEvent.update (fe : fileEvent) (mask : Int) (proc clientData : Option Nat) :
    fileEvent :=
  { mask := Int.lor fe.mask mask
    rFileProc := if 0 ≠ Int.land mask KE_Event_Readable then proc else fe.rFileProc
    wFileProc := if 0 ≠ Int.land mask KE_Event_Writable then proc else fe.wFileProc
    clientData := clientData }

/-- `CreateFileEvent` (event_loop.go 102-126). -/
def CreateFileEvent (os : Os) (el : EventLoop) (fd mask : Int) (proc clientData : Option Nat) :
    Except Fault (Bool × EventLoop) :=
  if fd ≥ el.setsize then .ok (false, el) else
  match slot el.events fd with
  | none => .error Fault.indexOutOfRange
  | some fe =>
    match ApiAddEvent os el fd mask with
    | .error e => .error e
    | .ok (some _) => .ok (false, el)
    | .ok none =>
      let el := { el with events := el.events.set fd.toNat (CreateFileEvent.update fe mask proc clientData) }
      let el := if fd > el.maxfd then { el with maxfd := fd } else el
      .ok (true, el)

/-- The downward scan `for j = el.maxfd - 1; j >= 0; j--` of `DeleteFileEvent`
(event_loop.go 145-149), started at `j = n - 1`; the result is the final `j`. -/
def DeleteFileEvent.scan (events : List fileEvent) : Nat → Except Fault Int
  | 0 => .ok (-1)
  | j + 1 =>
    match events[j]? with
    | none => .error Fault.indexOutOfRange
    | some fe => if fe.mask ≠ KE_Event_None then .ok j else DeleteFileEvent.scan events j

/-- The mask cleared by `DeleteFileEvent`: the argument, extended with `Barrier`
when the slot has `Writable` (event_loop.go 138-140). -/
def DeleteFileEvent.delmask (fe : fileEvent) (mask : Int) : Int :=
  if 0 ≠ Int.land fe.mask KE_Event_Writable then Int.lor mask KE_Event_Barrier else mask

/-- `DeleteFileEvent` (event_loop.go 128-152). -/
def DeleteFileEvent (el : EventLoop) (fd mask : Int) : Except Fault EventLoop :=
  if fd ≥ el.setsize then .ok el else
  match slot el.events fd with
  | none => .error Fault.indexOutOfRange
  | some fe =>
    if fe.mask = KE_Event_None then .ok el else
    let mask := DeleteFileEvent.delmask fe mask
    match ApiDeleteEvent el fd mask with
    | .error e => .error e
    | .ok _ =>
    let fe := { fe with mask := Int.land fe.mask (Int.lnot mask) }
    let el := { el with events := el.events.set fd.toNat fe }
    if fd = el.maxfd ∧ fe.mask = KE_Event_None then
      let j : Int := el.maxfd - 1
      if j < 0 then .ok { el with maxfd := j } else
      match DeleteFileEvent.scan el.events el.maxfd.toNat with
      | .error e => .error e
      | .ok j => .ok { el with maxfd := j }
    else .ok el

/-- `GetFileClientData` (event_loop.go 154-163). -/
def GetFileClientData (el : EventLoop) (fd : Int) : Except Fault (Option Nat) :=
  if fd ≥ el.setsize then .ok none else
  match slot el.events fd with
  | none => .error Fault.indexOutOfRange
  | some fe => if fe.mask = KE_Event_None then .ok none else .ok fe.clientData

/-! ## The world around the loop: heap, clock and user code

`World.heap` holds every `TimeEvent` ever allocated; `new(TimeEvent)` appends
to it and a pointer is an index.  `World.reads` counts the calls of `nowProc`
made so far, so that a clock is a function of the call number, and
`World.calls` records, oldest first, every call the loop makes to user code.
User code is a `World` transformer chosen through its handle in `Procs`. -/

/-- A call from the loop into user code. -/
inductive Call where
  | fileProc (h : Nat) (fd : Int) (clientData : Option Nat) (mask : Int)
  | timeProc (h : Nat) (id : Int) (clientData : Option Nat)
  | finalizerProc (h : Nat) (clientData : Option Nat)
  | beforeSleep (h : Nat)
  | afterSleep (h : Nat)
deriving DecidableEq, Repr

structure World where
  el : EventLoop
  heap : List TimeEvent
  reads : Nat
  calls : List Call
deriving DecidableEq, Repr

/-- Behaviour of the Go func values, by handle.  `nowProc h k` is the time, in
nanoseconds since the Unix epoch, returned by the `k`-th call of clock `h`. -/
structure Procs where
  fileProc : Nat → World → Int → Option Nat → Int → World
  timeProc : Nat → World → Int → Option Nat → Int × World
  finalizerProc : Nat → World → Option Nat → World
  sleepProc : Nat → World → World
  nowProc : Nat → Nat → Int

/-- `time.Time.UnixMilli` of a time given in nanoseconds since the epoch. -/
def UnixMilli (t : Int) : Int := t / 1000000

/-- The call `el.nowProc()`; a `nil` clock is a panic. -/
def callNow (ps : Procs) (w : World) : Except Fault (Int × World) :=
  match w.el.nowProc with
  | none => .error Fault.nilCall
  | some h => .ok (ps.nowProc h w.reads, { w with reads := w.reads + 1 })

/-- Append a call to the record. -/
def World.record (w : World) (c : Call) : World := { w with calls := w.calls ++ [c] }

/-- Pointer read `*p`. -/
def load (heap : List TimeEvent) (p : Nat) : Except Fault TimeEvent :=
  match heap[p]? with
  | none => .error Fault.nilDeref
  | some t => .ok t

/-- Pointer update `*p = f(*p)`. -/
def store (heap : List TimeEvent) (p : Nat) (f : TimeEvent → TimeEvent) :
    Except Fault (List TimeEvent) :=
  match heap[p]? with
  | none => .error Fault.nilDeref
  | some t => .ok (heap.set p (f t))

/-! ## event_loop.go: timers -/

/-- `CreateTimeEvent` (event_loop.go 165-183); `duration` is in nanoseconds.
The parameter `clientData` is not used by the body. -/
def CreateTimeEvent (ps : Procs) (w : World) (duration : Int) (proc : Option Nat)
    (_clientData : Option Nat) (finalizerProc : Option Nat) : Except Fault (Int × World) :=
  let w := { w with el := { w.el with timeEventNextId := w.el.timeEventNextId + 1 } }
  let id := w.el.timeEventNextId
  let te := w.heap.length
  match callNow ps w with
  | .error e => .error e
  | .ok (now, w) =>
    let node : TimeEvent :=
      { id := id
        when := UnixMilli (now + duration)
        timeProc := proc
        finalizerProc := finalizerProc
        clientData := none
        prev := none
        next := w.el.timeEventHead
        refcount := 0 }
    let heap := w.heap ++ [node]
    match (match node.next with
        | none => Except.ok heap
        | some n => store heap n fun t => { t with prev := some te }) with
    | .error e => .error e
    | .ok heap =>
      .ok (id, { w with heap := heap, el := { w.el with timeEventHead := some te } })

/-- The loop of `DeleteTimeEvent` (event_loop.go 187-192); `te` is not advanced
by the body.  The fuel bounds the number of evaluations of the loop
condition. -/
def DeleteTimeEvent.loop (id : Int) : Nat → World → Option Nat → Except Fault (Bool × World)
  | 0, _, _ => .error Fault.outOfFuel
  | _ + 1, w, none => .ok (false, w)
  | fuel + 1, w, some te =>
    match load w.heap te with
    | .error e => .error e
    | .ok node =>
      if node.id = id then
        .ok (true, { w with heap := w.heap.set te { node with id := KE_DeleteEventId } })
      else DeleteTimeEvent.loop id fuel w (some te)

/-- `DeleteTimeEvent` (event_loop.go 185-194). -/
def DeleteTimeEvent (fuel : Nat) (w : World) (id : Int) : Except Fault (Bool × World) :=
  DeleteTimeEvent.loop id fuel w w.el.timeEventHead

/-- The loop of `UntilEarliestTimer` (event_loop.go 204-209).  The list is not
written by the loop, so `earlist` is kept as the entry it points to. -/
def UntilEarliestTimer.scan (heap : List TimeEvent) :
    Nat → Option Nat → Option TimeEvent → Except Fault (Option TimeEvent)
  | 0, _, _ => .error Fault.outOfFuel
  | _ + 1, none, earlist => .ok earlist
  | fuel + 1, some te, earlist =>
    match load heap te with
    | .error e => .error e
    | .ok node =>
      let earlist :=
        match earlist with
        | none => some node
        | some e => if node.when < e.when then some node else some e
      UntilEarliestTimer.scan heap fuel node.next earlist

/-- `UntilEarliestTimer` (event_loop.go 196-216). -/
def UntilEarliestTimer (ps : Procs) (fuel : Nat) (w : World) : Except Fault (Int × World) :=
  let te := w.el.timeEventHead
  match te with
  | none => .ok (-1, w)
  | some _ =>
    match UntilEarliestTimer.scan w.heap fuel te none with
    | .error e => .error e
    | .ok none => .error Fault.nilDeref
    | .ok (some earlist) =>
      match callNow ps w with
      | .error e => .error e
      | .ok (t, w) =>
        let now := UnixMilli t
        let diff := wrap64 (earlist.when - now)
        if diff < 0 then .ok (0, w) else .ok (diff, w)

/-- Unlinking of the entry `te` (event_loop.go 234-241); `node` is `*te`. -/
def ProcessTimeEvents.unlink (w : World) (node : TimeEvent) : Except Fault World :=
  match (match node.prev with
      | some p =>
        match store w.heap p fun t => { t with next := node.next } with
        | .error e => Except.error e
        | .ok heap => Except.ok { w with heap := heap }
      | none => Except.ok { w with el := { w.el with timeEventHead := node.next } }) with
  | .error e => .error e
  | .ok w =>
    match node.next with
    | some n =>
      match store w.heap n fun t => { t with prev := node.prev } with
      | .error e => .error e
      | .ok heap => .ok { w with heap := heap }
    | none => .ok w

/-- State of the loop of `ProcessTimeEvents` between two iterations. -/
structure ProcessTimeEvents.Iter where
  w : World
  te : Option Nat
  processed : Int
  now : Int
deriving DecidableEq, Repr

/-- One iteration of the loop of `ProcessTimeEvents` (event_loop.go 227-267) on
the entry `te`. -/
def ProcessTimeEvents.visit (ps : Procs) (maxId : Int) (w : World) (te : Nat)
    (processed now : Int) : Except Fault ProcessTimeEvents.Iter :=
  match load w.heap te with
  | .error e => .error e
  | .ok node =>
    if node.id = KE_DeleteEventId then
      let next := node.next
      if 1 = node.refcount then .ok ⟨w, next, processed, now⟩ else
      match ProcessTimeEvents.unlink w node with
      | .error e => .error e
      | .ok w =>
        match node.finalizerProc with
        | some f =>
          let w := ps.finalizerProc f (w.record (Call.finalizerProc f node.clientData))
            node.clientData
          match callNow ps w with
          | .error e => .error e
          | .ok (t, w) => .ok ⟨w, next, processed, UnixMilli t⟩
        | none => .ok ⟨w, next, processed, now⟩
    else if node.id > maxId then .ok ⟨w, node.next, processed, now⟩
    else if node.when ≤ now then
      let id := node.id
      let w := { w with heap := w.heap.set te { node with refcount := node.refcount + 1 } }
      match node.timeProc with
      | none => .error Fault.nilCall
      | some p =>
        match ps.timeProc p (w.record (Call.timeProc p id node.clientData)) id node.clientData with
        | (retval, w) =>
          match store w.heap te fun t => { t with refcount := t.refcount - 1 } with
          | .error e => .error e
          | .ok heap =>
            let w := { w with heap := heap }
            let processed := processed + 1
            match callNow ps w with
            | .error e => .error e
            | .ok (t, w) =>
              let now := UnixMilli t
              match (if retval ≠ -1
                  then store w.heap te fun t => { t with when := wrap64 (now + retval) }
                  else store w.heap te fun t => { t with id := KE_DeleteEventId }) with
              | .error e => .error e
              | .ok heap =>
                let w := { w with heap := heap }
                match load w.heap te with
                | .error e => .error e
                | .ok node => .ok ⟨w, node.next, processed, now⟩
    else .ok ⟨w, node.next, processed, now⟩

/-- The loop of `ProcessTimeEvents` (event_loop.go 226-268).  The fuel bounds the
number of evaluations of the loop condition. -/
def ProcessTimeEvents.loop (ps : Procs) (maxId : Int) :
    Nat → ProcessTimeEvents.Iter → Except Fault (Int × World)
  | 0, _ => .error Fault.outOfFuel
  | fuel + 1, it =>
    match it.te with
    | none => .ok (it.processed, it.w)
    | some te =>
      match ProcessTimeEvents.visit ps maxId it.w te it.processed it.now with
      | .error e => .error e
      | .ok it => ProcessTimeEvents.loop ps maxId fuel it

/-- `ProcessTimeEvents` (event_loop.go 218-270). -/
def ProcessTimeEvents (ps : Procs) (fuel : Nat) (w : World) : Except Fault (Int × World) :=
  let processed := 0
  let te := w.el.timeEventHead
  let maxId := w.el.timeEventNextId - 1
  match callNow ps w with
  | .error e => .error e
  | .ok (t, w) => ProcessTimeEvents.loop ps maxId fuel ⟨w, te, processed, UnixMilli t⟩

/-! ## api_epoll.go: polling -/

/-- The readiness mask computed from the epoll bits of one event
(api_epoll.go 102-115). -/
def ApiPoll.mask (events : Nat) : Int :=
  let mask : Int := 0
  let mask := if 0 ≠ events &&& EPOLLIN then Int.lor mask KE_Event_Readable else mask
  let mask := if 0 ≠ events &&& EPOLLOUT then Int.lor mask KE_Event_Writable else mask
  let mask := if 0 ≠ events &&& EPOLLERR
    then Int.lor mask (Int.lor KE_Event_Writable KE_Event_Readable) else mask
  let mask := if 0 ≠ events &&& EPOLLHUP
    then Int.lor mask (Int.lor KE_Event_Writable KE_Event_Readable) else mask
  mask

/-- The loop `for i := 0; i < retval; i++` of `ApiPoll` (api_epoll.go 101-118),
with `n` iterations left. -/
def ApiPoll.translate (events : List EpollEvent) :
    Nat → Int → List firedEvent → Except Fault (List firedEvent)
  | 0, _, fired => .ok fired
  | n + 1, i, fired =>
    match slot events i with
    | none => .error Fault.indexOutOfRange
    | some e =>
      match slot fired i with
      | none => .error Fault.indexOutOfRange
      | some _ =>
        ApiPoll.translate events n (i + 1) (fired.set i.toNat ⟨e.Fd, ApiPoll.mask e.Events⟩)

/-- The timeout handed to `EpollWait` (api_epoll.go 94-96). -/
def ApiPoll.msec (msec : Int) : Int := if 0 = msec then -1 else msec

/-- `ApiPoll` (api_epoll.go 88-120).  `retval` and `err` are the zero values when
the condition of line 97 is evaluated; the body of that `if` ends with
`panic`. -/
def ApiPoll (os : Os) (w : World) (msec : Int) : Except Fault (Int × World) :=
  let state := w.el.apiData
  let retval : Int := 0
  let err : Option Nat := none
  let msec := ApiPoll.msec msec
  if -1 ≠ retval ∧ err ≠ some EINTR then
    match os.EpollWait state.EpFd state.Events msec with
    | (_, err, _) => .error (Fault.apiPollPanic err)
  else
    match ApiPoll.translate state.Events retval.toNat 0 w.el.fired with
    | .error e => .error e
    | .ok fired => .ok (retval, { w with el := { w.el with fired := fired } })

/-! ## event_loop.go: one processing pass -/

/-- Offset of the field `rFileProc` in `fileEvent` (the `int` field `mask` comes
first). -/
def fileEvent.rFileProcOffset : Int := 8

/-- Offset of the field `wFileProc` in `fileEvent`. -/
def fileEvent.wFileProcOffset : Int := 16

/-- Size of `fileEvent`: an `int`, two func values and an interface value. -/
def fileEvent.sizeof : Int := 40

/-- The address `&fe.rFileProc` for `fe = &el.events[fd]`, relative to the start
of the table. -/
def rFileProcAddr (fd : Int) : Int := fileEvent.sizeof * fd + fileEvent.rFileProcOffset

/-- The address `&fe.wFileProc` for `fe = &el.events[fd]`, relative to the start
of the table. -/
def wFileProcAddr (fd : Int) : Int := fileEvent.sizeof * fd + fileEvent.wFileProcOffset

/-- A call `proc(el, fd, clientData, mask)` of a file handler. -/
def callFileProc (ps : Procs) (w : World) (proc : Option Nat) (fd : Int)
    (clientData : Option Nat) (mask : Int) : Except Fault World :=
  match proc with
  | none => .error Fault.nilCall
  | some h => .ok (ps.fileProc h (w.record (Call.fileProc h fd clientData mask)) fd clientData mask)

/-- The body of the dispatch loop of `ProcessEvents` for the fired event `j`
(event_loop.go 307-332).  `fe` points into the table, so each use of `fe` reads
the slot as the handlers called so far left it (a handler that replaces the
table through `ResizeSetSize` during the pass is not covered). -/
def ProcessEvents.fire (ps : Procs) (w : World) (j : Int) : Except Fault World :=
  match slot w.el.fired j with
  | none => .error Fault.indexOutOfRange
  | some fev =>
    let fd := fev.fd
    match slot w.el.events fd with
    | none => .error Fault.indexOutOfRange
    | some fe =>
      let mask := fev.mask
      let fired : Int := 0
      let invert : Bool := 0 ≠ Int.land fe.mask KE_Event_Barrier
      match (if !invert ∧ 0 ≠ Int.land (Int.land fe.mask mask) KE_Event_Readable
          then (callFileProc ps w fe.rFileProc fd fe.clientData mask).map fun w => (w, fired + 1)
          else Except.ok (w, fired)) with
      | .error e => .error e
      | .ok (w, fired) =>
        match slot w.el.events fd with
        | none => .error Fault.indexOutOfRange
        | some fe =>
          match (if 0 ≠ Int.land (Int.land fe.mask mask) KE_Event_Writable
              then
                if 0 = fired ∨ wFileProcAddr fd ≠ rFileProcAddr fd
                then (callFileProc ps w fe.wFileProc fd fe.clientData mask).map
                  fun w => (w, fired + 1)
                else Except.ok (w, fired)
              else Except.ok (w, fired)) with
          | .error e => .error e
          | .ok (w, fired) =>
            if invert then
              match slot w.el.events fd with
              | none => .error Fault.indexOutOfRange
              | some fe =>
                if 0 ≠ Int.land (Int.land fe.mask mask) KE_Event_Readable ∧
                    (0 = fired ∨ wFileProcAddr fd ≠ rFileProcAddr fd)
                then callFileProc ps w fe.rFileProc fd fe.clientData mask
                else .ok w
            else .ok w

/-- The dispatch loop `for j := 0; j < numevents; j++` of `ProcessEvents`
(event_loop.go 306-334), with `n` iterations left. -/
def ProcessEvents.dispatch (ps : Procs) : Nat → Int → World → Int → Except Fault (Int × World)
  | 0, _, w, processed => .ok (processed, w)
  | n + 1, j, w, processed =>
    match ProcessEvents.fire ps w j with
    | .error e => .error e
    | .ok w => ProcessEvents.dispatch ps n (j + 1) w (processed + 1)

/-- The timeout computed by `ProcessEvents` from the result of
`UntilEarliestTimer` (event_loop.go 287-296). -/
def ProcessEvents.timeout (el : EventLoop) (flags untilTimer : Int) : Int :=
  let untilTimer :=
    if untilTimer < 0 then (if 0 ≠ Int.land flags KE_DontWait then 0 else -1) else untilTimer
  if 0 ≠ Int.land el.flags KE_DontWait then 0 else untilTimer

/-- The block of `ProcessEvents` that polls and dispatches (event_loop.go
281-334). -/
def ProcessEvents.poll (ps : Procs) (os : Os) (fuel : Nat) (w : World) (flags : Int) :
    Except Fault (Int × World) :=
  match (if 0 ≠ Int.land flags KE_TimeEvents ∧ 0 = Int.land flags KE_DontWait
      then UntilEarliestTimer ps fuel w else Except.ok (-1, w)) with
  | .error e => .error e
  | .ok (untilTimer, w) =>
    let untilTimer := ProcessEvents.timeout w.el flags untilTimer
    let w :=
      match w.el.beforeSleep with
      | some h =>
        if 0 ≠ Int.land flags KE_CallBeforeSleep
        then ps.sleepProc h (w.record (Call.beforeSleep h)) else w
      | none => w
    match ApiPoll os w untilTimer with
    | .error e => .error e
    | .ok (numevents, w) =>
      let w :=
        match w.el.afterSleep with
        | some h =>
          if 0 ≠ Int.land flags KE_CallAfterSleep
          then ps.sleepProc h (w.record (Call.afterSleep h)) else w
        | none => w
      ProcessEvents.dispatch ps numevents.toNat 0 w 0

/-- `ProcessEvents` (event_loop.go 272-340). -/
def ProcessEvents (ps : Procs) (os : Os) (fuel : Nat) (w : World) (flags : Int) :
    Except Fault (Int × World) :=
  if 0 = Int.land flags KE_AllEvents then .ok (0, w) else
  match (if -1 = w.el.maxfd ∨ (0 ≠ Int.land flags KE_TimeEvents ∧ 0 = Int.land flags KE_DontWait)
      then ProcessEvents.poll ps os fuel w flags else Except.ok (0, w)) with
  | .error e => .error e
  | .ok (processed, w) =>
    if 0 ≠ Int.land flags KE_TimeEvents then
      match ProcessTimeEvents ps fuel w with
      | .error e => .error e
      | .ok (n, w) => .ok (processed + n, w)
    else .ok (processed, w)

/-! ## Fixtures -/

/-- An operating system on which every epoll call succeeds and no descriptor is
ever ready. -/
def osOk : Os :=
  { EpollCreate1 := fun _ => (3, none)
    EpollCtl := fun _ _ _ _ => none
    EpollWait := fun _ _ _ => (0, none, []) }

/-- An operating system whose `EpollCtl` always fails with `EBADF` (9). -/
def osCtlFails : Os :=
  { EpollCreate1 := fun _ => (3, none)
    EpollCtl := fun _ _ _ _ => some 9
    EpollWait := fun _ _ _ => (0, none, []) }

/-- The loop returned by `CreateEventLoop osOk n`. -/
def freshLoop (n : Nat) : EventLoop :=
  { setsize := n
    maxfd := 0
    apiData := ⟨3, List.replicate n EpollEvent.zero⟩
    events := List.replicate n fileEvent.zero
    fired := List.replicate n firedEvent.zero
    timeEventHead := none
    timeEventNextId := 0
    nowProc := none
    flags := 0
    beforeSleep := none
    afterSleep := none }

/-! ## Reachable descriptor-table states -/

/-- States obtained from `CreateEventLoop` by calls of `CreateFileEvent`,
`DeleteFileEvent` and `ResizeSetSize` that return. -/
inductive Reachable : EventLoop → Prop where
  | create (os : Os) (n : Int) (el : EventLoop) :
      CreateEventLoop os n = .ok (some el) → Reachable el
  | createFile (os : Os) (el el' : EventLoop) (fd mask : Int) (proc data : Option Nat) (b : Bool) :
      Reachable el → CreateFileEvent os el fd mask proc data = .ok (b, el') → Reachable el'
  | deleteFile (el el' : EventLoop) (fd mask : Int) :
      Reachable el → DeleteFileEvent el fd mask = .ok el' → Reachable el'
  | resize (el el' : EventLoop) (c : Int) (b : Bool) :
      Reachable el → ResizeSetSize el c = .ok (b, el') → Reachable el'

/-- Every slot above `maxfd` has mask `None`, and `maxfd` is at least the
sentinel `-1`. -/
def MaxfdBound (el : EventLoop) : Prop :=
  -1 ≤ el.maxfd ∧ ∀ (i : Nat) (fe : fileEvent), el.maxfd < i → el.events[i]? = some fe →
    fe.mask = KE_Event_None

/-- The state after `CreateFileEvent(el, 3, KE_Event_None, H, 7)` on a fresh loop
of capacity 16. -/
def loopAfterNoneCreate : EventLoop :=
  { freshLoop 16 with
    maxfd := 3
    events := (freshLoop 16).events.set 3 ⟨KE_Event_None, none, none, some 7⟩ }

/-- The state after `CreateFileEvent(el, 3, KE_Event_Readable, H, 7)` on a fresh
loop of capacity 16, `H` being the handler with handle 1. -/
def loopWithReader : EventLoop :=
  { freshLoop 16 with
    maxfd := 3
    events := (freshLoop 16).events.set 3 ⟨KE_Event_Readable, some 1, none, some 7⟩ }

/-- The highest index of `events` whose mask is not `None`, or the sentinel `-1`
when there is none: the value the specification gives to `maxfd`. -/
def highestActive (events : List fileEvent) : Int :=
  (List.range events.length).foldl
    (fun acc i =>
      match events[i]? with
      | some fe => if fe.mask ≠ KE_Event_None then (i : Int) else acc
      | none => acc)
    (-1)

/-- An operating system on which every epoll call succeeds and each wait
reports descriptor 3 readable. -/
def osReady3 : Os :=
  { EpollCreate1 := fun _ => (3, none)
    EpollCtl := fun _ _ _ _ => none
    EpollWait := fun _ _ _ => (1, none, [⟨EPOLLIN, 3⟩]) }

/-- User code that leaves the world as it is; timer callbacks return `retval h`
for the handle `h`; the clock `h` always reads `clock h` nanoseconds. -/
def procsConst (retval : Nat → Int) (clock : Nat → Int) : Procs :=
  { fileProc := fun _ w _ _ _ => w
    timeProc := fun h w _ _ => (retval h, w)
    finalizerProc := fun _ w _ => w
    sleepProc := fun _ w => w
    nowProc := fun h _ => clock h }

/-- User code that leaves the world as it is, with timer callbacks that return
the no-repeat value `-1` and a clock fixed at 5 seconds after the epoch. -/
def procsNoRepeat : Procs := procsConst (fun _ => -1) (fun _ => 5000000000)

/-- The world of a loop with no timer ever allocated and no call made. -/
def World.ofLoop (el : EventLoop) : World := ⟨el, [], 0, []⟩

/-- A fresh loop of capacity 16 with clock 0 installed. -/
def worldWithClock : World := World.ofLoop { freshLoop 16 with nowProc := some 0 }

/-- The state after `CreateTimeEvent(el, 0, callback 5, 9, finalizer 6)` in
`worldWithClock`, under `procsNoRepeat`. -/
def worldOneTimer : World :=
  { el := { freshLoop 16 with nowProc := some 0, timeEventNextId := 1, timeEventHead := some 0 }
    heap := [⟨1, 5000, some 5, some 6, none, none, none, 0⟩]
    reads := 1
    calls := [] }

/-- The state after a second `CreateTimeEvent(el, 0, callback 5, 9, finalizer 6)`,
in `worldOneTimer`: the list is entry 2, then entry 1. -/
def worldTwoTimers : World :=
  { el := { freshLoop 16 with nowProc := some 0, timeEventNextId := 2, timeEventHead := some 1 }
    heap := [⟨1, 5000, some 5, some 6, none, some 1, none, 0⟩,
             ⟨2, 5000, some 5, some 6, none, none, some 0, 0⟩]
    reads := 2
    calls := [] }

/-- The state after `DeleteTimeEvent(el, 2)` in `worldTwoTimers`: the head entry
carries the tombstone id. -/
def worldHeadDeleted : World :=
  { worldTwoTimers with
    heap := [⟨1, 5000, some 5, some 6, none, some 1, none, 0⟩,
             ⟨-1, 5000, some 5, some 6, none, none, some 0, 0⟩] }

/-- A loop of capacity 16 whose slot 3 has the given mask and handlers, client
data 7, and whose fired buffer starts with `(3, Readable|Writable)`. -/
def worldFired (mask : Int) (r w : Option Nat) : World :=
  World.ofLoop
    { freshLoop 16 with
      maxfd := 3
      events := (freshLoop 16).events.set 3 ⟨mask, r, w, some 7⟩
      fired := (freshLoop 16).fired.set 0 ⟨3, 3⟩ }

/-- `Linked heap p nodes`: the entries reached from the pointer `p` by following
`next` are, in order, `nodes`, and the last `next` is nil. -/
def Linked (heap : List TimeEvent) : Option Nat → List TimeEvent → Prop
  | none, [] => True
  | some p, node :: rest => heap[p]? = some node ∧ Linked heap node.next rest
  | none, _ :: _ => False
  | some _, [] => False

/-- The update of `earlist` by one entry (event_loop.go 205-207). -/
def earlier (earlist : Option TimeEvent) (node : TimeEvent) : Option TimeEvent :=
  match earlist with
  | none => some node
  | some e => if node.when < e.when then some node else some e

/-- User code that leaves the world as it is, with timer callbacks that ask for
a repeat after 100 ms and a clock that advances by one second per reading,
starting 5 seconds after the epoch. -/
def procsRepeat : Procs :=
  { fileProc := fun _ w _ _ _ => w
    timeProc := fun _ w _ _ => (100, w)
    finalizerProc := fun _ w _ => w
    sleepProc := fun _ w => w
    nowProc := fun _ k => 5000000000 + 1000000000 * (k : Int) }

/-- `DSeg heap pv p l q`: starting from the pointer `p`, whose predecessor is
`pv`, the doubly linked entries at the addresses `l` follow one another through
`next`, each `prev` pointing back to the entry before, and the `next` of the
last one is `q`. -/
def DSeg (heap : List TimeEvent) : Option Nat → Option Nat → List Nat → Option Nat → Prop
  | _, p, [], q => p = q
  | pv, p, a :: l, q =>
    p = some a ∧ ∃ node, heap[a]? = some node ∧ node.prev = pv ∧ DSeg heap (some a) node.next l q

/-- The timer list of `w` in the middle of a traversal: the entries at `kept`
lie between the head and the pointer `te`, the entries at `rest` from `te` to
the end, and no entry occurs twice. -/
def TimerList (w : World) (kept : List Nat) (te : Option Nat) (rest : List Nat) : Prop :=
  DSeg w.heap none w.el.timeEventHead kept te ∧
  DSeg w.heap kept.getLast? te rest none ∧
  (kept ++ rest).Nodup

/-- User code that hands the world back as it received it: timer callbacks and
finalizers that touch neither the loop nor the timers (their results are
free). -/
def Passive (ps : Procs) : Prop :=
  (∀ p w id cd, (ps.timeProc p w id cd).2 = w) ∧ ∀ f w cd, ps.finalizerProc f w cd = w

/-- `Frame heap heap' a`: every entry of `heap` is still there in `heap'` with the
same callback, and, except for the entry at `a`, the same id and due time. -/
def Frame (heap heap' : List TimeEvent) (a : Nat) : Prop :=
  ∀ x n, heap[x]? = some n →
    ∃ n', heap'[x]? = some n' ∧ n'.timeProc = n.timeProc ∧ (x ≠ a → n'.id = n.id ∧ n'.when = n.when)

/-- The loop `loopWithReader` after `DeleteFileEvent(el, 3, Readable)`: no
descriptor is registered and `maxfd` is the sentinel. -/
def loopIdle : EventLoop :=
  { freshLoop 16 with
    maxfd := -1
    events := (freshLoop 16).events.set 3 ⟨KE_Event_None, some 1, none, some 7⟩ }

/-- The state `worldTwoTimers` after one pass under `procsNoRepeat`: the callback
of entry 1 has run and returned `-1`, the entry carries the tombstone id. -/
def worldAfterNoRepeat : World :=
  { worldTwoTimers with
    heap := [⟨-1, 5000, some 5, some 6, none, some 1, none, 0⟩,
             ⟨2, 5000, some 5, some 6, none, none, some 0, 0⟩]
    reads := 4
    calls := [Call.timeProc 5 1 none] }

/-- The state `worldAfterNoRepeat` after a second pass: entry 1 is unlinked and
its finalizer has run. -/
def worldAfterSweep : World :=
  { worldTwoTimers with
    heap := [⟨-1, 5000, some 5, some 6, none, some 1, none, 0⟩,
             ⟨2, 5000, some 5, some 6, none, none, none, 0⟩]
    reads := 6
    calls := [Call.timeProc 5 1 none, Call.finalizerProc 6 none] }

/-- The loop of capacity 16 after `ResizeSetSize(el, 32)`. -/
def loopGrown : EventLoop :=
  { freshLoop 16 with
    apiData := ⟨3, List.replicate 32 EpollEvent.zero⟩
    events := List.replicate 32 fileEvent.zero
    fired := List.replicate 32 firedEvent.zero }

/-- The loop of capacity 16 after `ResizeSetSize(el, 8)`. -/
def loopShrunk : EventLoop :=
  { freshLoop 16 with
    apiData := ⟨3, List.replicate 8 EpollEvent.zero⟩
    events := List.replicate 8 fileEvent.zero
    fired := List.replicate 8 firedEvent.zero }

/-- User code as `procsRepeat`, except that every timer callback creates a new
timer with delay 0 (callback 5, no finalizer) before it returns 100. -/
def procsSpawn : Procs :=
  { procsRepeat with
    timeProc := fun _ w _ _ =>
      match CreateTimeEvent procsRepeat w 0 (some 5) none none with
      | .ok (_, w') => (100, w')
      | .error _ => (100, w) }

/-- The world in which the callback of entry 1 runs during a pass on
`worldTwoTimers`: the pass has read the clock once, `refcount` of the entry is
1 and the call is on record. -/
def worldInCallback : World :=
  { worldTwoTimers with
    heap := [⟨1, 5000, some 5, some 6, none, some 1, none, 1⟩,
             ⟨2, 5000, some 5, some 6, none, none, some 0, 0⟩]
    reads := 3
    calls := [Call.timeProc 5 1 none] }

/-- The world `worldInCallback` after the callback has created timer 3. -/
def worldSpawned : World :=
  { el := { freshLoop 16 with nowProc := some 0, timeEventNextId := 3, timeEventHead := some 2 }
    heap := [⟨1, 5000, some 5, some 6, none, some 1, none, 1⟩,
             ⟨2, 5000, some 5, some 6, none, some 2, some 0, 0⟩,
             ⟨3, 8000, some 5, none, none, none, some 1, 0⟩]
    reads := 4
    calls := [Call.timeProc 5 1 none] }

/-- The world after a whole pass on `worldTwoTimers` under `procsSpawn`. -/
def worldAfterSpawnPass : World :=
  { worldSpawned with
    heap := [⟨1, 9100, some 5, some 6, none, some 1, none, 0⟩,
             ⟨2, 5000, some 5, some 6, none, some 2, some 0, 0⟩,
             ⟨3, 8000, some 5, none, none, none, some 1, 0⟩]
    reads := 5 }

/-- Whether a recorded call is a call of a finalizer. -/
def Call.isFinalizer : Call → Bool
  | .finalizerProc _ _ => true
  | _ => false

/-- Whether a recorded call is a call of a timer callback. -/
def Call.isTimeProc : Call → Bool
  | .timeProc _ _ _ => true
  | _ => false

/-- The call `te.finalizerProc(el, te.clientData)` for the entry at `a`, when the
entry has a finalizer. -/
def finCall (heap : List TimeEvent) (a : Nat) : Option Call :=
  match heap[a]? with
  | some n => n.finalizerProc.map fun f => Call.finalizerProc f n.clientData
  | none => none

/-- The call `te.timeProc(el, te.id, te.clientData)` for the entry at `a`. -/
def timeCall (heap : List TimeEvent) (a : Nat) : Option Call :=
  match heap[a]? with
  | some n => n.timeProc.map fun p => Call.timeProc p n.id n.clientData
  | none => none

/-- `Steady heap heap'`: the same entries are allocated, each with the callback,
finalizer, client data and reference count it had, and with the id it had or
the tombstone id. -/
def Steady (heap heap' : List TimeEvent) : Prop :=
  heap'.length = heap.length ∧
  ∀ (x : Nat) (n : TimeEvent), heap[x]? = some n →
    ∃ n' : TimeEvent, heap'[x]? = some n' ∧ n'.timeProc = n.timeProc ∧
      n'.finalizerProc = n.finalizerProc ∧ n'.clientData = n.clientData ∧
      n'.refcount = n.refcount ∧ (n'.id = n.id ∨ n'.id = KE_DeleteEventId)

/-- `Cancels w w'`: the timers of `w'` are those of `w` except for entries that
have been given the tombstone id, which is the effect of calls of
`DeleteTimeEvent` that return; the head of the list and the clock are the
same, and no call into user code has been made by the loop.  The descriptor
table, the other fields of the loop and the number of clock readings are
free. -/
def Cancels (w w' : World) : Prop :=
  (w'.el.timeEventHead = w.el.timeEventHead ∧ w'.el.nowProc = w.el.nowProc) ∧
  w'.calls = w.calls ∧ w'.heap.length = w.heap.length ∧
  ∀ (x : Nat) (n : TimeEvent), w.heap[x]? = some n →
    w'.heap[x]? = some n ∨ w'.heap[x]? = some { n with id := KE_DeleteEventId }

/-- User code whose only effect on the timers is to cancel some: the callbacks
and finalizers may tombstone any entries, their own included, may change the
descriptor table, and return anything; they create no timer and start no
nested pass. -/
def CancelOnly (ps : Procs) : Prop :=
  (∀ p w id cd, Cancels w (ps.timeProc p w id cd).2) ∧
  ∀ f w cd, Cancels w (ps.finalizerProc f w cd)

/-- User code as `procsRepeat`, except that every timer callback cancels its own
timer with `DeleteTimeEvent(el, id)` before it returns 100; where that call
does not return, the callback is taken to do nothing. -/
def procsCancelSelf : Procs :=
  { procsRepeat with
    timeProc := fun _ w id _ =>
      match DeleteTimeEvent 1 w id with
      | .ok (_, w') => (100, w')
      | .error _ => (100, w) }

/-- The state `worldHeadDeleted` after one pass under `procsCancelSelf`: entry 2
is unlinked and its finalizer has run; the callback of entry 1 has run, has
cancelled entry 1 and has returned 100; entry 1 is the list. -/
def worldSelfCancelled : World :=
  { worldTwoTimers with
    el := { worldTwoTimers.el with timeEventHead := some 0 }
    heap := [⟨-1, 9100, some 5, some 6, none, none, none, 0⟩,
             ⟨-1, 5000, some 5, some 6, none, none, some 0, 0⟩]
    reads := 5
    calls := [Call.finalizerProc 6 none, Call.timeProc 5 1 none] }

/-- The state `worldSelfCancelled` after a second pass: entry 1 is unlinked and
its finalizer has run; the list is empty. -/
def worldSelfSwept : World :=
  { worldSelfCancelled with
    el := { worldTwoTimers.el with timeEventHead := none }
    reads := 7
    calls := [Call.finalizerProc 6 none, Call.timeProc 5 1 none, Call.finalizerProc 6 none] }

/-- User code whose timer callbacks cancel their own timer with
`DeleteTimeEvent(el, id)`, then run a pass of `ProcessTimeEvents` in which the
callbacks do nothing, and return 100.  (Where a call does not return, the
callback is taken to stop there.) -/
def procsDepth2 : Procs :=
  { procsRepeat with
    timeProc := fun _ w id _ =>
      match DeleteTimeEvent 1 w id with
      | .ok (_, w1) =>
        match ProcessTimeEvents procsRepeat 3 w1 with
        | .ok (_, w2) => (100, w2)
        | .error _ => (100, w1)
      | .error _ => (100, w) }

/-- User code whose timer callbacks run a pass of `ProcessTimeEvents` in which
the callbacks behave as in `procsDepth2`, and return 100: the callback of a
timer that is due is entered a second time from the pass it starts. -/
def procsDepth1 : Procs :=
  { procsRepeat with
    timeProc := fun _ w _ _ =>
      match ProcessTimeEvents procsDepth2 3 w with
      | .ok (_, w') => (100, w')
      | .error _ => (100, w) }

/-- User code whose finalizers run a pass of `ProcessTimeEvents` in which the
finalizers do nothing. -/
def procsFinalizerPass : Procs :=
  { procsRepeat with
    finalizerProc := fun _ w _ =>
      match ProcessTimeEvents procsRepeat 3 w with
      | .ok (_, w') => w'
      | .error _ => w }

/-- The world handed to the callback of entry 1 by a pass on `worldHeadDeleted`:
the pass has unlinked entry 2 and called its finalizer, entry 1 is the list,
its `refcount` is 1 and the call is on record. -/
def worldDepth1 : World :=
  { worldTwoTimers with
    el := { worldTwoTimers.el with timeEventHead := some 0 }
    heap := [⟨1, 5000, some 5, some 6, none, none, none, 1⟩,
             ⟨-1, 5000, some 5, some 6, none, none, some 0, 0⟩]
    reads := 4
    calls := [Call.finalizerProc 6 none, Call.timeProc 5 1 none] }

/-- The world handed to the callback of entry 1 by the pass started in
`worldDepth1`: the callback is entered a second time, `refcount` is 2. -/
def worldDepth2 : World :=
  { worldDepth1 with
    heap := [⟨1, 5000, some 5, some 6, none, none, none, 2⟩,
             ⟨-1, 5000, some 5, some 6, none, none, some 0, 0⟩]
    reads := 5
    calls := [Call.finalizerProc 6 none, Call.timeProc 5 1 none, Call.timeProc 5 1 none] }

/-- The state after `DeleteTimeEvent(el, 1)` in `worldDepth2`: entry 1 carries
the tombstone id, with `refcount` 2. -/
def worldNested : World :=
  { worldDepth2 with
    heap := [⟨-1, 5000, some 5, some 6, none, none, none, 2⟩,
             ⟨-1, 5000, some 5, some 6, none, none, some 0, 0⟩] }

/-- The state after a pass in `worldNested`: entry 1 is unlinked and its
finalizer has been called. -/
def worldNestedSwept : World :=
  { worldNested with
    el := { worldTwoTimers.el with timeEventHead := none }
    reads := 7
    calls := [Call.finalizerProc 6 none, Call.timeProc 5 1 none, Call.timeProc 5 1 none,
              Call.finalizerProc 6 none] }

/-- The state in which the pass started in `worldDepth1` returns. -/
def worldDepth1Done : World :=
  { worldNestedSwept with
    heap := [⟨-1, 12100, some 5, some 6, none, none, none, 1⟩,
             ⟨-1, 5000, some 5, some 6, none, none, some 0, 0⟩]
    reads := 8 }

/-- The state in which the pass on `worldHeadDeleted` under `procsDepth1`
returns. -/
def worldOuterDone : World :=
  { worldNestedSwept with
    heap := [⟨-1, 13100, some 5, some 6, none, none, none, 0⟩,
             ⟨-1, 5000, some 5, some 6, none, none, some 0, 0⟩]
    reads := 9 }

/-- The state after `DeleteTimeEvent(el, 2)` in `worldAfterNoRepeat`: both
entries carry the tombstone id, with `refcount` 0. -/
def worldBothDeleted : World :=
  { worldAfterNoRepeat with
    heap := [⟨-1, 5000, some 5, some 6, none, some 1, none, 0⟩,
             ⟨-1, 5000, some 5, some 6, none, none, some 0, 0⟩] }

/-- The state in which the pass on `worldBothDeleted` under
`procsFinalizerPass` returns. -/
def worldTwiceFinalized : World :=
  { worldBothDeleted with
    el := { worldTwoTimers.el with timeEventHead := none }
    heap := [⟨-1, 5000, some 5, some 6, none, none, none, 0⟩,
             ⟨-1, 5000, some 5, some 6, none, none, some 0, 0⟩]
    reads := 10
    calls := [Call.timeProc 5 1 none, Call.finalizerProc 6 none, Call.finalizerProc 6 none,
              Call.finalizerProc 6 none] }

/-- User code as `procsRepeat`, except that every timer callback returns the
repeat value `MinInt64`. -/
def procsMinRepeat : Procs :=
  { procsRepeat with timeProc := fun _ w _ _ => (MinInt64, w) }

/-- The state `worldTwoTimers` after one pass under `procsMinRepeat`: the
callback of entry 1 has returned `MinInt64` after the reading 8000 ms. -/
def worldEarly : World :=
  { worldTwoTimers with
    heap := [⟨1, -9223372036854767808, some 5, some 6, none, some 1, none, 0⟩,
             ⟨2, 5000, some 5, some 6, none, none, some 0, 0⟩]
    reads := 4
    calls := [Call.timeProc 5 1 none] }

/-- User code that leaves the world as it is, with timer callbacks that return
the repeat value `MaxInt64` and a clock fixed at 5 seconds after the epoch. -/
def procsMaxRepeat : Procs := procsConst (fun _ => MaxInt64) (fun _ => 5000000000)

/-- The state `worldTwoTimers` after one pass under `procsMaxRepeat`: the
callback of entry 1 has returned `MaxInt64` after the reading 5000 ms. -/
def worldWrapped : World :=
  { worldTwoTimers with
    heap := [⟨1, -9223372036854770809, some 5, some 6, none, some 1, none, 0⟩,
             ⟨2, 5000, some 5, some 6, none, none, some 0, 0⟩]
    reads := 4
    calls := [Call.timeProc 5 1 none] }

/-- The state of a pass on `worldHeadDeleted` when the loop reaches entry 1:
entry 2 is unlinked, its finalizer has been called, and the clock has been
read twice. -/
def worldSweptHead : World :=
  { worldTwoTimers with
    el := { worldTwoTimers.el with timeEventHead := some 0 }
    heap := [⟨1, 5000, some 5, some 6, none, none, none, 0⟩,
             ⟨-1, 5000, some 5, some 6, none, none, some 0, 0⟩]
    reads := 4
    calls := [Call.finalizerProc 6 none] }

/-- The state `worldAfterSpawnPass` after a pass in which the callbacks create
nothing and return 100: the callbacks of timers 2 and 1 have been called. -/
def worldSecondPass : World :=
  { worldAfterSpawnPass with
    heap := [⟨1, 12100, some 5, some 6, none, some 1, none, 0⟩,
             ⟨2, 11100, some 5, some 6, none, some 2, some 0, 0⟩,
             ⟨3, 8000, some 5, none, none, none, some 1, 0⟩]
    reads := 8
    calls := [Call.timeProc 5 1 none, Call.timeProc 5 2 none, Call.timeProc 5 1 none] }

/-- The state `worldSecondPass` after one more such pass. -/
def worldThirdPass : World :=
  { worldAfterSpawnPass with
    heap := [⟨1, 15100, some 5, some 6, none, some 1, none, 0⟩,
             ⟨2, 14100, some 5, some 6, none, some 2, some 0, 0⟩,
             ⟨3, 8000, some 5, none, none, none, some 1, 0⟩]
    reads := 11
    calls := [Call.timeProc 5 1 none, Call.timeProc 5 2 none, Call.timeProc 5 1 none,
              Call.timeProc 5 2 none, Call.timeProc 5 1 none] }

/-! # Theorems -/

/-! ## Bit-mask facts -/

theorem lor_eq_zero_iff (a b : Int) : Int.lor a b = 0 ↔ a = 0 ∧ b = 0 := by
  cases a with
  | ofNat m =>
    cases b with
    | ofNat n =>
      show ((m ||| n : Nat) : Int) = 0 ↔ _
      constructor
      · intro h
        have h' : m ||| n = 0 := by exact_mod_cast h
        have hm : m = 0 := by
          apply Nat.eq_of_testBit_eq; intro i
          have := congrArg (fun x => x.testBit i) h'
          simp [Nat.testBit_or] at this; simp [this.1]
        have hn : n = 0 := by
          apply Nat.eq_of_testBit_eq; intro i
          have := congrArg (fun x => x.testBit i) h'
          simp [Nat.testBit_or] at this; simp [this.2]
        subst hm; subst hn; exact ⟨rfl, rfl⟩
      · rintro ⟨h1, h2⟩
        have hm : m = 0 := Int.ofNat.inj h1
        have hn : n = 0 := Int.ofNat.inj h2
        subst hm; subst hn; rfl
    | negSucc n =>
      constructor
      · intro h; exact absurd h (by simp [Int.lor])
      · rintro ⟨_, h2⟩; exact absurd h2 (by simp)
  | negSucc m =>
    constructor
    · intro h
      cases b <;> exact absurd h (by simp [Int.lor])
    · rintro ⟨h1, _⟩; exact absurd h1 (by simp)

theorem slot_eq_some {α : Type} {xs : List α} {i : Int} {x : α} (h : slot xs i = some x) :
    0 ≤ i ∧ xs[i.toNat]? = some x := by
  unfold slot at h
  split at h
  · cases h
  · exact ⟨by omega, h⟩

/-! ## Descriptor registration -/

theorem CreateEventLoop_osOk (n : Nat) : CreateEventLoop osOk n = .ok (some (freshLoop n)) := by
  have h : ¬ ((n : Int) < 0) := by omega
  simp [CreateEventLoop, h, ApiCreate, osOk, freshLoop, fileEvent.zero, KE_Event_None]

/-- C1, refuted as stated: on a fresh loop of capacity 16, `CreateFileEvent` with
descriptor 3, mask `None` and client data 7 returns true, and right afterwards
`GetFileClientData` for descriptor 3 returns nil, not 7. -/
theorem CreateFileEvent_none_mask_counterexample :
    CreateEventLoop osOk 16 = .ok (some (freshLoop 16)) ∧
    CreateFileEvent osOk (freshLoop 16) 3 KE_Event_None (some 1) (some 7)
      = .ok (true, loopAfterNoneCreate) ∧
    GetFileClientData loopAfterNoneCreate 3 = .ok none ∧
    GetFileClientData loopAfterNoneCreate 3 ≠ .ok (some 7) := by
  refine ⟨CreateEventLoop_osOk 16, by decide, by decide, by decide⟩

/-- What a successful `CreateFileEvent` leaves behind: the capacity, the slot
written and `maxfd`. -/
theorem CreateFileEvent_true_inv {os : Os} {el el' : EventLoop} {d mask : Int}
    {proc data : Option Nat} (h : CreateFileEvent os el d mask proc data = .ok (true, el')) :
    ∃ fe, slot el.events d = some fe ∧ d < el.setsize ∧
      el' = { el with
        events := el.events.set d.toNat (CreateFileEvent.update fe mask proc data)
        maxfd := if d > el.maxfd then d else el.maxfd } := by
  unfold CreateFileEvent at h
  split at h
  · simp at h
  · rename_i hlt
    cases hs : slot el.events d with
    | none => simp [hs] at h
    | some fe =>
      simp only [hs, ApiAddEvent] at h
      cases hc : os.EpollCtl el.apiData.EpFd
          (if KE_Event_None = fe.mask then EPOLL_CTL_ADD else EPOLL_CTL_MOD) d
          ⟨epollBits (Int.lor mask fe.mask), toInt32 d⟩ with
      | some e => simp [hc] at h
      | none =>
        simp only [hc] at h
        injection h with h
        injection h with _ h
        refine ⟨fe, rfl, by omega, ?_⟩
        subst h; split <;> rfl

/-- C1, amended: when `CreateFileEvent(el, d, mask, proc, data)` returns true,
`d <= maxfd` holds afterwards; `GetFileClientData(el, d)` returns `data` when
`mask` is not `None` or the slot already had a mask other than `None`, and it
returns nil when `mask` is `None` and the slot had mask `None`. -/
theorem CreateFileEvent_then_GetFileClientData (os : Os) (el el' : EventLoop) (d mask : Int)
    (proc data : Option Nat)
    (h : CreateFileEvent os el d mask proc data = .ok (true, el')) :
    d ≤ el'.maxfd ∧
    ∃ fe, slot el.events d = some fe ∧
      ((mask ≠ KE_Event_None ∨ fe.mask ≠ KE_Event_None) → GetFileClientData el' d = .ok data) ∧
      (mask = KE_Event_None ∧ fe.mask = KE_Event_None → GetFileClientData el' d = .ok none) := by
  obtain ⟨fe, hs, hlt, rfl⟩ := CreateFileEvent_true_inv h
  obtain ⟨h0, hget⟩ := slot_eq_some hs
  have hlen : d.toNat < el.events.length := by
    rcases Nat.lt_or_ge d.toNat el.events.length with hl | hl
    · exact hl
    · rw [List.getElem?_eq_none hl] at hget; cases hget
  have hslot : slot (el.events.set d.toNat (CreateFileEvent.update fe mask proc data)) d
      = some (CreateFileEvent.update fe mask proc data) := by
    have : ¬ d < 0 := by omega
    simp [slot, this, List.getElem?_set_self, hlen]
  refine ⟨?_, fe, hs, ?_, ?_⟩
  · show d ≤ (if d > el.maxfd then d else el.maxfd)
    split <;> omega
  · intro hm
    have hne : ¬ (Int.lor fe.mask mask = 0) := by
      rw [lor_eq_zero_iff]
      rintro ⟨h1, h2⟩
      rcases hm with hm | hm
      · exact hm h2
      · exact hm h1
    have : ¬ d ≥ el.setsize := by omega
    have hne' : ¬ ((CreateFileEvent.update fe mask proc data).mask = KE_Event_None) := hne
    simp only [GetFileClientData, if_neg this, hslot, if_neg hne']
    rfl
  · rintro ⟨h1, h2⟩
    have : ¬ d ≥ el.setsize := by omega
    have hz : Int.lor fe.mask mask = 0 := (lor_eq_zero_iff _ _).2 ⟨h2, h1⟩
    have hz' : (CreateFileEvent.update fe mask proc data).mask = KE_Event_None := hz
    simp only [GetFileClientData, if_neg this, hslot, if_pos hz']

/-- C1, amended, on a fresh loop of capacity 16: descriptor 3 registered for
`Readable` with client data 7. -/
theorem CreateFileEvent_then_GetFileClientData_witness :
    CreateFileEvent osOk (freshLoop 16) 3 KE_Event_Readable (some 1) (some 7)
      = .ok (true, loopWithReader) ∧
    (3 : Int) ≤ loopWithReader.maxfd ∧
    ∃ fe, slot (freshLoop 16).events 3 = some fe ∧
      ((KE_Event_Readable ≠ KE_Event_None ∨ fe.mask ≠ KE_Event_None) →
        GetFileClientData loopWithReader 3 = .ok (some 7)) ∧
      (KE_Event_Readable = KE_Event_None ∧ fe.mask = KE_Event_None →
        GetFileClientData loopWithReader 3 = .ok none) :=
  ⟨by decide,
    CreateFileEvent_then_GetFileClientData osOk (freshLoop 16) loopWithReader 3
      KE_Event_Readable (some 1) (some 7) (by decide)⟩

/-- C2: `CreateFileEvent` returns false and leaves the event loop as it was for
every descriptor `d >= setsize` (whatever the capacity), and also when the
backend registration `EpollCtl` reports an error for a descriptor of the
table. -/
theorem CreateFileEvent_fails_unchanged (os : Os) (el : EventLoop) (d mask : Int)
    (proc data : Option Nat) :
    (d ≥ el.setsize → CreateFileEvent os el d mask proc data = .ok (false, el)) ∧
    (∀ fe err, d < el.setsize → slot el.events d = some fe →
      ApiAddEvent os el d mask = .ok (some err) →
      CreateFileEvent os el d mask proc data = .ok (false, el)) := by
  constructor
  · intro h
    simp [CreateFileEvent, h]
  · intro fe err hlt hs herr
    have : ¬ d ≥ el.setsize := by omega
    simp [CreateFileEvent, this, hs, herr]

/-- C2 on the scenario of the specification: descriptor 20 on a loop of
capacity 16 is refused and `maxfd` keeps its value; on the same loop a backend
error for descriptor 3 is refused as well. -/
theorem CreateFileEvent_fails_unchanged_witness :
    CreateFileEvent osOk (freshLoop 16) 20 KE_Event_Readable (some 1) (some 7)
      = .ok (false, freshLoop 16) ∧
    CreateFileEvent osCtlFails (freshLoop 16) 3 KE_Event_Readable (some 1) (some 7)
      = .ok (false, freshLoop 16) :=
  ⟨(CreateFileEvent_fails_unchanged osOk (freshLoop 16) 20 KE_Event_Readable (some 1)
      (some 7)).1 (by decide),
   (CreateFileEvent_fails_unchanged osCtlFails (freshLoop 16) 3 KE_Event_Readable (some 1)
      (some 7)).2 fileEvent.zero 9 (by decide) (by decide) (by decide)⟩

/-! ## Capacity change -/

theorem slot_natCast {α : Type} (xs : List α) (i : Nat) : slot xs (i : Int) = xs[i]? := by
  have : ¬ ((i : Int) < 0) := by omega
  simp [slot, this]

theorem copySlice_length {α : Type} (dst src : List α) :
    (copySlice dst src).length = dst.length := by
  simp [copySlice]; omega

theorem copySlice_getElem? {α : Type} (dst src : List α) (k : Nat) :
    (copySlice dst src)[k]? =
      if k < src.length ∧ k < dst.length then src[k]? else dst[k]? := by
  unfold copySlice
  have hlen : (List.take dst.length src).length = min dst.length src.length := List.length_take _ _
  by_cases h2 : k < dst.length
  · by_cases h1 : k < src.length
    · have : k < (List.take dst.length src).length := by rw [hlen]; omega
      rw [List.getElem?_append_left this]
      simp [h1, h2, List.getElem?_take]
    · have h3 : (List.take dst.length src).length ≤ k := by rw [hlen]; omega
      rw [List.getElem?_append_right h3, hlen]
      have hmin : min dst.length src.length = src.length := by omega
      have hk : src.length + (k - src.length) = k := by omega
      simp only [h1, false_and, if_false, List.getElem?_drop, hmin, hk]
  · have h3 : (List.take dst.length src).length ≤ k := by rw [hlen]; omega
    rw [List.getElem?_append_right h3, hlen]
    have hr : ¬ (k < src.length ∧ k < dst.length) := by omega
    have hd : (List.drop src.length dst).length = dst.length - src.length := List.length_drop _ _
    rw [if_neg hr, List.getElem?_eq_none (by omega), List.getElem?_eq_none (by omega)]

/-- The clearing loop of `ResizeSetSize` returns, and it rewrites exactly the
masks of the slots `i, ..., i + n - 1`. -/
theorem ResizeSetSize.clear_spec (n : Nat) : ∀ (events : List fileEvent) (i : Nat),
    i + n ≤ events.length →
    ∃ ev', ResizeSetSize.clear events (i : Int) n = .ok ev' ∧ ev'.length = events.length ∧
      ∀ k, ev'[k]? = if i ≤ k ∧ k < i + n
        then (events[k]?).map (fun fe => { fe with mask := KE_Event_None })
        else events[k]? := by
  induction n with
  | zero =>
    intro events i _
    refine ⟨events, rfl, rfl, ?_⟩
    intro k
    have : ¬ (i ≤ k ∧ k < i + 0) := by omega
    rw [if_neg this]
  | succ n ih =>
    intro events i hlen
    have hi : i < events.length := by omega
    obtain ⟨ev', h1, h2, h3⟩ := ih (events.set i { events[i] with mask := KE_Event_None })
      (i + 1) (by simp; omega)
    refine ⟨ev', ?_, ?_, ?_⟩
    · unfold ResizeSetSize.clear
      rw [slot_natCast, List.getElem?_eq_getElem hi]
      simpa using h1
    · simpa using h2
    · intro k
      rw [h3 k]
      by_cases hk : k = i
      · subst hk
        have a1 : ¬ (k + 1 ≤ k ∧ k < k + 1 + n) := by omega
        have a2 : k ≤ k ∧ k < k + (n + 1) := by omega
        simp [a1, a2, List.getElem?_set_self, hi, List.getElem?_eq_getElem hi]
      · have hne : i ≠ k := fun h => hk h.symm
        rw [List.getElem?_set_ne hne]
        by_cases hr : i + 1 ≤ k ∧ k < i + 1 + n
        · have a2 : i ≤ k ∧ k < i + (n + 1) := by omega
          simp [hr, a2]
        · have a2 : ¬ (i ≤ k ∧ k < i + (n + 1)) := by omega
          simp [hr, a2]

/-- The downward scan of `DeleteFileEvent` stops at an index `j` between `-1` and
`n - 1` above which, below `n`, every slot has mask `None`. -/
theorem DeleteFileEvent.scan_spec (events : List fileEvent) : ∀ (n : Nat) (j : Int),
    DeleteFileEvent.scan events n = .ok j →
    -1 ≤ j ∧ j < n ∧ ∀ (k : Nat) (fe : fileEvent), j < k → k < n → events[k]? = some fe →
      fe.mask = KE_Event_None := by
  intro n
  induction n with
  | zero =>
    intro j h
    simp [DeleteFileEvent.scan] at h
    subst h
    refine ⟨by omega, by simp, ?_⟩
    intro k fe _ h2
    omega
  | succ n ih =>
    intro j h
    unfold DeleteFileEvent.scan at h
    cases he : events[n]? with
    | none => simp [he] at h
    | some fe0 =>
      simp only [he] at h
      by_cases hm : fe0.mask ≠ KE_Event_None
      · simp only [if_pos hm] at h
        injection h with h
        subst h
        refine ⟨by omega, by push_cast; omega, ?_⟩
        intro k fe h1 h2
        omega
      · simp only [if_neg hm] at h
        obtain ⟨a, b, c⟩ := ih j h
        refine ⟨a, by push_cast; omega, ?_⟩
        intro k fe h1 h2 h3
        by_cases hk : k = n
        · subst hk
          rw [he] at h3
          injection h3 with h3
          subst h3
          exact not_not.mp hm
        · exact c k fe h1 (by omega) h3

theorem CreateFileEvent_false_inv {os : Os} {el el' : EventLoop} {d mask : Int}
    {proc data : Option Nat} (h : CreateFileEvent os el d mask proc data = .ok (false, el')) :
    el' = el := by
  unfold CreateFileEvent at h
  split at h
  · injection h with h; injection h with _ h; exact h.symm
  · split at h
    · cases h
    · split at h
      · cases h
      · injection h with h; injection h with _ h; exact h.symm
      · injection h with h; injection h with h _; cases h

/-- The table a successful, effective `ResizeSetSize` builds: the old table
copied into a zeroed one of the new length, then cleared above `maxfd`. -/
theorem ResizeSetSize_inv {el el' : EventLoop} {c : Int} {b : Bool}
    (h : ResizeSetSize el c = .ok (b, el')) :
    el' = el ∨
    (b = true ∧ c ≠ el.setsize ∧ el.maxfd < c ∧ el'.maxfd = el.maxfd ∧
      el'.setsize = el.setsize ∧
      ResizeSetSize.clear (copySlice (List.replicate c.toNat fileEvent.zero) el.events)
        (el.maxfd + 1) (c - (el.maxfd + 1)).toNat = .ok el'.events) := by
  unfold ResizeSetSize at h
  split at h
  · left; injection h with h; injection h with _ h; exact h.symm
  · split at h
    · left; injection h with h; injection h with _ h; exact h.symm
    · split at h
      · cases h
      · rename_i h1 h2 h3
        simp only [ApiResize] at h
        split at h
        · cases h
        · rename_i ev hev
          injection h with h; injection h with hb h
          right
          subst h
          exact ⟨hb.symm, h1, by omega, rfl, rfl, hev⟩

theorem MaxfdBound_create {os : Os} {n : Int} {el : EventLoop}
    (h : CreateEventLoop os n = .ok (some el)) : MaxfdBound el := by
  unfold CreateEventLoop at h
  split at h
  · cases h
  · split at h
    · cases h
    · injection h with h; injection h with h
      subst h
      refine ⟨by simp, ?_⟩
      intro i fe _ hfe
      simp only [List.getElem?_map] at hfe
      cases hr : (List.replicate n.toNat fileEvent.zero)[i]? with
      | none => simp [hr] at hfe
      | some x => simp only [hr, Option.map_some'] at hfe; injection hfe with hfe; subst hfe; rfl

theorem MaxfdBound_createFile {os : Os} {el el' : EventLoop} {d mask : Int}
    {proc data : Option Nat} {b : Bool} (hb : MaxfdBound el)
    (h : CreateFileEvent os el d mask proc data = .ok (b, el')) : MaxfdBound el' := by
  cases b with
  | false => rw [CreateFileEvent_false_inv h]; exact hb
  | true =>
    obtain ⟨fe, hs, _, rfl⟩ := CreateFileEvent_true_inv h
    obtain ⟨h0, _⟩ := slot_eq_some hs
    refine ⟨?_, ?_⟩
    · show -1 ≤ (if d > el.maxfd then d else el.maxfd)
      split
      · omega
      · exact hb.1
    · intro i fe' hi hfe
      have hi' : (if d > el.maxfd then d else el.maxfd) < (i : Int) := hi
      have hne : d.toNat ≠ i := by
        intro he; split at hi' <;> omega
      have hfe' : (el.events.set d.toNat (CreateFileEvent.update fe mask proc data))[i]?
          = some fe' := hfe
      rw [List.getElem?_set_ne hne] at hfe'
      exact hb.2 i fe' (by split at hi' <;> omega) hfe'

theorem MaxfdBound_deleteFile {el el' : EventLoop} {fd mask : Int} (hb : MaxfdBound el)
    (h : DeleteFileEvent el fd mask = .ok el') : MaxfdBound el' := by
  unfold DeleteFileEvent at h
  split at h
  · injection h with h; subst h; exact hb
  · cases hs : slot el.events fd with
    | none => simp [hs] at h
    | some fe =>
      obtain ⟨h0, hget⟩ := slot_eq_some hs
      simp only [hs] at h
      split at h
      · injection h with h; subst h; exact hb
      · rename_i hmask
        simp only [ApiDeleteEvent, hs] at h
        split at h
        · rename_i hcond
          obtain ⟨hfd, hnew⟩ := hcond
          have hfd' : fd = el.maxfd := hfd
          split at h
          · injection h with h; subst h
            refine ⟨by show -1 ≤ el.maxfd - 1; omega, ?_⟩
            intro i fe' hi hfe
            have hi' : el.maxfd - 1 < (i : Int) := hi
            by_cases hk : fd.toNat = i
            · subst hk
              have hfe' := hfe
              simp only [List.getElem?_set_self'] at hfe'
              cases hq : el.events[fd.toNat]? with
              | none => simp [hq] at hfe'
              | some x =>
                simp only [hq, Option.map_some'] at hfe'
                injection hfe' with hfe'; subst hfe'; exact hnew
            · rw [show ({ el with events := _, maxfd := _ } : EventLoop).events[i]? = _ from
                List.getElem?_set_ne hk] at hfe
              exact hb.2 i fe' (by omega) hfe
          · rename_i hj
            split at h
            · cases h
            · rename_i j hscan
              injection h with h; subst h
              obtain ⟨a, b, c⟩ := DeleteFileEvent.scan_spec _ _ _ hscan
              refine ⟨a, ?_⟩
              intro i fe' hi hfe
              have hi' : j < (i : Int) := hi
              have hmx : ((el.maxfd.toNat : Nat) : Int) = el.maxfd := by
                have : 0 ≤ el.maxfd := by omega
                omega
              by_cases hlt : i < el.maxfd.toNat
              · exact c i fe' hi' hlt hfe
              · by_cases hk : fd.toNat = i
                · subst hk
                  have hfe' := hfe
                  simp only [List.getElem?_set_self'] at hfe'
                  cases hq : el.events[fd.toNat]? with
                  | none => simp [hq] at hfe'
                  | some x =>
                    simp only [hq, Option.map_some'] at hfe'
                    injection hfe' with hfe'; subst hfe'; exact hnew
                · rw [show ({ el with events := _, maxfd := _ } : EventLoop).events[i]? = _ from
                    List.getElem?_set_ne hk] at hfe
                  exact hb.2 i fe' (by omega) hfe
        · rename_i hcond
          injection h with h; subst h
          refine ⟨hb.1, ?_⟩
          intro i fe' hi hfe
          have hi' : el.maxfd < (i : Int) := hi
          by_cases hk : fd.toNat = i
          · subst hk
            have := hb.2 fd.toNat fe hi' hget
            exact absurd this hmask
          · rw [show ({ el with events := _ } : EventLoop).events[i]? = _ from
              List.getElem?_set_ne hk] at hfe
            exact hb.2 i fe' hi' hfe

/-- The table after the clearing loop of an effective `ResizeSetSize`, slot by
slot. -/
theorem ResizeSetSize.clear_copy (el : EventLoop) (c : Int) (h1 : -1 ≤ el.maxfd)
    (h2 : el.maxfd < c) :
    ∃ ev', ResizeSetSize.clear (copySlice (List.replicate c.toNat fileEvent.zero) el.events)
        (el.maxfd + 1) (c - (el.maxfd + 1)).toNat = .ok ev' ∧
      ev'.length = c.toNat ∧
      ∀ k, ev'[k]? = if (el.maxfd + 1).toNat ≤ k ∧ k < c.toNat
        then ((copySlice (List.replicate c.toNat fileEvent.zero) el.events)[k]?).map
          (fun fe => { fe with mask := KE_Event_None })
        else (copySlice (List.replicate c.toNat fileEvent.zero) el.events)[k]? := by
  have hlen : (copySlice (List.replicate c.toNat fileEvent.zero) el.events).length = c.toNat := by
    rw [copySlice_length]; simp
  have hsum : (el.maxfd + 1).toNat + (c - (el.maxfd + 1)).toNat = c.toNat := by omega
  obtain ⟨ev', a, b, d⟩ := ResizeSetSize.clear_spec (c - (el.maxfd + 1)).toNat
    (copySlice (List.replicate c.toNat fileEvent.zero) el.events) (el.maxfd + 1).toNat
    (by rw [hlen]; omega)
  have hcast : (((el.maxfd + 1).toNat : Nat) : Int) = el.maxfd + 1 := by omega
  rw [hcast] at a
  refine ⟨ev', a, by rw [b, hlen], ?_⟩
  intro k
  rw [d k, hsum]

theorem MaxfdBound_resize {el el' : EventLoop} {c : Int} {b : Bool} (hb : MaxfdBound el)
    (h : ResizeSetSize el c = .ok (b, el')) : MaxfdBound el' := by
  rcases ResizeSetSize_inv h with h | ⟨_, _, hlt, hmax, _, hclear⟩
  · rw [h]; exact hb
  · obtain ⟨ev', a, hl, d⟩ := ResizeSetSize.clear_copy el c hb.1 hlt
    rw [hclear] at a
    injection a with a
    refine ⟨by rw [hmax]; exact hb.1, ?_⟩
    intro i fe hi hfe
    rw [hmax] at hi
    rw [a, d i] at hfe
    by_cases hr : (el.maxfd + 1).toNat ≤ i ∧ i < c.toNat
    · rw [if_pos hr] at hfe
      cases hq : (copySlice (List.replicate c.toNat fileEvent.zero) el.events)[i]? with
      | none => simp [hq] at hfe
      | some x =>
        simp only [hq, Option.map_some'] at hfe
        injection hfe with hfe; subst hfe; rfl
    · rw [if_neg hr] at hfe
      have hge : c.toNat ≤ i := by omega
      rw [List.getElem?_eq_none (by rw [copySlice_length]; simpa using hge)] at hfe
      cases hfe

/-- Every reachable state keeps `maxfd` at or above the sentinel and at or above
every registered descriptor. -/
theorem Reachable.maxfdBound {el : EventLoop} (h : Reachable el) : MaxfdBound el := by
  induction h with
  | create os n el h => exact MaxfdBound_create h
  | createFile os el el' fd mask proc data b _ h ih => exact MaxfdBound_createFile ih h
  | deleteFile el el' fd mask _ h ih => exact MaxfdBound_deleteFile ih h
  | resize el el' c b _ h ih => exact MaxfdBound_resize ih h

/-- C3, refuted as stated: the loop created with capacity 0 has `maxfd = 0`, so
the new capacity `c = 0` satisfies `c <= maxfd`, and `ResizeSetSize(el, 0)`
returns true. -/
theorem ResizeSetSize_same_size_counterexample :
    CreateEventLoop osOk 0 = .ok (some (freshLoop 0)) ∧
    Reachable (freshLoop 0) ∧
    (0 : Int) ≤ (freshLoop 0).maxfd ∧
    ResizeSetSize (freshLoop 0) 0 = .ok (true, freshLoop 0) :=
  ⟨CreateEventLoop_osOk 0, Reachable.create osOk 0 _ (CreateEventLoop_osOk 0), by decide,
    by decide⟩

/-- C3, amended: on a reachable state `ResizeSetSize(el, c)` returns true and
changes nothing when `c` equals `setsize`; for any other `c` it returns false
and changes nothing when `c <= maxfd`, and returns true when `c > maxfd`. In
that last case the table has `c` slots, `maxfd` is kept, every old slot with
index below `c` is kept as it was (mask, handlers, client data), every
registration (slot whose mask is not `None`) is still at its index, and every
added slot has mask `None`. -/
theorem ResizeSetSize_spec (el : EventLoop) (h : Reachable el) (c : Int) :
    (c = el.setsize → ResizeSetSize el c = .ok (true, el)) ∧
    (c ≠ el.setsize → c ≤ el.maxfd → ResizeSetSize el c = .ok (false, el)) ∧
    (c ≠ el.setsize → el.maxfd < c →
      ∃ el', ResizeSetSize el c = .ok (true, el') ∧
        el'.maxfd = el.maxfd ∧ el'.events.length = c.toNat ∧
        (∀ i : Nat, (i : Int) < c → i < el.events.length → el'.events[i]? = el.events[i]?) ∧
        (∀ (i : Nat) (fe : fileEvent), el.events[i]? = some fe → fe.mask ≠ KE_Event_None →
          el'.events[i]? = some fe) ∧
        (∀ i : Nat, el.events.length ≤ i → (i : Int) < c →
          ∃ fe, el'.events[i]? = some fe ∧ fe.mask = KE_Event_None)) := by
  have hb := h.maxfdBound
  refine ⟨?_, ?_, ?_⟩
  · intro hc
    simp [ResizeSetSize, hc]
  · intro hc hle
    have : el.maxfd ≥ c := hle
    simp [ResizeSetSize, hc, this]
  · intro hc hlt
    obtain ⟨ev', a, hl, d⟩ := ResizeSetSize.clear_copy el c hb.1 hlt
    have h1 : ¬ el.maxfd ≥ c := by omega
    have h2 : ¬ c < 0 := by have := hb.1; omega
    have hkeep : ∀ i : Nat, (i : Int) < c → i < el.events.length →
        ev'[i]? = el.events[i]? := by
      intro i hic hil
      have hcopy : (copySlice (List.replicate c.toNat fileEvent.zero) el.events)[i]?
          = el.events[i]? := by
        rw [copySlice_getElem?]
        have : i < el.events.length ∧ i < (List.replicate c.toNat fileEvent.zero).length := by
          refine ⟨hil, ?_⟩
          simp; omega
        rw [if_pos this]
      rw [d i, hcopy]
      by_cases hr : (el.maxfd + 1).toNat ≤ i ∧ i < c.toNat
      · rw [if_pos hr, List.getElem?_eq_getElem hil]
        have hm := hb.2 i el.events[i] (by omega) (List.getElem?_eq_getElem hil)
        simp only [Option.map_some']
        rw [← hm]
      · rw [if_neg hr]
    refine ⟨{ el with
        apiData := (ApiResize el c).apiData
        fired := copySlice (List.replicate c.toNat firedEvent.zero) el.fired
        events := ev' }, ?_, rfl, hl, hkeep, ?_, ?_⟩
    · simp only [ResizeSetSize, if_neg hc, if_neg h1, if_neg h2]
      simp only [ApiResize] at a ⊢
      rw [a]
    · intro i fe hfe hm
      have hil : i < el.events.length := by
        rcases Nat.lt_or_ge i el.events.length with hl' | hl'
        · exact hl'
        · rw [List.getElem?_eq_none hl'] at hfe; cases hfe
      have hic : (i : Int) < c := by
        by_contra hcon
        exact hm (hb.2 i fe (by omega) hfe)
      show ev'[i]? = some fe
      rw [hkeep i hic hil, hfe]
    · intro i hil hic
      have hcopy : (copySlice (List.replicate c.toNat fileEvent.zero) el.events)[i]?
          = some fileEvent.zero := by
        rw [copySlice_getElem?]
        have : ¬ (i < el.events.length ∧ i < (List.replicate c.toNat fileEvent.zero).length) := by
          omega
        rw [if_neg this]
        have hlt' : i < c.toNat := by omega
        simp [hlt']
      show ∃ fe, ev'[i]? = some fe ∧ fe.mask = KE_Event_None
      rw [d i, hcopy]
      by_cases hr : (el.maxfd + 1).toNat ≤ i ∧ i < c.toNat
      · rw [if_pos hr]; exact ⟨_, rfl, rfl⟩
      · rw [if_neg hr]; exact ⟨_, rfl, rfl⟩

theorem Reachable_loopWithReader : Reachable loopWithReader :=
  Reachable.createFile osOk (freshLoop 16) loopWithReader 3 KE_Event_Readable (some 1) (some 7)
    true (Reachable.create osOk 16 _ (CreateEventLoop_osOk 16)) (by decide)

/-- C3, amended, on the loop of capacity 16 with descriptor 3 registered: new
capacities 16 (unchanged), 3 (refused) and 32 (grown). -/
theorem ResizeSetSize_spec_witness :
    Reachable loopWithReader ∧
    ResizeSetSize loopWithReader 16 = .ok (true, loopWithReader) ∧
    ResizeSetSize loopWithReader 3 = .ok (false, loopWithReader) ∧
    ∃ el', ResizeSetSize loopWithReader 32 = .ok (true, el') ∧
      el'.maxfd = loopWithReader.maxfd ∧ el'.events.length = (32 : Int).toNat ∧
      (∀ i : Nat, (i : Int) < 32 → i < loopWithReader.events.length →
        el'.events[i]? = loopWithReader.events[i]?) ∧
      (∀ (i : Nat) (fe : fileEvent), loopWithReader.events[i]? = some fe →
        fe.mask ≠ KE_Event_None → el'.events[i]? = some fe) ∧
      (∀ i : Nat, loopWithReader.events.length ≤ i → (i : Int) < 32 →
        ∃ fe, el'.events[i]? = some fe ∧ fe.mask = KE_Event_None) :=
  ⟨Reachable_loopWithReader,
    (ResizeSetSize_spec loopWithReader Reachable_loopWithReader 16).1 (by decide),
    (ResizeSetSize_spec loopWithReader Reachable_loopWithReader 3).2.1 (by decide) (by decide),
    (ResizeSetSize_spec loopWithReader Reachable_loopWithReader 32).2.2 (by decide) (by decide)⟩

/-! ## The `maxfd` sentinel -/

/-- C4, the code at the failing inputs: the loop returned by `CreateEventLoop`
has `maxfd = 0` although no slot is active (the sentinel is `-1`), and after a
successful `CreateFileEvent` with mask `None` for descriptor 3 `maxfd` is 3
although still no slot is active. -/
theorem CreateEventLoop_maxfd_not_sentinel :
    CreateEventLoop osOk 16 = .ok (some (freshLoop 16)) ∧
    (freshLoop 16).maxfd = 0 ∧ highestActive (freshLoop 16).events = -1 ∧
    CreateFileEvent osOk (freshLoop 16) 3 KE_Event_None (some 1) (some 7)
      = .ok (true, loopAfterNoneCreate) ∧
    loopAfterNoneCreate.maxfd = 3 ∧ highestActive loopAfterNoneCreate.events = -1 :=
  ⟨CreateEventLoop_osOk 16, by decide, by decide, by decide, by decide, by decide⟩

/-! ## One processing pass -/

/-- C5, the code on the scenario: capacity 16, descriptor 3 registered for
`Readable` with handler 1, an operating system that reports `(3, Readable)` on
every wait.  `ProcessEvents(el, KE_FileEvents)` returns 0 and calls no handler:
`maxfd` is 3, not `-1`, so the polling block is skipped. -/
theorem ProcessEvents_fileEvents_skips_poll (fuel : Nat) :
    CreateEventLoop osReady3 16 = .ok (some (freshLoop 16)) ∧
    CreateFileEvent osReady3 (freshLoop 16) 3 KE_Event_Readable (some 1) (some 7)
      = .ok (true, loopWithReader) ∧
    ProcessEvents procsNoRepeat osReady3 fuel (World.ofLoop loopWithReader) KE_FileEvents
      = .ok (0, World.ofLoop loopWithReader) ∧
    (World.ofLoop loopWithReader).calls = [] :=
  ⟨by decide, by decide, rfl, by decide⟩

/-- C6, the code on a descriptor registered for both directions with both
directions fired.  With distinct handlers 1 (read) and 2 (write) the order is
read, write without `Barrier` and write, read with `Barrier`.  With the same
handler 1 for both directions the handler is called twice, with or without
`Barrier`: the two addresses compared by the code always differ. -/
theorem ProcessEvents_fire_same_handler_twice :
    (ProcessEvents.fire procsNoRepeat (worldFired 3 (some 1) (some 2)) 0).map World.calls
      = .ok [Call.fileProc 1 3 (some 7) 3, Call.fileProc 2 3 (some 7) 3] ∧
    (ProcessEvents.fire procsNoRepeat (worldFired 7 (some 1) (some 2)) 0).map World.calls
      = .ok [Call.fileProc 2 3 (some 7) 3, Call.fileProc 1 3 (some 7) 3] ∧
    (ProcessEvents.fire procsNoRepeat (worldFired 3 (some 1) (some 1)) 0).map World.calls
      = .ok [Call.fileProc 1 3 (some 7) 3, Call.fileProc 1 3 (some 7) 3] ∧
    (ProcessEvents.fire procsNoRepeat (worldFired 7 (some 1) (some 1)) 0).map World.calls
      = .ok [Call.fileProc 1 3 (some 7) 3, Call.fileProc 1 3 (some 7) 3] ∧
    ∀ fd : Int, wFileProcAddr fd ≠ rFileProcAddr fd := by
  refine ⟨by decide, by decide, by decide, by decide, ?_⟩
  intro fd
  simp [wFileProcAddr, rFileProcAddr, fileEvent.wFileProcOffset, fileEvent.rFileProcOffset]

/-- C7, the code on the scenario: on a fresh loop with a fixed clock,
`CreateTimeEvent` with delay 0 returns id 1, and every later
`ProcessEvents(el, KE_TimeEvents|KE_DontWait)` returns 0 and leaves the list,
the timer and the record of calls as they were (only the clock has been read
once more): neither the callback nor the finalizer is ever called.  The pass
computes `maxId = timeEventNextId - 1 = 0` and skips the entry with id 1. -/
theorem ProcessEvents_newest_timer_never_fires (fuel k : Nat) :
    CreateTimeEvent procsNoRepeat worldWithClock 0 (some 5) (some 9) (some 6)
      = .ok (1, worldOneTimer) ∧
    ProcessEvents procsNoRepeat osOk (fuel + 2) { worldOneTimer with reads := k }
        (Int.lor KE_TimeEvents KE_DontWait)
      = .ok (0, { worldOneTimer with reads := k + 1 }) ∧
    ({ worldOneTimer with reads := k + 1 } : World).calls = [] :=
  ⟨by decide, rfl, rfl⟩

/-! ## Timer deletion -/

/-- When the entry `te` does not carry the requested id, the loop of
`DeleteTimeEvent` runs out of any amount of fuel. -/
theorem DeleteTimeEvent.loop_stuck (id : Int) (w : World) (te : Nat) (node : TimeEvent)
    (hl : load w.heap te = .ok node) (hne : node.id ≠ id) :
    ∀ fuel, DeleteTimeEvent.loop id fuel w (some te) = .error Fault.outOfFuel := by
  intro fuel
  induction fuel with
  | zero => rfl
  | succ n ih =>
    unfold DeleteTimeEvent.loop
    simp only [hl, if_neg hne]
    exact ih

/-- The state after `DeleteTimeEvent(el, 2)` in `worldTwoTimers`. -/
theorem DeleteTimeEvent_head (fuel : Nat) :
    DeleteTimeEvent (fuel + 1) worldTwoTimers 2
      = .ok (true, worldHeadDeleted) :=
  rfl

/-- C9, the code at the failing inputs.  With the list entry 2, entry 1:
`DeleteTimeEvent(el, 1)`, for the live id 1 that is not at the head, does not
return whatever the fuel; neither does `DeleteTimeEvent(el, 7)` for an id that
was never given out; and after `DeleteTimeEvent(el, 2)` has returned true, a
second `DeleteTimeEvent(el, 2)` does not return either. -/
theorem DeleteTimeEvent_not_head_never_returns (fuel : Nat) :
    CreateTimeEvent procsNoRepeat worldOneTimer 0 (some 5) (some 9) (some 6)
      = .ok (2, worldTwoTimers) ∧
    DeleteTimeEvent fuel worldTwoTimers 1 = .error Fault.outOfFuel ∧
    DeleteTimeEvent fuel worldTwoTimers 7 = .error Fault.outOfFuel ∧
    DeleteTimeEvent 1 worldTwoTimers 2 = .ok (true, worldHeadDeleted) ∧
    DeleteTimeEvent fuel worldHeadDeleted 2 = .error Fault.outOfFuel :=
  ⟨by decide,
    DeleteTimeEvent.loop_stuck 1 worldTwoTimers 1
      ⟨2, 5000, some 5, some 6, none, none, some 0, 0⟩ rfl (by decide) fuel,
    DeleteTimeEvent.loop_stuck 7 worldTwoTimers 1
      ⟨2, 5000, some 5, some 6, none, none, some 0, 0⟩ rfl (by decide) fuel,
    by decide,
    DeleteTimeEvent.loop_stuck 2 worldHeadDeleted 1
      ⟨-1, 5000, some 5, some 6, none, none, some 0, 0⟩ rfl (by decide) fuel⟩

/-! ## The earliest timer -/

/-- On a linked list the scan of `UntilEarliestTimer` returns as soon as the fuel
exceeds the length, with the fold of `earlier` over the entries. -/
theorem UntilEarliestTimer.scan_linked (heap : List TimeEvent) :
    ∀ (nodes : List TimeEvent) (p : Option Nat) (acc : Option TimeEvent) (fuel : Nat),
      Linked heap p nodes → nodes.length < fuel →
      UntilEarliestTimer.scan heap fuel p acc = .ok (nodes.foldl earlier acc) := by
  intro nodes
  induction nodes with
  | nil =>
    intro p acc fuel hl hf
    cases p with
    | some q => exact absurd hl (by simp [Linked])
    | none =>
      cases fuel with
      | zero => simp at hf
      | succ n => rfl
  | cons node rest ih =>
    intro p acc fuel hl hf
    cases p with
    | none => exact absurd hl (by simp [Linked])
    | some q =>
      cases fuel with
      | zero => simp at hf
      | succ n =>
        obtain ⟨h1, h2⟩ := hl
        have hload : load heap q = .ok node := by simp [load, h1]
        unfold UntilEarliestTimer.scan
        simp only [hload]
        have := ih node.next (earlier acc node) n h2 (by simpa using hf)
        simpa [earlier] using this

/-- The fold of `earlier` picks an entry whose due time is minimal. -/
theorem foldl_earlier_min : ∀ (nodes : List TimeEvent) (a : TimeEvent),
    ∃ m, nodes.foldl earlier (some a) = some m ∧ (m = a ∨ m ∈ nodes) ∧
      m.when ≤ a.when ∧ ∀ x ∈ nodes, m.when ≤ x.when := by
  intro nodes
  induction nodes with
  | nil => intro a; exact ⟨a, rfl, Or.inl rfl, le_refl _, by simp⟩
  | cons node rest ih =>
    intro a
    by_cases hlt : node.when < a.when
    · obtain ⟨m, h1, h2, h3, h4⟩ := ih node
      refine ⟨m, ?_, ?_, by omega, ?_⟩
      · simpa [List.foldl, earlier, hlt] using h1
      · rcases h2 with h2 | h2
        · right; simp [h2]
        · right; simp [h2]
      · intro x hx
        rcases List.mem_cons.1 hx with hx | hx
        · subst hx; exact h3
        · exact h4 x hx
    · obtain ⟨m, h1, h2, h3, h4⟩ := ih a
      refine ⟨m, ?_, ?_, h3, ?_⟩
      · simpa [List.foldl, earlier, hlt] using h1
      · rcases h2 with h2 | h2
        · left; exact h2
        · right; simp [h2]
      · intro x hx
        rcases List.mem_cons.1 hx with hx | hx
        · subst hx; omega
        · exact h4 x hx

theorem wrap64_eq (x : Int) (h1 : MinInt64 ≤ x) (h2 : x ≤ MaxInt64) : wrap64 x = x := by
  unfold MinInt64 at h1
  unfold MaxInt64 at h2
  unfold wrap64
  omega

/-- C8, the claim at an input where it fails.  On the list entry 2, entry 1 the
callback of entry 1 returns the repeat value `MinInt64` after the reading
8000 ms, which leaves the entry due at `MinInt64 + 8000`.  At the reading
9000 ms `UntilEarliestTimer` subtracts in `int64`: the difference wraps around
and the call returns 9223372036854774808, where `max(0, m - now)` is 0. -/
theorem UntilEarliestTimer_overflow_counterexample :
    ProcessTimeEvents procsMinRepeat 3 worldTwoTimers = .ok (1, worldEarly) ∧
    worldEarly.heap.map TimeEvent.when = [-9223372036854767808, 5000] ∧
    UnixMilli (procsMinRepeat.nowProc 0 worldEarly.reads) = 9000 ∧
    UntilEarliestTimer procsMinRepeat 3 worldEarly
      = .ok (9223372036854774808, { worldEarly with reads := 5 }) ∧
    max (0 : Int) (-9223372036854767808 - 9000) = 0 := by
  refine ⟨by decide, by decide, by decide, by decide, by decide⟩

/-- C8, as amended: for every linked timer list (tombstoned entries included),
every clock and enough fuel for the scan, `UntilEarliestTimer` returns; the
result is `-1` exactly when the list is empty, and for a non-empty list it is
`max(0, d)`, where `d` is the `int64` difference `m - now` of the least `when`
of the entries and the clock reading in milliseconds; whenever `m - now` is
within `int64`, the result is `max(0, m - now)`. -/
theorem UntilEarliestTimer_spec (ps : Procs) (w : World) (nodes : List TimeEvent) (h fuel : Nat)
    (hl : Linked w.heap w.el.timeEventHead nodes) (hc : w.el.nowProc = some h)
    (hf : nodes.length < fuel) :
    ∃ r w', UntilEarliestTimer ps fuel w = .ok (r, w') ∧ (r = -1 ↔ nodes = []) ∧
      (nodes ≠ [] → ∃ m ∈ nodes, (∀ x ∈ nodes, m.when ≤ x.when) ∧
        r = max 0 (wrap64 (m.when - UnixMilli (ps.nowProc h w.reads))) ∧
        (MinInt64 ≤ m.when - UnixMilli (ps.nowProc h w.reads) →
          m.when - UnixMilli (ps.nowProc h w.reads) ≤ MaxInt64 →
          r = max 0 (m.when - UnixMilli (ps.nowProc h w.reads)))) := by
  cases nodes with
  | nil =>
    cases hh : w.el.timeEventHead with
    | some q => rw [hh] at hl; exact absurd hl (by simp [Linked])
    | none =>
      refine ⟨-1, w, ?_, by simp, by simp⟩
      simp [UntilEarliestTimer, hh]
  | cons node rest =>
    cases hh : w.el.timeEventHead with
    | none => rw [hh] at hl; exact absurd hl (by simp [Linked])
    | some q =>
      have hscan := UntilEarliestTimer.scan_linked w.heap (node :: rest) (some q) none fuel
        (by rw [← hh]; exact hl) hf
      obtain ⟨m, h1, h2, h3, h4⟩ := foldl_earlier_min rest node
      have hfold : (node :: rest).foldl earlier none = some m := by
        simpa [List.foldl, earlier] using h1
      rw [hfold] at hscan
      have hmem : m ∈ node :: rest := by
        rcases h2 with h2 | h2
        · simp [h2]
        · simp [h2]
      have hmin : ∀ x ∈ node :: rest, m.when ≤ x.when := by
        intro x hx
        rcases List.mem_cons.1 hx with hx | hx
        · subst hx; exact h3
        · exact h4 x hx
      by_cases hd : wrap64 (m.when - UnixMilli (ps.nowProc h w.reads)) < 0
      · refine ⟨0, { w with reads := w.reads + 1 }, ?_, by simp, ?_⟩
        · unfold UntilEarliestTimer
          simp only [hh, hscan, callNow, hc, if_pos hd]
        · intro _
          refine ⟨m, hmem, hmin, by omega, ?_⟩
          intro hlo hhi
          rw [wrap64_eq _ hlo hhi] at hd
          omega
      · refine ⟨wrap64 (m.when - UnixMilli (ps.nowProc h w.reads)),
          { w with reads := w.reads + 1 }, ?_, ?_, ?_⟩
        · unfold UntilEarliestTimer
          simp only [hh, hscan, callNow, hc, if_neg hd]
        · constructor
          · intro he; omega
          · intro he; cases he
        · intro _
          refine ⟨m, hmem, hmin, by omega, ?_⟩
          intro hlo hhi
          rw [wrap64_eq _ hlo hhi] at hd ⊢
          omega

/-- C8 on the list entry 2, entry 1 with the clock at 5 s. -/
theorem UntilEarliestTimer_spec_witness :
    ∃ r w', UntilEarliestTimer procsNoRepeat 3 worldTwoTimers = .ok (r, w') ∧
      (r = -1 ↔ worldTwoTimers.heap.reverse = []) ∧
      (worldTwoTimers.heap.reverse ≠ [] → ∃ m ∈ worldTwoTimers.heap.reverse,
        (∀ x ∈ worldTwoTimers.heap.reverse, m.when ≤ x.when) ∧
        r = max 0 (wrap64 (m.when - UnixMilli (procsNoRepeat.nowProc 0 worldTwoTimers.reads))) ∧
        (MinInt64 ≤ m.when - UnixMilli (procsNoRepeat.nowProc 0 worldTwoTimers.reads) →
          m.when - UnixMilli (procsNoRepeat.nowProc 0 worldTwoTimers.reads) ≤ MaxInt64 →
          r = max 0 (m.when - UnixMilli (procsNoRepeat.nowProc 0 worldTwoTimers.reads)))) :=
  UntilEarliestTimer_spec procsNoRepeat worldTwoTimers worldTwoTimers.heap.reverse 0 3
    ⟨rfl, rfl, trivial⟩ rfl (by decide)

/-! ## Rescheduling a repeating timer -/

/-- For arbitrary user code: the iteration of `ProcessTimeEvents` on a live entry `te` that is due
and within `maxId` calls the callback (with `refcount` raised); when the
callback returns `retval` other than `-1`, leaving the world `w1`, the
iteration ends in `w1` with one more clock reading and with the entry `te`
rewritten in two fields only: `refcount` lowered by one and
`when = now + retval` (an `int64` sum, which wraps around), where `now` is the
clock reading taken after the callback returned.  The previous due time does not occur in the result, the entry is not
unlinked, and its id is the one the callback left: the same live id when the
callback did not write it. -/
theorem ProcessTimeEvents.visit_repeat (ps : Procs) (maxId : Int) (w w1 : World) (te : Nat)
    (processed now retval : Int) (node node1 : TimeEvent) (p h : Nat)
    (hload : w.heap[te]? = some node)
    (hlive : node.id ≠ KE_DeleteEventId) (hid : node.id ≤ maxId) (hdue : node.when ≤ now)
    (hproc : node.timeProc = some p)
    (hcall : ps.timeProc p
      (World.record { w with heap := w.heap.set te { node with refcount := node.refcount + 1 } }
        (Call.timeProc p node.id node.clientData)) node.id node.clientData = (retval, w1))
    (hret : retval ≠ -1)
    (hnode1 : w1.heap[te]? = some node1)
    (hclock : w1.el.nowProc = some h) :
    ProcessTimeEvents.visit ps maxId w te processed now = .ok
      ⟨{ w1 with
          reads := w1.reads + 1
          heap := w1.heap.set te
            { node1 with
              refcount := node1.refcount - 1
              when := wrap64 (UnixMilli (ps.nowProc h w1.reads) + retval) } },
        node1.next, processed + 1, UnixMilli (ps.nowProc h w1.reads)⟩ ∧
    (node1.id = node.id →
      ∃ e, (w1.heap.set te
          { node1 with
            refcount := node1.refcount - 1
            when := wrap64 (UnixMilli (ps.nowProc h w1.reads) + retval) })[te]? = some e ∧
        e.id = node.id ∧ e.id ≠ KE_DeleteEventId ∧
        e.when = wrap64 (UnixMilli (ps.nowProc h w1.reads) + retval) ∧
        e.next = node1.next ∧ e.prev = node1.prev) := by
  have hlt : te < w1.heap.length := by
    rcases Nat.lt_or_ge te w1.heap.length with hl | hl
    · exact hl
    · rw [List.getElem?_eq_none hl] at hnode1; cases hnode1
  constructor
  · have hl : load w.heap te = .ok node := by simp [load, hload]
    have hgt : ¬ node.id > maxId := by omega
    have hcall' := hcall
    simp only [hproc] at hcall'
    unfold ProcessTimeEvents.visit
    simp only [hl, if_neg hlive, if_neg hgt, if_pos hdue, hproc, hcall']
    simp only [store, hnode1, callNow, hclock]
    simp [hret, List.getElem?_set_self, hlt, load]
  · intro hsame
    refine ⟨{ node1 with
        refcount := node1.refcount - 1
        when := wrap64 (UnixMilli (ps.nowProc h w1.reads) + retval) },
      by simp [List.getElem?_set_self, hlt], hsame, ?_, rfl, rfl, rfl⟩
    show node1.id ≠ KE_DeleteEventId
    rw [hsame]; exact hlive

/-- A whole pass on the list entry 2, entry 1 with a clock that advances one
second per reading: the pass reads 7 s, skips entry 2, calls the callback of
entry 1 (due at 5 s), reads 8 s after the callback returned 100, and leaves
entry 1 due at 8000 + 100 ms. -/
theorem ProcessTimeEvents_repeat_pass :
    ProcessTimeEvents procsRepeat 3 worldTwoTimers = .ok
      (1, { worldTwoTimers with
        heap := [⟨1, 8100, some 5, some 6, none, some 1, none, 0⟩,
                 ⟨2, 5000, some 5, some 6, none, none, some 0, 0⟩]
        reads := 4
        calls := [Call.timeProc 5 1 none] }) := by
  decide

/-! ## The doubly linked timer list during a pass -/

theorem DSeg_congr {heap heap' : List TimeEvent} : ∀ (l : List Nat) (pv p q : Option Nat),
    (∀ x ∈ l, ∀ n, heap[x]? = some n →
      ∃ n', heap'[x]? = some n' ∧ n'.prev = n.prev ∧ n'.next = n.next) →
    DSeg heap pv p l q → DSeg heap' pv p l q := by
  intro l
  induction l with
  | nil => intro pv p q _ h; exact h
  | cons a l ih =>
    intro pv p q hag h
    obtain ⟨hp, node, hn, hpv, hrest⟩ := h
    obtain ⟨n', h1, h2, h3⟩ := hag a (by simp) node hn
    refine ⟨hp, n', h1, by rw [h2, hpv], ?_⟩
    rw [h3]
    exact ih (some a) node.next q (fun x hx => hag x (by simp [hx])) hrest

theorem DSeg_head {heap : List TimeEvent} {pv p : Option Nat} {l : List Nat}
    (h : DSeg heap pv p l none) : p = l.head? := by
  cases l with
  | nil => exact h
  | cons a l => exact h.1

theorem DSeg_snoc {heap : List TimeEvent} : ∀ (l : List Nat) (pv p : Option Nat) (a : Nat)
    (node : TimeEvent), DSeg heap pv p l (some a) → heap[a]? = some node →
    node.prev = (match l.getLast? with | some x => some x | none => pv) →
    DSeg heap pv p (l ++ [a]) node.next := by
  intro l
  induction l with
  | nil =>
    intro pv p a node h hn hpv
    exact ⟨h, node, hn, by simpa using hpv, rfl⟩
  | cons b l ih =>
    intro pv p a node h hn hpv
    obtain ⟨hp, nb, hb, hbp, hrest⟩ := h
    refine ⟨hp, nb, hb, hbp, ?_⟩
    apply ih (some b) nb.next a node hrest hn
    cases l with
    | nil => simpa using hpv
    | cons c l => simpa [List.getLast?_cons_cons] using hpv

/-- Redirecting the `next` pointer of the last entry of a segment. -/
theorem DSeg_set_last {heap : List TimeEvent} : ∀ (l : List Nat) (pv p q q' : Option Nat) (x : Nat)
    (nx : TimeEvent), DSeg heap pv p (l ++ [x]) q → x ∉ l → heap[x]? = some nx →
    DSeg (heap.set x { nx with next := q' }) pv p (l ++ [x]) q' := by
  intro l
  induction l with
  | nil =>
    intro pv p q q' x nx h _ hx
    obtain ⟨hp, node, hn, hpv, _⟩ := h
    have hlt : x < heap.length := by
      rcases Nat.lt_or_ge x heap.length with hl | hl
      · exact hl
      · rw [List.getElem?_eq_none hl] at hx; cases hx
    rw [hx] at hn; injection hn with hn; subst hn
    exact ⟨hp, { nx with next := q' }, by simp [List.getElem?_set_self, hlt], hpv, rfl⟩
  | cons b l ih =>
    intro pv p q q' x nx h hnot hx
    obtain ⟨hp, nb, hb, hbp, hrest⟩ := h
    have hne : x ≠ b := by intro he; apply hnot; simp [he]
    refine ⟨hp, nb, by rw [List.getElem?_set_ne hne]; exact hb, hbp, ?_⟩
    exact ih (some b) nb.next q q' x nx hrest (by intro hm; apply hnot; simp [hm]) hx

theorem DSeg_valid {heap : List TimeEvent} : ∀ (l : List Nat) (pv p q : Option Nat) (x : Nat),
    DSeg heap pv p l q → x ∈ l → ∃ n, heap[x]? = some n := by
  intro l
  induction l with
  | nil => intro pv p q x _ hx; cases hx
  | cons a l ih =>
    intro pv p q x h hx
    obtain ⟨_, node, hn, _, hrest⟩ := h
    rcases List.mem_cons.1 hx with hx | hx
    · subst hx; exact ⟨node, hn⟩
    · exact ih (some a) node.next q x hrest hx

theorem store_ok {heap : List TimeEvent} {p : Nat} {t : TimeEvent} (f : TimeEvent → TimeEvent)
    (h : heap[p]? = some t) : store heap p f = .ok (heap.set p (f t)) := by
  simp [store, h]

theorem getElem?_lt {heap : List TimeEvent} {p : Nat} {t : TimeEvent} (h : heap[p]? = some t) :
    p < heap.length := by
  rcases Nat.lt_or_ge p heap.length with hl | hl
  · exact hl
  · rw [List.getElem?_eq_none hl] at h; cases h

theorem getElem?_set_valid {heap : List TimeEvent} {p : Nat} {t : TimeEvent} (v : TimeEvent)
    (h : heap[p]? = some t) : (heap.set p v)[p]? = some v := by
  simp [List.getElem?_set_self, getElem?_lt h]

/-- Unlinking the entry under the traversal pointer keeps the list doubly
linked, with the traversal pointer on the next entry. -/
theorem ProcessTimeEvents.unlink_timerList (w : World) (kept rest : List Nat) (a : Nat)
    (node : TimeEvent) (hl : TimerList w kept (some a) (a :: rest))
    (hn : w.heap[a]? = some node) :
    ∃ w', ProcessTimeEvents.unlink w node = .ok w' ∧ TimerList w' kept node.next rest ∧
      w'.el.nowProc = w.el.nowProc ∧ w'.reads = w.reads ∧ w'.calls = w.calls ∧
      w'.heap.length = w.heap.length ∧
      ∀ (x : Nat) (n : TimeEvent), w.heap[x]? = some n →
        ∃ n' : TimeEvent, w'.heap[x]? = some n' ∧ n'.timeProc = n.timeProc ∧ n'.id = n.id ∧
          n'.when = n.when ∧ n'.finalizerProc = n.finalizerProc ∧
          n'.clientData = n.clientData ∧ n'.refcount = n.refcount := by
  obtain ⟨hk, hr, hnd⟩ := hl
  obtain ⟨_, node0, hn0, hprev, hrest⟩ := hr
  rw [hn] at hn0; injection hn0 with hn0; subst hn0
  have hnd' : (kept ++ rest).Nodup := by
    have := hnd
    rw [List.nodup_append] at this ⊢
    obtain ⟨h1, h2, h3⟩ := this
    refine ⟨h1, (List.nodup_cons.1 h2).2, ?_⟩
    intro x hx hx'
    exact h3 hx (by simp [hx'])
  have ha_kept : a ∉ kept := by
    intro hm
    rw [List.nodup_append] at hnd
    exact hnd.2.2 hm (by simp)
  have ha_rest : a ∉ rest := by
    rw [List.nodup_append] at hnd
    exact (List.nodup_cons.1 hnd.2.1).1
  have hnext : node.next = rest.head? := DSeg_head hrest
  -- first store: the `next` of the predecessor, or the head
  rcases List.eq_nil_or_concat kept with hkept | ⟨init, pvp, hkept⟩
  · subst hkept
    have hpn : node.prev = none := by simpa using hprev
    cases rest with
    | nil =>
      have hnn : node.next = none := by simpa using hnext
      refine ⟨{ w with el := { w.el with timeEventHead := node.next } }, ?_, ?_, rfl, rfl, rfl, by simp, ?_⟩
      · simp [ProcessTimeEvents.unlink, hpn, hnn]
      · refine ⟨rfl, ?_, by simp⟩
        show DSeg w.heap _ node.next [] none
        exact hnn
      · intro x n hx; exact ⟨n, hx, rfl, rfl, rfl, rfl, rfl, rfl⟩
    | cons n rest' =>
      have hnn : node.next = some n := by simpa using hnext
      obtain ⟨_, nn, hnv, hnp, hnrest⟩ := hrest
      refine ⟨{ w with el := { w.el with timeEventHead := node.next },
                       heap := w.heap.set n { nn with prev := node.prev } }, ?_, ?_, rfl, rfl, rfl, by simp, ?_⟩
      · simp [ProcessTimeEvents.unlink, hpn, hnn, store, hnv]
      · refine ⟨rfl, ?_, hnd'⟩
        refine ⟨hnn, { nn with prev := node.prev }, ?_, by simpa using hpn, ?_⟩
        · show (w.heap.set n _)[n]? = _
          simp [List.getElem?_set_self, getElem?_lt hnv]
        · apply DSeg_congr rest' _ _ _ _ hnrest
          intro x hx m hm
          have hne : n ≠ x := by
            intro he; subst he
            have := hnd'
            simp at this
            exact this.1 hx
          exact ⟨m, by rw [List.getElem?_set_ne hne]; exact hm, rfl, rfl⟩
      · intro x m hx
        by_cases he : n = x
        · subst he
          rw [hnv] at hx; injection hx with hx; subst hx
          exact ⟨{ nn with prev := node.prev },
            by simp [List.getElem?_set_self, getElem?_lt hnv], rfl, rfl, rfl, rfl, rfl, rfl⟩
        · exact ⟨m, by rw [List.getElem?_set_ne he]; exact hx, rfl, rfl, rfl, rfl, rfl, rfl⟩
  · rw [List.concat_eq_append] at hkept
    subst hkept
    have hpn : node.prev = some pvp := by simpa using hprev
    obtain ⟨npv, hpv⟩ := DSeg_valid _ _ _ _ pvp hk (by simp)
    have hpvp_init : pvp ∉ init := by
      have := hnd'
      rw [List.nodup_append] at this
      have h1 := this.1
      rw [List.nodup_append] at h1
      intro hm
      exact h1.2.2 hm (by simp)
    have hfirst := DSeg_set_last init none w.el.timeEventHead (some a) node.next pvp npv hk
      hpvp_init hpv
    cases rest with
    | nil =>
      have hnn : node.next = none := by simpa using hnext
      refine ⟨{ w with heap := w.heap.set pvp { npv with next := node.next } }, ?_, ?_, rfl, rfl, rfl, by simp, ?_⟩
      · simp [ProcessTimeEvents.unlink, hpn, hnn, store, hpv]
      · refine ⟨hfirst, ?_, hnd'⟩
        show DSeg _ _ node.next [] none
        exact hnn
      · intro x m hx
        by_cases he : pvp = x
        · subst he
          rw [hpv] at hx; injection hx with hx; subst hx
          exact ⟨{ npv with next := node.next },
            by simp [List.getElem?_set_self, getElem?_lt hpv], rfl, rfl, rfl, rfl, rfl, rfl⟩
        · exact ⟨m, by rw [List.getElem?_set_ne he]; exact hx, rfl, rfl, rfl, rfl, rfl, rfl⟩
    | cons n rest' =>
      have hnn : node.next = some n := by simpa using hnext
      obtain ⟨_, nn, hnv, hnp, hnrest⟩ := hrest
      have hne_pn : pvp ≠ n := by
        intro he
        have := hnd'
        rw [List.nodup_append] at this
        exact this.2.2 (show pvp ∈ init ++ [pvp] by simp) (by simp [he])
      rw [hnn] at hfirst
      have hnv' : (w.heap.set pvp { npv with next := some n })[n]? = some nn := by
        rw [List.getElem?_set_ne hne_pn]; exact hnv
      refine ⟨{ w with heap := ((w.heap.set pvp { npv with next := some n }).set n
                  { nn with prev := some pvp }) }, ?_, ?_, rfl, rfl, rfl, by simp, ?_⟩
      · unfold ProcessTimeEvents.unlink
        simp only [hpn, hnn, store_ok _ hpv, store_ok _ hnv']
      · rw [hnn]
        refine ⟨?_, ?_, hnd'⟩
        · apply DSeg_congr (init ++ [pvp]) _ _ _ _ hfirst
          intro x hx m hm
          have hne : n ≠ x := by
            intro he; subst he
            have := hnd'
            rw [List.nodup_append] at this
            exact this.2.2 hx (by simp)
          exact ⟨m, by rw [List.getElem?_set_ne hne]; exact hm, rfl, rfl⟩
        · refine ⟨rfl, { nn with prev := some pvp }, ?_, by simp, ?_⟩
          · exact getElem?_set_valid _ hnv'
          · apply DSeg_congr rest' _ _ _ _ hnrest
            intro x hx m hm
            have hne : n ≠ x := by
              intro he; subst he
              have := hnd'
              rw [List.nodup_append] at this
              exact (List.nodup_cons.1 this.2.1).1 hx
            have hne2 : pvp ≠ x := by
              intro he; subst he
              have := hnd'
              rw [List.nodup_append] at this
              exact this.2.2 (show pvp ∈ init ++ [pvp] by simp) (by simp [hx])
            exact ⟨m, by rw [List.getElem?_set_ne hne, List.getElem?_set_ne hne2]; exact hm,
              rfl, rfl⟩
      · intro x m hx
        by_cases he : n = x
        · subst he
          rw [hnv] at hx; injection hx with hx; subst hx
          exact ⟨{ nn with prev := some pvp }, getElem?_set_valid _ hnv', rfl, rfl, rfl, rfl, rfl, rfl⟩
        · by_cases he2 : pvp = x
          · subst he2
            rw [hpv] at hx; injection hx with hx; subst hx
            refine ⟨{ npv with next := some n }, ?_, rfl, rfl, rfl, rfl, rfl, rfl⟩
            rw [List.getElem?_set_ne he]
            simp [List.getElem?_set_self, getElem?_lt hpv]
          · exact ⟨m, by rw [List.getElem?_set_ne he, List.getElem?_set_ne he2]; exact hx,
              rfl, rfl, rfl, rfl, rfl, rfl⟩

theorem TimerList_of_eq {w w' : World} {kept rest : List Nat} {te : Option Nat}
    (hh : w'.heap = w.heap) (he : w'.el.timeEventHead = w.el.timeEventHead)
    (hl : TimerList w kept te rest) : TimerList w' kept te rest := by
  unfold TimerList at hl ⊢
  rw [hh, he]
  exact hl

/-- A visit that leaves the link fields alone moves the entry under the
traversal pointer to the visited part. -/
theorem TimerList_advance {w w' : World} {kept rest : List Nat} {a : Nat} {node : TimeEvent}
    (hl : TimerList w kept (some a) (a :: rest)) (hn : w.heap[a]? = some node)
    (hhead : w'.el.timeEventHead = w.el.timeEventHead)
    (hag : ∀ (x : Nat) (n : TimeEvent), w.heap[x]? = some n →
      ∃ n' : TimeEvent, w'.heap[x]? = some n' ∧ n'.prev = n.prev ∧ n'.next = n.next) :
    TimerList w' (kept ++ [a]) node.next rest := by
  obtain ⟨hk, hr, hnd⟩ := hl
  obtain ⟨_, node0, hn0, hprev, hrest⟩ := hr
  rw [hn] at hn0; injection hn0 with hn0; subst hn0
  refine ⟨?_, ?_, by simpa using hnd⟩
  · rw [hhead]
    apply DSeg_congr (kept ++ [a]) _ _ _ (fun x _ n hx => hag x n hx)
    apply DSeg_snoc kept none _ a node hk hn
    rw [hprev]
    cases kept.getLast? <;> rfl
  · have : (kept ++ [a]).getLast? = some a := by simp
    rw [this]
    exact DSeg_congr rest _ _ _ (fun x _ n hx => hag x n hx) hrest

/-- The iteration of `ProcessTimeEvents` that calls the callback of `te`: the
callback leaves the world `w1`; afterwards `refcount` is lowered, the clock is
read, and the entry is rescheduled or tombstoned. -/
theorem ProcessTimeEvents.visit_fire (ps : Procs) (maxId : Int) (w w1 : World) (te : Nat)
    (processed now retval : Int) (node node1 : TimeEvent) (p h : Nat)
    (hload : w.heap[te]? = some node)
    (hlive : node.id ≠ KE_DeleteEventId) (hid : node.id ≤ maxId) (hdue : node.when ≤ now)
    (hproc : node.timeProc = some p)
    (hcall : ps.timeProc p
      (World.record { w with heap := w.heap.set te { node with refcount := node.refcount + 1 } }
        (Call.timeProc p node.id node.clientData)) node.id node.clientData = (retval, w1))
    (hnode1 : w1.heap[te]? = some node1)
    (hclock : w1.el.nowProc = some h) :
    ProcessTimeEvents.visit ps maxId w te processed now = .ok
      ⟨{ w1 with
          reads := w1.reads + 1
          heap := w1.heap.set te
            (if retval ≠ -1
              then { node1 with
                      refcount := node1.refcount - 1
                      when := wrap64 (UnixMilli (ps.nowProc h w1.reads) + retval) }
              else { node1 with refcount := node1.refcount - 1, id := KE_DeleteEventId }) },
        node1.next, processed + 1, UnixMilli (ps.nowProc h w1.reads)⟩ := by
  have hlt : te < w1.heap.length := getElem?_lt hnode1
  have hl : load w.heap te = .ok node := by simp [load, hload]
  have hgt : ¬ node.id > maxId := by omega
  have hcall' := hcall
  simp only [hproc] at hcall'
  unfold ProcessTimeEvents.visit
  simp only [hl, if_neg hlive, if_neg hgt, if_pos hdue, hproc, hcall']
  simp only [store, hnode1, callNow, hclock]
  by_cases hret : retval = -1
  · simp [hret, List.getElem?_set_self, hlt, load]
  · simp [hret, List.getElem?_set_self, hlt, load]

theorem Frame_refl (heap : List TimeEvent) (a : Nat) : Frame heap heap a :=
  fun _ n hx => ⟨n, hx, rfl, fun _ => ⟨rfl, rfl⟩⟩

/-- One iteration of the loop of `ProcessTimeEvents` under user code that hands
the world back: it returns, moves the traversal pointer to the next entry of
the list, keeps the list doubly linked (the visited entry is kept, or unlinked
when it is a tombstone), and writes the id and due time of no other entry. -/
theorem ProcessTimeEvents.visit_timerList (ps : Procs) (hp : Passive ps) (maxId : Int) (w : World)
    (kept rest : List Nat) (a : Nat) (node : TimeEvent) (h : Nat) (processed now : Int)
    (hl : TimerList w kept (some a) (a :: rest)) (hn : w.heap[a]? = some node)
    (hclock : w.el.nowProc = some h) (hproc : node.timeProc ≠ none) :
    ∃ it kept', ProcessTimeEvents.visit ps maxId w a processed now = .ok it ∧
      it.te = rest.head? ∧ it.w.el.nowProc = some h ∧ Frame w.heap it.w.heap a ∧
      TimerList it.w kept' it.te rest ∧ (kept' = kept ∨ kept' = kept ++ [a]) ∧
      (node.id ≠ KE_DeleteEventId → kept' = kept ++ [a]) := by
  have hnext : node.next = rest.head? := by
    obtain ⟨_, node0, hn0, _, hrest⟩ := hl.2.1
    rw [hn] at hn0; injection hn0 with hn0; subst hn0
    exact DSeg_head hrest
  have hload : load w.heap a = .ok node := by simp [load, hn]
  have hadv : TimerList w (kept ++ [a]) node.next rest :=
    TimerList_advance hl hn rfl (fun x n hx => ⟨n, hx, rfl, rfl⟩)
  by_cases hid : node.id = KE_DeleteEventId
  · by_cases hrc : 1 = node.refcount
    · refine ⟨⟨w, node.next, processed, now⟩, kept ++ [a], ?_, hnext, hclock, Frame_refl _ _,
        hadv, Or.inr rfl, fun hne => absurd hid hne⟩
      unfold ProcessTimeEvents.visit
      simp only [hload, if_pos hid, if_pos hrc]
    · obtain ⟨w1, hu, htl, hclk, hreads, _, _, hfr⟩ :=
        ProcessTimeEvents.unlink_timerList w kept rest a node hl hn
      have hframe : Frame w.heap w1.heap a := by
        intro x n hx
        obtain ⟨n', h1, h2, h3, h4, _⟩ := hfr x n hx
        exact ⟨n', h1, h2, fun _ => ⟨h3, h4⟩⟩
      cases hf : node.finalizerProc with
      | none =>
        refine ⟨⟨w1, node.next, processed, now⟩, kept, ?_, hnext, by rw [hclk]; exact hclock,
          hframe, htl, Or.inl rfl, fun hne => absurd hid hne⟩
        unfold ProcessTimeEvents.visit
        simp only [hload, if_pos hid, if_neg hrc, hu, hf]
      | some f =>
        have hclk1 : (w1.record (Call.finalizerProc f node.clientData)).el.nowProc = some h := by
          show w1.el.nowProc = some h
          rw [hclk]; exact hclock
        refine ⟨⟨{ w1.record (Call.finalizerProc f node.clientData) with reads := w1.reads + 1 },
          node.next, processed, UnixMilli (ps.nowProc h w1.reads)⟩, kept, ?_, hnext, hclk1,
          hframe, TimerList_of_eq rfl rfl htl, Or.inl rfl, fun hne => absurd hid hne⟩
        unfold ProcessTimeEvents.visit
        simp only [hload, if_pos hid, if_neg hrc, hu, hf, hp.2, callNow, hclk1]
        rfl
  · by_cases hgt : node.id > maxId
    · refine ⟨⟨w, node.next, processed, now⟩, kept ++ [a], ?_, hnext, hclock, Frame_refl _ _,
        hadv, Or.inr rfl, fun _ => rfl⟩
      unfold ProcessTimeEvents.visit
      simp only [hload, if_neg hid, if_pos hgt]
    · by_cases hdue : node.when ≤ now
      · cases hpp : node.timeProc with
        | none => exact absurd hpp hproc
        | some p =>
          have hcall : ps.timeProc p
              (World.record
                { w with heap := w.heap.set a { node with refcount := node.refcount + 1 } }
                (Call.timeProc p node.id node.clientData)) node.id node.clientData
              = ((ps.timeProc p
                  (World.record
                    { w with heap := w.heap.set a { node with refcount := node.refcount + 1 } }
                    (Call.timeProc p node.id node.clientData)) node.id node.clientData).1,
                World.record
                  { w with heap := w.heap.set a { node with refcount := node.refcount + 1 } }
                  (Call.timeProc p node.id node.clientData)) :=
            Prod.ext rfl (hp.1 _ _ _ _)
          have hnode1 : (World.record
              { w with heap := w.heap.set a { node with refcount := node.refcount + 1 } }
              (Call.timeProc p node.id node.clientData)).heap[a]?
                = some { node with refcount := node.refcount + 1 } :=
            getElem?_set_valid _ hn
          have hfire := ProcessTimeEvents.visit_fire ps maxId w _ a processed now _ node _ p h hn hid
            (by omega) hdue hpp hcall hnode1 hclock
          refine ⟨_, kept ++ [a], hfire, hnext, hclock, ?_, ?_, Or.inr rfl, fun _ => rfl⟩
          · intro x n hx
            by_cases hxa : x = a
            · subst hxa
              rw [hn] at hx; injection hx with hx; subst hx
              refine ⟨_, getElem?_set_valid _ hnode1, ?_, fun hne => absurd rfl hne⟩
              split <;> rfl
            · have hne : a ≠ x := fun he => hxa he.symm
              refine ⟨n, ?_, rfl, fun _ => ⟨rfl, rfl⟩⟩
              show ((w.heap.set a _).set a _)[x]? = some n
              rw [List.getElem?_set_ne hne, List.getElem?_set_ne hne]
              exact hx
          · refine TimerList_advance hl hn ?_ ?_
            · rfl
            intro x n hx
            by_cases hxa : x = a
            · subst hxa
              rw [hn] at hx; injection hx with hx; subst hx
              refine ⟨_, getElem?_set_valid _ hnode1, ?_, ?_⟩
              · split <;> rfl
              · split <;> rfl
            · have hne : a ≠ x := fun he => hxa he.symm
              refine ⟨n, ?_, rfl, rfl⟩
              show ((w.heap.set a _).set a _)[x]? = some n
              rw [List.getElem?_set_ne hne, List.getElem?_set_ne hne]
              exact hx
      · refine ⟨⟨w, node.next, processed, now⟩, kept ++ [a], ?_, hnext, hclock, Frame_refl _ _,
          hadv, Or.inr rfl, fun _ => rfl⟩
        unfold ProcessTimeEvents.visit
        simp only [hload, if_neg hid, if_neg hgt, if_neg hdue]

/-- From any point of the traversal of a doubly linked list, under user code
that hands the world back, the loop of `ProcessTimeEvents` returns once the
fuel exceeds the number of entries left; the entries already visited are still
linked at the end, with the id and due time they had. -/
theorem ProcessTimeEvents.loop_timerList (ps : Procs) (hp : Passive ps) (maxId : Int) (h : Nat) :
    ∀ (rest kept : List Nat) (it : ProcessTimeEvents.Iter) (fuel : Nat),
      TimerList it.w kept it.te rest → it.w.el.nowProc = some h →
      (∀ x ∈ rest, ∀ n : TimeEvent, it.w.heap[x]? = some n → n.timeProc ≠ none) →
      rest.length < fuel →
      ∃ (n : Int) (w' : World) (L : List Nat),
        ProcessTimeEvents.loop ps maxId fuel it = .ok (n, w') ∧
        DSeg w'.heap none w'.el.timeEventHead (kept ++ L) none ∧
        ∀ x ∈ kept, ∀ m : TimeEvent, it.w.heap[x]? = some m →
          ∃ m' : TimeEvent, w'.heap[x]? = some m' ∧ m'.id = m.id ∧ m'.when = m.when := by
  intro rest
  induction rest with
  | nil =>
    intro kept it fuel hl _ _ hf
    cases fuel with
    | zero => simp at hf
    | succ f =>
      have hte : it.te = none := hl.2.1
      refine ⟨it.processed, it.w, [], ?_, ?_, fun x _ m hm => ⟨m, hm, rfl, rfl⟩⟩
      · unfold ProcessTimeEvents.loop
        simp only [hte]
      · have := hl.1
        rw [hte] at this
        simpa using this
  | cons a rest ih =>
    intro kept it fuel hl hclock hprocs hf
    cases fuel with
    | zero => simp at hf
    | succ f =>
      have hte : it.te = some a := hl.2.1.1
      rw [hte] at hl
      obtain ⟨node, hn⟩ := DSeg_valid _ _ _ _ a hl.2.1 (by simp)
      obtain ⟨it', kept', hv, hte', hclock', hframe, hl', hkept, _⟩ :=
        ProcessTimeEvents.visit_timerList ps hp maxId it.w kept rest a node h it.processed it.now
          hl hn hclock (hprocs a (by simp) node hn)
      have hnd : (kept ++ a :: rest).Nodup := hl.2.2
      have ha_kept : a ∉ kept := by
        intro hm
        rw [List.nodup_append] at hnd
        exact hnd.2.2 hm (by simp)
      have ha_rest : a ∉ rest := by
        rw [List.nodup_append] at hnd
        exact (List.nodup_cons.1 hnd.2.1).1
      have hprocs' : ∀ x ∈ rest, ∀ n : TimeEvent, it'.w.heap[x]? = some n → n.timeProc ≠ none := by
        intro x hx n hxn
        obtain ⟨n0, hn0⟩ := DSeg_valid _ _ _ _ x hl.2.1 (by simp [hx])
        obtain ⟨n1, h1, h2, _⟩ := hframe x n0 hn0
        rw [hxn] at h1; injection h1 with h1; subst h1
        rw [h2]
        exact hprocs x (by simp [hx]) n0 hn0
      obtain ⟨n, w', L, hloop, hseg, hkeep⟩ :=
        ih kept' it' f hl' hclock' hprocs' (by simpa using hf)
      have hsub : ∀ x ∈ kept, x ∈ kept' := by
        intro x hx
        rcases hkept with hk | hk
        · rw [hk]; exact hx
        · rw [hk]; simp [hx]
      refine ⟨n, w', (if kept' = kept then L else a :: L), ?_, ?_, ?_⟩
      · unfold ProcessTimeEvents.loop
        simp only [hte, hv]
        exact hloop
      · rcases hkept with hk | hk
        · rw [if_pos hk, ← hk]; exact hseg
        · have hne : kept' ≠ kept := by
            rw [hk]; intro he
            have := congrArg List.length he
            simp at this
          rw [if_neg hne]
          rw [hk] at hseg
          simpa using hseg
      · intro x hx m hm
        have hxa : x ≠ a := fun he => ha_kept (he ▸ hx)
        obtain ⟨m1, h1, _, h3⟩ := hframe x m hm
        obtain ⟨m', h4, h5, h6⟩ := hkeep x (hsub x hx) m1 h1
        exact ⟨m', h4, by rw [h5, (h3 hxa).1], by rw [h6, (h3 hxa).2]⟩

/-- Rescheduling under user code that hands the world back as it got it: let
the loop of `ProcessTimeEvents` stand on an entry `a` of a doubly linked timer
list, the entry being live, within `maxId` and due, and let its callback
return `retval` other than `-1`.  Then the pass returns, and at the end of the
pass the entry `a` is still linked in the list, carries the same id, and is
due at the `int64` sum of `retval` and the clock reading taken after the
callback returned. -/
theorem ProcessTimeEvents.loop_repeat_passive (ps : Procs) (hp : Passive ps) (maxId : Int) (w : World)
    (kept rest : List Nat) (a : Nat) (node : TimeEvent) (p h fuel : Nat)
    (processed now retval : Int)
    (hl : TimerList w kept (some a) (a :: rest))
    (hload : w.heap[a]? = some node)
    (hlive : node.id ≠ KE_DeleteEventId) (hid : node.id ≤ maxId) (hdue : node.when ≤ now)
    (hproc : node.timeProc = some p)
    (hcall : (ps.timeProc p
      (World.record { w with heap := w.heap.set a { node with refcount := node.refcount + 1 } }
        (Call.timeProc p node.id node.clientData)) node.id node.clientData).1 = retval)
    (hret : retval ≠ -1)
    (hclock : w.el.nowProc = some h)
    (hprocs : ∀ x ∈ rest, ∀ n : TimeEvent, w.heap[x]? = some n → n.timeProc ≠ none)
    (hfuel : rest.length + 1 < fuel) :
    ∃ (n : Int) (w' : World) (L : List Nat) (e : TimeEvent),
      ProcessTimeEvents.loop ps maxId fuel ⟨w, some a, processed, now⟩ = .ok (n, w') ∧
      DSeg w'.heap none w'.el.timeEventHead L none ∧ a ∈ L ∧
      w'.heap[a]? = some e ∧ e.id = node.id ∧ e.id ≠ KE_DeleteEventId ∧
      e.when = wrap64 (UnixMilli (ps.nowProc h w.reads) + retval) := by
  cases fuel with
  | zero => simp at hfuel
  | succ f =>
    have hpn : node.timeProc ≠ none := by rw [hproc]; simp
    obtain ⟨it, kept', hv, _, hclock', hframe, hl', _, hk⟩ :=
      ProcessTimeEvents.visit_timerList ps hp maxId w kept rest a node h processed now hl hload
        hclock hpn
    have hk' : kept' = kept ++ [a] := hk hlive
    subst hk'
    -- the entry as the visit leaves it
    have hc : ps.timeProc p
        (World.record { w with heap := w.heap.set a { node with refcount := node.refcount + 1 } }
          (Call.timeProc p node.id node.clientData)) node.id node.clientData
        = (retval, World.record
            { w with heap := w.heap.set a { node with refcount := node.refcount + 1 } }
            (Call.timeProc p node.id node.clientData)) :=
      Prod.ext hcall (hp.1 _ _ _ _)
    have hnode1 : (World.record
        { w with heap := w.heap.set a { node with refcount := node.refcount + 1 } }
        (Call.timeProc p node.id node.clientData)).heap[a]?
          = some { node with refcount := node.refcount + 1 } :=
      getElem?_set_valid _ hload
    have hfire := ProcessTimeEvents.visit_fire ps maxId w _ a processed now retval node _ p h
      hload hlive hid hdue hproc hc hnode1 hclock
    rw [hv] at hfire
    injection hfire with hit
    have hent : it.w.heap[a]? = some
        { node with
          refcount := node.refcount + 1 - 1
          when := wrap64 (UnixMilli (ps.nowProc h w.reads) + retval) } := by
      rw [hit]
      show ((w.heap.set a _).set a _)[a]? = _
      rw [if_pos hret]
      exact getElem?_set_valid _ hnode1
    have hnd : (kept ++ a :: rest).Nodup := hl.2.2
    have hprocs' : ∀ x ∈ rest, ∀ n : TimeEvent, it.w.heap[x]? = some n → n.timeProc ≠ none := by
      intro x hx n hxn
      obtain ⟨n0, hn0⟩ := DSeg_valid _ _ _ _ x hl.2.1 (by simp [hx])
      obtain ⟨n1, h1, h2, _⟩ := hframe x n0 hn0
      rw [hxn] at h1; injection h1 with h1; subst h1
      rw [h2]
      exact hprocs x hx n0 hn0
    obtain ⟨n, w', L, hloop, hseg, hkeep⟩ :=
      ProcessTimeEvents.loop_timerList ps hp maxId h rest (kept ++ [a]) it f hl' hclock' hprocs'
        (by omega)
    obtain ⟨e, he, hid', hwhen⟩ := hkeep a (by simp) _ hent
    refine ⟨n, w', kept ++ [a] ++ L, e, ?_, hseg, by simp, he, hid', ?_, hwhen⟩
    · unfold ProcessTimeEvents.loop
      simp only [hv]
      exact hloop
    · rw [hid']; exact hlive

theorem Passive_procsRepeat : Passive procsRepeat :=
  ⟨fun _ _ _ _ => rfl, fun _ _ _ => rfl⟩

/-! ## Polling the backend -/

/-- `ApiPoll` never returns: whatever `EpollWait` answers, the call ends in the
panic of line 99, which reports the error of that answer. -/
theorem ApiPoll_eq (os : Os) (w : World) (msec : Int) :
    ApiPoll os w msec = .error (Fault.apiPollPanic
      (os.EpollWait w.el.apiData.EpFd w.el.apiData.Events (ApiPoll.msec msec)).2.1) := by
  unfold ApiPoll
  simp

/-- C13, the code at the failing input: with an operating system whose wait
succeeds with one ready descriptor (and no error), `ApiPoll` panics instead of
returning 1; and it panics for every operating system, every state and every
timeout, so no wait is retried and none is answered. -/
theorem ApiPoll_always_panics :
    osReady3.EpollWait 3 (List.replicate 16 EpollEvent.zero) 100 = (1, none, [⟨EPOLLIN, 3⟩]) ∧
    ApiPoll osReady3 (World.ofLoop loopWithReader) 100 = .error (Fault.apiPollPanic none) ∧
    ∀ (os : Os) (w : World) (msec : Int), ∃ err, ApiPoll os w msec = .error (Fault.apiPollPanic err) :=
  ⟨rfl, by decide, fun os w msec => ⟨_, ApiPoll_eq os w msec⟩⟩

theorem ldiff_eq_xor_and (a b : Nat) : Nat.ldiff a b = a ^^^ (a &&& b) := by
  apply Nat.eq_of_testBit_eq
  intro i
  simp only [Nat.testBit_ldiff, Nat.testBit_xor, Nat.testBit_and]
  cases a.testBit i <;> cases b.testBit i <;> rfl

theorem DeleteFileEvent_loopWithReader :
    DeleteFileEvent loopWithReader 3 KE_Event_Readable = .ok loopIdle := by
  have h : Int.land 1 (Int.lnot 1) = 0 := by
    show ((Nat.ldiff 1 1 : Nat) : Int) = 0
    rw [ldiff_eq_xor_and]; rfl
  have hs : slot loopWithReader.events 3 = some ⟨KE_Event_Readable, some 1, none, some 7⟩ := by
    decide
  have hw : DeleteFileEvent.delmask ⟨KE_Event_Readable, some 1, none, some 7⟩ KE_Event_Readable
      = 1 := by decide
  unfold DeleteFileEvent
  simp only [hs, ApiDeleteEvent, hw]
  simp only [KE_Event_Readable, h]
  decide

/-- C19, the code at the failing input: `ApiPoll` replaces the timeout 0 by `-1`
before the wait, so for every operating system the wait is made with `-1`
(indefinitely).  On the loop with no descriptor registered,
`ProcessEvents(el, KE_FileEvents|KE_DontWait)` computes the timeout 0 and the
wait it reaches is the one with timeout `-1`. -/
theorem ApiPoll_zero_timeout_waits_forever :
    ApiPoll.msec 0 = -1 ∧
    (∀ (os : Os) (w : World), ApiPoll os w 0 = .error (Fault.apiPollPanic
      (os.EpollWait w.el.apiData.EpFd w.el.apiData.Events (-1)).2.1)) ∧
    DeleteFileEvent loopWithReader 3 KE_Event_Readable = .ok loopIdle ∧
    ProcessEvents.timeout loopIdle (Int.lor KE_FileEvents KE_DontWait) (-1) = 0 ∧
    ∀ (ps : Procs) (os : Os) (fuel : Nat),
      ProcessEvents ps os fuel (World.ofLoop loopIdle) (Int.lor KE_FileEvents KE_DontWait)
        = .error (Fault.apiPollPanic
            (os.EpollWait 3 (List.replicate 16 EpollEvent.zero) (-1)).2.1) :=
  ⟨rfl, fun os w => ApiPoll_eq os w 0, DeleteFileEvent_loopWithReader, by decide,
    fun _ _ _ => rfl⟩

/-! ## Timer deletion: termination -/

/-- C20, the code at the failing input: on the list with the single entry of id
1, `DeleteTimeEvent(el, 5)` does not return for any amount of fuel: every
evaluation of the loop condition finds the same head entry. -/
theorem DeleteTimeEvent_single_entry_diverges (fuel : Nat) :
    worldOneTimer.el.timeEventHead = some 0 ∧
    load worldOneTimer.heap 0 = .ok ⟨1, 5000, some 5, some 6, none, none, none, 0⟩ ∧
    DeleteTimeEvent fuel worldOneTimer 5 = .error Fault.outOfFuel ∧
    DeleteTimeEvent.loop 5 (fuel + 1) worldOneTimer (some 0)
      = DeleteTimeEvent.loop 5 fuel worldOneTimer (some 0) :=
  ⟨rfl, rfl,
    DeleteTimeEvent.loop_stuck 5 worldOneTimer 0 ⟨1, 5000, some 5, some 6, none, none, none, 0⟩
      rfl (by decide) fuel,
    rfl⟩

/-! ## Client data of timers -/

/-- C17, the code at the failing input: two timers are created with client data
9.  The entries hold nil; the pass that runs the callback of entry 1 passes
nil to it, and the pass that sweeps the entry passes nil to its finalizer. -/
theorem CreateTimeEvent_drops_clientData :
    CreateTimeEvent procsNoRepeat worldWithClock 0 (some 5) (some 9) (some 6)
      = .ok (1, worldOneTimer) ∧
    CreateTimeEvent procsNoRepeat worldOneTimer 0 (some 5) (some 9) (some 6)
      = .ok (2, worldTwoTimers) ∧
    worldTwoTimers.heap.map TimeEvent.clientData = [none, none] ∧
    ProcessTimeEvents procsNoRepeat 3 worldTwoTimers = .ok (1, worldAfterNoRepeat) ∧
    ProcessTimeEvents procsNoRepeat 3 worldAfterNoRepeat = .ok (0, worldAfterSweep) ∧
    worldAfterSweep.calls = [Call.timeProc 5 1 none, Call.finalizerProc 6 none] := by
  refine ⟨by decide, by decide, by decide, by decide, by decide, by decide⟩

/-! ## The capacity after a resize -/

/-- C18, the code at the failing inputs: after `ResizeSetSize(el, 32)` on a loop
of capacity 16 has returned true, the table and the fired buffer have 32 slots
but `GetSetSize` is still 16 and `CreateFileEvent` refuses descriptor 20; after
`ResizeSetSize(el, 8)` has returned true, the table has 8 slots, `GetSetSize`
is still 16 and `CreateFileEvent` for descriptor 10 passes the capacity test
and indexes outside the table. -/
theorem ResizeSetSize_keeps_setsize :
    ResizeSetSize (freshLoop 16) 32 = .ok (true, loopGrown) ∧
    GetSetSize loopGrown = 16 ∧ loopGrown.events.length = 32 ∧ loopGrown.fired.length = 32 ∧
    CreateFileEvent osOk loopGrown 20 KE_Event_Readable (some 1) (some 7)
      = .ok (false, loopGrown) ∧
    ResizeSetSize (freshLoop 16) 8 = .ok (true, loopShrunk) ∧
    GetSetSize loopShrunk = 16 ∧ loopShrunk.events.length = 8 ∧
    CreateFileEvent osOk loopShrunk 10 KE_Event_Readable (some 1) (some 7)
      = .error Fault.indexOutOfRange := by
  refine ⟨by decide, by decide, by decide, by decide, by decide, by decide, by decide,
    by decide, by decide⟩

/-! ## Lookup of client data -/

/-- C14, refuted as stated: on a fresh loop of capacity 16 the descriptor `-1`
passes the test `fd >= setsize` and `GetFileClientData` indexes the table
outside its range instead of returning nil. -/
theorem GetFileClientData_negative_counterexample :
    GetFileClientData (freshLoop 16) (-1) = .error Fault.indexOutOfRange ∧
    GetFileClientData (freshLoop 16) (-1) ≠ .ok none := by
  decide

/-- C14, amended: `GetFileClientData(el, fd)` returns nil for every
`fd >= setsize`; for `0 <= fd < setsize` with slot `fd` in the table it returns
nil when the mask of the slot is `None` and the client data of the slot
otherwise; for a negative `fd` below `setsize` it faults with an index out of
range. -/
theorem GetFileClientData_spec (el : EventLoop) (fd : Int) :
    (fd ≥ el.setsize → GetFileClientData el fd = .ok none) ∧
    (∀ fe : fileEvent, 0 ≤ fd → fd < el.setsize → el.events[fd.toNat]? = some fe →
      GetFileClientData el fd
        = .ok (if fe.mask = KE_Event_None then none else fe.clientData)) ∧
    (fd < 0 → fd < el.setsize → GetFileClientData el fd = .error Fault.indexOutOfRange) := by
  refine ⟨?_, ?_, ?_⟩
  · intro h
    simp [GetFileClientData, h]
  · intro fe h0 hlt hs
    have h1 : ¬ fd ≥ el.setsize := by omega
    have h2 : ¬ fd < 0 := by omega
    have hslot : slot el.events fd = some fe := by simp [slot, h2, hs]
    simp only [GetFileClientData, if_neg h1, hslot]
    split <;> rfl
  · intro hneg hlt
    have h1 : ¬ fd ≥ el.setsize := by omega
    have hslot : slot el.events fd = none := by simp [slot, hneg]
    simp only [GetFileClientData, if_neg h1, hslot]

/-- C14, amended, on the loop with descriptor 3 registered with client data 7:
descriptor 20 is out of range, descriptor 3 gives 7, descriptor 4 (mask
`None`) gives nil, descriptor `-1` faults. -/
theorem GetFileClientData_spec_witness :
    GetFileClientData loopWithReader 20 = .ok none ∧
    GetFileClientData loopWithReader 3
      = .ok (if (⟨KE_Event_Readable, some 1, none, some 7⟩ : fileEvent).mask = KE_Event_None
          then none else some 7) ∧
    GetFileClientData loopWithReader 4
      = .ok (if fileEvent.zero.mask = KE_Event_None then none else fileEvent.zero.clientData) ∧
    GetFileClientData loopWithReader (-1) = .error Fault.indexOutOfRange :=
  ⟨(GetFileClientData_spec loopWithReader 20).1 (by decide),
    (GetFileClientData_spec loopWithReader 3).2.1 ⟨KE_Event_Readable, some 1, none, some 7⟩
      (by decide) (by decide) (by decide),
    (GetFileClientData_spec loopWithReader 4).2.1 fileEvent.zero (by decide) (by decide)
      (by decide),
    (GetFileClientData_spec loopWithReader (-1)).2.2 (by decide) (by decide)⟩

/-! ## Removing a registration -/

/-- The downward scan of `DeleteFileEvent` returns when it starts inside the
table. -/
theorem DeleteFileEvent.scan_ok (events : List fileEvent) : ∀ n : Nat, n ≤ events.length →
    ∃ j, DeleteFileEvent.scan events n = .ok j := by
  intro n
  induction n with
  | zero => intro _; exact ⟨-1, rfl⟩
  | succ n ih =>
    intro hn
    have hlt : n < events.length := by omega
    unfold DeleteFileEvent.scan
    rw [List.getElem?_eq_getElem hlt]
    by_cases hm : events[n].mask ≠ KE_Event_None
    · exact ⟨n, by simp only [if_pos hm]⟩
    · obtain ⟨j, hj⟩ := ih (by omega)
      exact ⟨j, by simp only [if_neg hm]; exact hj⟩

/-- The downward scan of `DeleteFileEvent` stops on the sentinel or on a slot
whose mask is not `None`. -/
theorem DeleteFileEvent.scan_stop (events : List fileEvent) : ∀ (n : Nat) (j : Int),
    DeleteFileEvent.scan events n = .ok j →
    j = -1 ∨ (0 ≤ j ∧ ∃ fe, events[j.toNat]? = some fe ∧ fe.mask ≠ KE_Event_None) := by
  intro n
  induction n with
  | zero =>
    intro j h
    simp [DeleteFileEvent.scan] at h
    exact Or.inl h.symm
  | succ n ih =>
    intro j h
    unfold DeleteFileEvent.scan at h
    cases he : events[n]? with
    | none => simp [he] at h
    | some fe0 =>
      simp only [he] at h
      by_cases hm : fe0.mask ≠ KE_Event_None
      · simp only [if_pos hm] at h
        injection h with h
        subst h
        exact Or.inr ⟨by omega, fe0, by simpa using he, hm⟩
      · simp only [if_neg hm] at h
        exact ih j h

/-- C15: for a descriptor `0 <= fd < setsize` whose slot `fe` is in the table,
`DeleteFileEvent(el, fd, mask)` changes nothing when the mask of the slot is
`None`.  Otherwise it returns with the mask of the slot replaced by
`old & ~m`, where `m` is `mask`, extended with `Barrier` when the old mask has
`Writable`; no other slot and no other field of the slot is written.  When
`fd` is `maxfd` and the new mask is `None`, the new `maxfd` is below `fd`, is
`-1` or the index of a slot whose mask is not `None`, and every slot between
it and `fd` has mask `None`; in every other case `maxfd` is unchanged. -/
theorem DeleteFileEvent_spec (el : EventLoop) (fd mask : Int) (fe : fileEvent)
    (h0 : 0 ≤ fd) (hlt : fd < el.setsize) (hs : el.events[fd.toNat]? = some fe) :
    (fe.mask = KE_Event_None → DeleteFileEvent el fd mask = .ok el) ∧
    (fe.mask ≠ KE_Event_None →
      DeleteFileEvent.delmask fe mask
        = (if 0 ≠ Int.land fe.mask KE_Event_Writable then Int.lor mask KE_Event_Barrier
            else mask) ∧
      ∃ el', DeleteFileEvent el fd mask = .ok el' ∧
        el'.events = el.events.set fd.toNat
          { fe with mask := Int.land fe.mask (Int.lnot (DeleteFileEvent.delmask fe mask)) } ∧
        el'.setsize = el.setsize ∧ el'.fired = el.fired ∧
        (fd = el.maxfd ∧
            Int.land fe.mask (Int.lnot (DeleteFileEvent.delmask fe mask)) = KE_Event_None →
          el'.maxfd < fd ∧
          (el'.maxfd = -1 ∨ (0 ≤ el'.maxfd ∧
            ∃ fe', el'.events[el'.maxfd.toNat]? = some fe' ∧ fe'.mask ≠ KE_Event_None)) ∧
          ∀ (k : Nat) (fe' : fileEvent), el'.maxfd < k → (k : Int) < fd →
            el'.events[k]? = some fe' → fe'.mask = KE_Event_None) ∧
        (¬ (fd = el.maxfd ∧
            Int.land fe.mask (Int.lnot (DeleteFileEvent.delmask fe mask)) = KE_Event_None) →
          el'.maxfd = el.maxfd)) := by
  have h1 : ¬ fd ≥ el.setsize := by omega
  have h2 : ¬ fd < 0 := by omega
  have hslot : slot el.events fd = some fe := by simp [slot, h2, hs]
  have hlen : fd.toNat < el.events.length := by
    rcases Nat.lt_or_ge fd.toNat el.events.length with hl | hl
    · exact hl
    · rw [List.getElem?_eq_none hl] at hs; cases hs
  constructor
  · intro hm
    simp only [DeleteFileEvent, if_neg h1, hslot, if_pos hm]
  · intro hm
    refine ⟨rfl, ?_⟩
    by_cases hc : fd = el.maxfd ∧
        Int.land fe.mask (Int.lnot (DeleteFileEvent.delmask fe mask)) = KE_Event_None
    · by_cases hj : el.maxfd - 1 < 0
      · refine ⟨{ el with
            events := el.events.set fd.toNat
              { fe with mask := Int.land fe.mask (Int.lnot (DeleteFileEvent.delmask fe mask)) }
            maxfd := el.maxfd - 1 }, ?_, rfl, rfl, rfl, ?_, fun hn => absurd hc hn⟩
        · simp only [DeleteFileEvent, if_neg h1, hslot, if_neg hm, ApiDeleteEvent]
          rw [if_pos hc, if_pos hj]
        · intro _
          have hz : el.maxfd = 0 := by omega
          refine ⟨by show el.maxfd - 1 < fd; omega, Or.inl (by show el.maxfd - 1 = -1; omega), ?_⟩
          intro k fe' hk1 hk2 _
          have : el.maxfd - 1 < (k : Int) := hk1
          omega
      · have hcast : ((el.maxfd.toNat : Nat) : Int) = el.maxfd := by omega
        obtain ⟨j, hscan⟩ := DeleteFileEvent.scan_ok
          (el.events.set fd.toNat
            { fe with mask := Int.land fe.mask (Int.lnot (DeleteFileEvent.delmask fe mask)) })
          el.maxfd.toNat (by rw [List.length_set, ← hc.1]; omega)
        obtain ⟨a, b, c⟩ := DeleteFileEvent.scan_spec _ _ _ hscan
        have hjlt : j < fd := by omega
        have hstop := DeleteFileEvent.scan_stop _ _ _ hscan
        refine ⟨{ el with
            events := el.events.set fd.toNat
              { fe with mask := Int.land fe.mask (Int.lnot (DeleteFileEvent.delmask fe mask)) }
            maxfd := j }, ?_, rfl, rfl, rfl, ?_, fun hn => absurd hc hn⟩
        · simp only [DeleteFileEvent, if_neg h1, hslot, if_neg hm, ApiDeleteEvent]
          rw [if_pos hc, if_neg hj]
          simp only [hscan]
        · intro _
          refine ⟨hjlt, hstop, ?_⟩
          intro k fe' hk1 hk2 hk3
          exact c k fe' hk1 (by omega) hk3
    · refine ⟨{ el with
          events := el.events.set fd.toNat
            { fe with mask := Int.land fe.mask (Int.lnot (DeleteFileEvent.delmask fe mask)) } },
        ?_, rfl, rfl, rfl, fun hp => absurd hp hc, fun _ => rfl⟩
      simp only [DeleteFileEvent, if_neg h1, hslot, if_neg hm, ApiDeleteEvent]
      rw [if_neg hc]

/-- C15 on the loop with descriptor 3 registered for `Readable`: deleting
`Readable` from descriptor 3, and deleting from the unregistered descriptor
4. -/
theorem DeleteFileEvent_spec_witness :
    DeleteFileEvent loopWithReader 4 KE_Event_Readable = .ok loopWithReader ∧
    ∃ el', DeleteFileEvent loopWithReader (3 : Int) KE_Event_Readable = .ok el' ∧
        el'.events = loopWithReader.events.set (3 : Int).toNat
          { (⟨KE_Event_Readable, some 1, none, some 7⟩ : fileEvent) with mask := Int.land (⟨KE_Event_Readable, some 1, none, some 7⟩ : fileEvent).mask (Int.lnot (DeleteFileEvent.delmask (⟨KE_Event_Readable, some 1, none, some 7⟩ : fileEvent) KE_Event_Readable)) } ∧
        el'.setsize = loopWithReader.setsize ∧ el'.fired = loopWithReader.fired ∧
        ((3 : Int) = loopWithReader.maxfd ∧
            Int.land (⟨KE_Event_Readable, some 1, none, some 7⟩ : fileEvent).mask (Int.lnot (DeleteFileEvent.delmask (⟨KE_Event_Readable, some 1, none, some 7⟩ : fileEvent) KE_Event_Readable)) = KE_Event_None →
          el'.maxfd < (3 : Int) ∧
          (el'.maxfd = -1 ∨ (0 ≤ el'.maxfd ∧
            ∃ fe', el'.events[el'.maxfd.toNat]? = some fe' ∧ fe'.mask ≠ KE_Event_None)) ∧
          ∀ (k : Nat) (fe' : fileEvent), el'.maxfd < k → (k : Int) < (3 : Int) →
            el'.events[k]? = some fe' → fe'.mask = KE_Event_None) ∧
        (¬ ((3 : Int) = loopWithReader.maxfd ∧
            Int.land (⟨KE_Event_Readable, some 1, none, some 7⟩ : fileEvent).mask (Int.lnot (DeleteFileEvent.delmask (⟨KE_Event_Readable, some 1, none, some 7⟩ : fileEvent) KE_Event_Readable)) = KE_Event_None) →
          el'.maxfd = loopWithReader.maxfd) :=
  ⟨(DeleteFileEvent_spec loopWithReader 4 KE_Event_Readable fileEvent.zero (by decide)
      (by decide) (by decide)).1 (by decide),
    ((DeleteFileEvent_spec loopWithReader 3 KE_Event_Readable
      ⟨KE_Event_Readable, some 1, none, some 7⟩ (by decide) (by decide) (by decide)).2
      (by decide)).2⟩

/-! ## Creating a timer -/

theorem getElem?_append_valid {heap : List TimeEvent} {x : Nat} {n : TimeEvent} (e : TimeEvent)
    (h : heap[x]? = some n) : (heap ++ [e])[x]? = some n := by
  rw [List.getElem?_append_left (getElem?_lt h)]
  exact h

theorem getElem?_append_new (heap : List TimeEvent) (e : TimeEvent) :
    (heap ++ [e])[heap.length]? = some e := by
  simp

/-- C16: with a clock installed and the timers doubly linked along `L`,
`CreateTimeEvent` returns the id counter plus one, which becomes the new
counter and exceeds the id of every entry allocated so far (those being at
most the old counter); it is not the tombstone `-1` when the counter is not
negative.  The new entry is allocated at the head of the list, with
`when = UnixMilli(now + duration)` (that is `UnixMilli(now) + d` for a duration
of `d` whole milliseconds), `refcount = 0`, the callback and the finalizer
given; the list is the new entry followed by `L`, and every existing entry
keeps its id, due time, callbacks, client data, `refcount` and `next` (the old
head gets the new entry as `prev`). -/
theorem CreateTimeEvent_spec (ps : Procs) (w : World) (duration : Int)
    (proc cd fin : Option Nat) (h : Nat) (L : List Nat)
    (hclock : w.el.nowProc = some h)
    (hlist : TimerList w [] w.el.timeEventHead L)
    (hids : ∀ (x : Nat) (n : TimeEvent), w.heap[x]? = some n → n.id ≤ w.el.timeEventNextId)
    (hpos : 0 ≤ w.el.timeEventNextId) :
    ∃ (w' : World) (e : TimeEvent),
      CreateTimeEvent ps w duration proc cd fin = .ok (w.el.timeEventNextId + 1, w') ∧
      w'.el.timeEventNextId = w.el.timeEventNextId + 1 ∧
      w.el.timeEventNextId + 1 ≠ KE_DeleteEventId ∧
      (∀ (x : Nat) (n : TimeEvent), w.heap[x]? = some n → n.id < w.el.timeEventNextId + 1) ∧
      (∀ (x : Nat) (n : TimeEvent), w'.heap[x]? = some n → n.id ≤ w'.el.timeEventNextId) ∧
      w'.el.timeEventHead = some w.heap.length ∧
      w'.heap[w.heap.length]? = some e ∧
      e.id = w.el.timeEventNextId + 1 ∧
      e.when = UnixMilli (ps.nowProc h w.reads + duration) ∧
      (∀ d : Int, duration = d * 1000000 → e.when = UnixMilli (ps.nowProc h w.reads) + d) ∧
      e.refcount = 0 ∧ e.timeProc = proc ∧ e.finalizerProc = fin ∧
      e.prev = none ∧ e.next = w.el.timeEventHead ∧
      TimerList w' [] w'.el.timeEventHead (w.heap.length :: L) ∧
      ∀ (x : Nat) (n : TimeEvent), w.heap[x]? = some n →
        ∃ n' : TimeEvent, w'.heap[x]? = some n' ∧ n'.id = n.id ∧ n'.when = n.when ∧
          n'.timeProc = n.timeProc ∧ n'.finalizerProc = n.finalizerProc ∧
          n'.clientData = n.clientData ∧ n'.refcount = n.refcount ∧ n'.next = n.next ∧
          (some x ≠ w.el.timeEventHead → n'.prev = n.prev) := by
  obtain ⟨_, hseg, hnd⟩ := hlist
  have hnd' : L.Nodup := by simpa using hnd
  have hvalid : ∀ x ∈ L, x < w.heap.length := by
    intro x hx
    obtain ⟨n, hn⟩ := DSeg_valid _ _ _ _ x hseg hx
    exact getElem?_lt hn
  have hfresh : w.heap.length ∉ L := fun hm => Nat.lt_irrefl _ (hvalid _ hm)
  have hwhen : ∀ d : Int, duration = d * 1000000 →
      UnixMilli (ps.nowProc h w.reads + duration) = UnixMilli (ps.nowProc h w.reads) + d := by
    intro d hd
    subst hd
    unfold UnixMilli
    exact Int.add_mul_ediv_right _ _ (by decide)
  cases hh : w.el.timeEventHead with
  | none =>
    rw [hh] at hseg
    have hL : L = [] := by
      cases L with
      | nil => rfl
      | cons a l => exact absurd hseg.1 (by simp)
    subst hL
    refine ⟨{ el := { w.el with timeEventNextId := w.el.timeEventNextId + 1,
                                timeEventHead := some w.heap.length }
              heap := w.heap ++ [(⟨w.el.timeEventNextId + 1,
                UnixMilli (ps.nowProc h w.reads + duration), proc, fin, none, none, none, 0⟩ :
                  TimeEvent)]
              reads := w.reads + 1
              calls := w.calls }, _, ?_, rfl, ?_, ?_, ?_, rfl, getElem?_append_new _ _, rfl, rfl,
      hwhen, rfl, rfl, rfl, rfl, rfl, ?_, ?_⟩
    · simp [CreateTimeEvent, callNow, hclock, hh]
    · unfold KE_DeleteEventId; omega
    · intro x n hx
      have := hids x n hx
      omega
    · intro x n hx
      show n.id ≤ w.el.timeEventNextId + 1
      by_cases hlt : x < w.heap.length
      · rw [List.getElem?_append_left hlt] at hx
        have := hids x n hx
        omega
      · have hxe : x = w.heap.length := by
          have := getElem?_lt hx
          simp at this
          omega
        subst hxe
        rw [getElem?_append_new] at hx
        injection hx with hx
        subst hx
        exact le_refl _
    · refine ⟨rfl, ?_, by simp⟩
      exact ⟨rfl, _, getElem?_append_new _ _, rfl, rfl⟩
    · intro x n hx
      exact ⟨n, getElem?_append_valid _ hx, rfl, rfl, rfl, rfl, rfl, rfl, rfl, fun _ => rfl⟩
  | some a0 =>
    rw [hh] at hseg
    cases L with
    | nil => exact absurd hseg (by simp [DSeg])
    | cons a l =>
      obtain ⟨ha, n0, hn0, hp0, hrest⟩ := hseg
      injection ha with ha
      subst ha
      have hn0' : (w.heap ++ [(⟨w.el.timeEventNextId + 1,
          UnixMilli (ps.nowProc h w.reads + duration), proc, fin, none, none, some a0, 0⟩ :
            TimeEvent)])[a0]? = some n0 := getElem?_append_valid _ hn0
      have hne : a0 ≠ w.heap.length := fun he => hfresh (by rw [← he]; simp)
      refine ⟨{ el := { w.el with timeEventNextId := w.el.timeEventNextId + 1,
                                  timeEventHead := some w.heap.length }
                heap := (w.heap ++ [(⟨w.el.timeEventNextId + 1,
                  UnixMilli (ps.nowProc h w.reads + duration), proc, fin, none, none, some a0,
                  0⟩ : TimeEvent)]).set a0 { n0 with prev := some w.heap.length }
                reads := w.reads + 1
                calls := w.calls },
        ⟨w.el.timeEventNextId + 1, UnixMilli (ps.nowProc h w.reads + duration), proc, fin, none,
          none, some a0, 0⟩, ?_, rfl, ?_, ?_, ?_, rfl, ?_, rfl, rfl, hwhen, rfl, rfl, rfl, rfl,
        rfl, ?_, ?_⟩
      · simp only [CreateTimeEvent, callNow, hclock, hh, store_ok _ hn0']
      · unfold KE_DeleteEventId; omega
      · intro x n hx
        have := hids x n hx
        omega
      · intro x n hx
        show n.id ≤ w.el.timeEventNextId + 1
        by_cases hxa : a0 = x
        · subst hxa
          rw [getElem?_set_valid _ hn0'] at hx
          injection hx with hx
          subst hx
          have := hids a0 n0 hn0
          show n0.id ≤ _
          omega
        · rw [List.getElem?_set_ne hxa] at hx
          by_cases hlt : x < w.heap.length
          · rw [List.getElem?_append_left hlt] at hx
            have := hids x n hx
            omega
          · have hxe : x = w.heap.length := by
              have := getElem?_lt hx
              simp at this
              omega
            subst hxe
            rw [getElem?_append_new] at hx
            injection hx with hx
            subst hx
            exact le_refl _
      · rw [List.getElem?_set_ne hne]
        exact getElem?_append_new _ _
      · refine ⟨rfl, ?_, ?_⟩
        · refine ⟨rfl, (⟨w.el.timeEventNextId + 1, UnixMilli (ps.nowProc h w.reads + duration),
            proc, fin, none, none, some a0, 0⟩ : TimeEvent), ?_, rfl, ?_⟩
          · show ((w.heap ++ [_]).set a0 _)[w.heap.length]? = _
            rw [List.getElem?_set_ne hne]
            exact getElem?_append_new _ _
          · refine ⟨rfl, { n0 with prev := some w.heap.length }, getElem?_set_valid _ hn0', rfl,
              ?_⟩
            apply DSeg_congr l _ _ _ _ hrest
            intro x hx n hxn
            have hxa : a0 ≠ x := by
              intro he; subst he
              exact (List.nodup_cons.1 hnd').1 hx
            exact ⟨n, by rw [List.getElem?_set_ne hxa]; exact getElem?_append_valid _ hxn,
              rfl, rfl⟩
        · show ([] ++ w.heap.length :: a0 :: l).Nodup
          simp only [List.nil_append]
          exact List.nodup_cons.2 ⟨hfresh, hnd'⟩
      · intro x n hx
        by_cases hxa : a0 = x
        · subst hxa
          rw [hn0] at hx
          injection hx with hx
          subst hx
          exact ⟨{ n0 with prev := some w.heap.length }, getElem?_set_valid _ hn0', rfl, rfl,
            rfl, rfl, rfl, rfl, rfl, fun hne' => absurd rfl hne'⟩
        · exact ⟨n, by rw [List.getElem?_set_ne hxa]; exact getElem?_append_valid _ hx,
            rfl, rfl, rfl, rfl, rfl, rfl, rfl, fun _ => rfl⟩

theorem worldOneTimer_ids (x : Nat) (n : TimeEvent) (hx : worldOneTimer.heap[x]? = some n) :
    n.id ≤ worldOneTimer.el.timeEventNextId := by
  cases x with
  | zero =>
    have : n = ⟨1, 5000, some 5, some 6, none, none, none, 0⟩ := by
      have h0 : worldOneTimer.heap[0]? = some ⟨1, 5000, some 5, some 6, none, none, none, 0⟩ := rfl
      rw [h0] at hx
      injection hx with hx
      exact hx.symm
    subst this
    decide
  | succ k =>
    have h0 : worldOneTimer.heap[k + 1]? = none := rfl
    rw [h0] at hx
    cases hx

/-- C16 on the list with the single entry of id 1: a second timer. -/
theorem CreateTimeEvent_spec_witness :
    ∃ (w' : World) (e : TimeEvent),
      CreateTimeEvent procsNoRepeat worldOneTimer 0 (some 5) (some 9) (some 6) = .ok (worldOneTimer.el.timeEventNextId + 1, w') ∧
      w'.el.timeEventNextId = worldOneTimer.el.timeEventNextId + 1 ∧
      worldOneTimer.el.timeEventNextId + 1 ≠ KE_DeleteEventId ∧
      (∀ (x : Nat) (n : TimeEvent), worldOneTimer.heap[x]? = some n → n.id < worldOneTimer.el.timeEventNextId + 1) ∧
      (∀ (x : Nat) (n : TimeEvent), w'.heap[x]? = some n → n.id ≤ w'.el.timeEventNextId) ∧
      w'.el.timeEventHead = some worldOneTimer.heap.length ∧
      w'.heap[worldOneTimer.heap.length]? = some e ∧
      e.id = worldOneTimer.el.timeEventNextId + 1 ∧
      e.when = UnixMilli (procsNoRepeat.nowProc 0 worldOneTimer.reads + 0) ∧
      (∀ d : Int, (0 : Int) = d * 1000000 → e.when = UnixMilli (procsNoRepeat.nowProc 0 worldOneTimer.reads) + d) ∧
      e.refcount = 0 ∧ e.timeProc = some 5 ∧ e.finalizerProc = some 6 ∧
      e.prev = none ∧ e.next = worldOneTimer.el.timeEventHead ∧
      TimerList w' [] w'.el.timeEventHead (worldOneTimer.heap.length :: [0]) ∧
      ∀ (x : Nat) (n : TimeEvent), worldOneTimer.heap[x]? = some n →
        ∃ n' : TimeEvent, w'.heap[x]? = some n' ∧ n'.id = n.id ∧ n'.when = n.when ∧
          n'.timeProc = n.timeProc ∧ n'.finalizerProc = n.finalizerProc ∧
          n'.clientData = n.clientData ∧ n'.refcount = n.refcount ∧ n'.next = n.next ∧
          (some x ≠ worldOneTimer.el.timeEventHead → n'.prev = n.prev) :=
  CreateTimeEvent_spec procsNoRepeat worldOneTimer 0 (some 5) (some 9) (some 6) 0 [0] rfl
    ⟨rfl, ⟨rfl, _, rfl, rfl, rfl⟩, by decide⟩ worldOneTimer_ids (by decide)

/-! ## Timers created during a pass -/

/-- What a returning `CreateTimeEvent` has done: the id is the counter plus one,
and the entry allocated at the end of the heap carries it and is the head. -/
theorem CreateTimeEvent_ok_inv {ps : Procs} {w w1 : World} {duration id : Int}
    {proc cd fin : Option Nat}
    (h : CreateTimeEvent ps w duration proc cd fin = .ok (id, w1)) :
    id = w.el.timeEventNextId + 1 ∧ w1.el.timeEventHead = some w.heap.length ∧
    ∃ e : TimeEvent, w1.heap[w.heap.length]? = some e ∧ e.id = id ∧ e.timeProc = proc := by
  unfold CreateTimeEvent at h
  simp only [callNow] at h
  cases hc : w.el.nowProc with
  | none => simp [hc] at h
  | some c =>
    simp only [hc] at h
    cases hh : w.el.timeEventHead with
    | none =>
      simp only [hh] at h
      injection h with h
      injection h with h1 h2
      subst h2
      refine ⟨h1.symm, rfl, _, getElem?_append_new _ _, ?_, ?_⟩
      · exact h1
      · rfl
    | some a0 =>
      simp only [hh, store] at h
      split at h
      · cases h
      · rename_i heap' hst
        split at hst
        · cases hst
        · rename_i n0 hn0
          injection hst with hst
          injection h with h
          injection h with h1 h2
          subst h2
          subst hst
          refine ⟨h1.symm, rfl, ?_⟩
          by_cases he : a0 = w.heap.length
          · subst he
            rw [getElem?_append_new] at hn0
            injection hn0 with hn0
            subst hn0
            refine ⟨_, getElem?_set_valid _ (getElem?_append_new _ _), ?_, ?_⟩
            · exact h1
            · rfl
          · refine ⟨(⟨w.el.timeEventNextId + 1, UnixMilli (ps.nowProc c w.reads + duration),
              proc, fin, none, none, some a0, 0⟩ : TimeEvent), ?_, ?_, ?_⟩
            · show ((w.heap ++ [_]).set a0 _)[w.heap.length]? = _
              rw [List.getElem?_set_ne he]
              exact getElem?_append_new _ _
            · exact h1
            · rfl

/-- The bound of a pass: a pass that starts in the world `w0` works with
`maxId = timeEventNextId - 1` of `w0`.  A timer created by `CreateTimeEvent`
in any world `wc` whose id counter is not below that of `w0` (user code,
whatever it does, running during the pass) gets an id above `maxId`; and
whenever the loop of that pass stands on this entry while the entry carries
its id, in any world `w`, the iteration leaves the world as it is and moves
on: no callback is called, whatever the due time of the entry. -/
theorem CreateTimeEvent_in_pass_deferred (ps ps' : Procs) (w0 wc w1 w : World)
    (duration id processed now : Int) (proc cd fin : Option Nat) (node : TimeEvent)
    (hpos : 0 ≤ w0.el.timeEventNextId)
    (hmono : w0.el.timeEventNextId ≤ wc.el.timeEventNextId)
    (hcreate : CreateTimeEvent ps' wc duration proc cd fin = .ok (id, w1))
    (hnode : w.heap[wc.heap.length]? = some node) (hid : node.id = id) :
    w0.el.timeEventNextId - 1 < id ∧
    (∃ e : TimeEvent, w1.heap[wc.heap.length]? = some e ∧ e.id = id ∧ e.timeProc = proc) ∧
    ProcessTimeEvents.visit ps (w0.el.timeEventNextId - 1) w wc.heap.length processed now
      = .ok ⟨w, node.next, processed, now⟩ := by
  obtain ⟨h1, _, h3⟩ := CreateTimeEvent_ok_inv hcreate
  have hlt : w0.el.timeEventNextId - 1 < id := by omega
  refine ⟨hlt, h3, ?_⟩
  have hl : load w.heap wc.heap.length = .ok node := by simp [load, hnode]
  have hlive : ¬ node.id = KE_DeleteEventId := by
    rw [hid]; unfold KE_DeleteEventId; omega
  have hgt : node.id > w0.el.timeEventNextId - 1 := by rw [hid]; exact hlt
  unfold ProcessTimeEvents.visit
  simp only [hl, if_neg hlive, if_pos hgt]

/-- The bound of a pass over the list entry 2, entry 1: the callback of entry 1
creates timer 3 with delay 0, due at 8000 ms.  An iteration of this pass on
the new entry, even at 9000 ms, calls nothing; and the whole pass calls the
callback of entry 1 only. -/
theorem CreateTimeEvent_in_pass_deferred_witness :
    (worldTwoTimers.el.timeEventNextId - 1 < 3 ∧
      (∃ e : TimeEvent, worldSpawned.heap[worldInCallback.heap.length]? = some e ∧ e.id = 3 ∧
        e.timeProc = some 5) ∧
      ProcessTimeEvents.visit procsSpawn (worldTwoTimers.el.timeEventNextId - 1) worldSpawned
          worldInCallback.heap.length 1 9000
        = .ok ⟨worldSpawned, (⟨3, 8000, some 5, none, none, none, some 1, 0⟩ : TimeEvent).next,
            1, 9000⟩) ∧
    ProcessTimeEvents procsSpawn 4 worldTwoTimers = .ok (1, worldAfterSpawnPass) ∧
    worldAfterSpawnPass.calls = [Call.timeProc 5 1 none] :=
  ⟨CreateTimeEvent_in_pass_deferred procsSpawn procsRepeat worldTwoTimers worldInCallback
      worldSpawned worldSpawned 0 3 1 9000 (some 5) none none
      ⟨3, 8000, some 5, none, none, none, some 1, 0⟩ (by decide) (by decide) (by decide) rfl rfl,
    by decide, by decide⟩

/-- C11, the code at the failing input.  In a pass over the list entry 2,
entry 1 the callback of entry 1 creates timer 3 with delay 0 (due at 8000 ms)
and returns 100; the pass ends at the reading 9000 ms having called the
callback of entry 1 only.  In the next pass, which begins at the reading
10000 ms and in which the callbacks create nothing, `maxId` is
`timeEventNextId - 1 = 2`: the callbacks of timers 2 and 1 are called and
timer 3, although due, is passed over; the pass after that (13000 ms) does the
same.  The timer created during the first pass is not eligible in the later
passes. -/
theorem CreateTimeEvent_in_pass_never_eligible :
    ProcessTimeEvents procsSpawn 4 worldTwoTimers = .ok (1, worldAfterSpawnPass) ∧
    worldAfterSpawnPass.calls = [Call.timeProc 5 1 none] ∧
    worldAfterSpawnPass.el.timeEventHead = some 2 ∧
    worldAfterSpawnPass.el.timeEventNextId = 3 ∧
    worldAfterSpawnPass.heap[2]? = some ⟨3, 8000, some 5, none, none, none, some 1, 0⟩ ∧
    UnixMilli (procsRepeat.nowProc 0 worldAfterSpawnPass.reads) = 10000 ∧
    ProcessTimeEvents procsRepeat 4 worldAfterSpawnPass = .ok (2, worldSecondPass) ∧
    worldSecondPass.calls
      = [Call.timeProc 5 1 none, Call.timeProc 5 2 none, Call.timeProc 5 1 none] ∧
    worldSecondPass.heap[2]? = some ⟨3, 8000, some 5, none, none, none, some 1, 0⟩ ∧
    UnixMilli (procsRepeat.nowProc 0 worldSecondPass.reads) = 13000 ∧
    ProcessTimeEvents procsRepeat 4 worldSecondPass = .ok (2, worldThirdPass) ∧
    worldThirdPass.calls
      = [Call.timeProc 5 1 none, Call.timeProc 5 2 none, Call.timeProc 5 1 none,
         Call.timeProc 5 2 none, Call.timeProc 5 1 none] ∧
    worldThirdPass.heap[2]? = some ⟨3, 8000, some 5, none, none, none, some 1, 0⟩ := by
  refine ⟨by decide, by decide, by decide, by decide, by decide, by decide, by decide,
    by decide, by decide, by decide, by decide, by decide, by decide⟩

/-! ## Sweeping tombstoned timers -/

theorem Steady_refl (heap : List TimeEvent) : Steady heap heap :=
  ⟨rfl, fun _ n hx => ⟨n, hx, rfl, rfl, rfl, rfl, Or.inl rfl⟩⟩

theorem Steady_trans {h1 h2 h3 : List TimeEvent} (a : Steady h1 h2) (b : Steady h2 h3) :
    Steady h1 h3 := by
  refine ⟨by rw [b.1, a.1], ?_⟩
  intro x n hx
  obtain ⟨n', hx', e1, e2, e3, e5, e4⟩ := a.2 x n hx
  obtain ⟨n'', hx'', f1, f2, f3, f5, f4⟩ := b.2 x n' hx'
  refine ⟨n'', hx'', by rw [f1, e1], by rw [f2, e2], by rw [f3, e3], by rw [f5, e5], ?_⟩
  rcases f4 with f4 | f4
  · rcases e4 with e4 | e4
    · exact Or.inl (by rw [f4, e4])
    · exact Or.inr (by rw [f4, e4])
  · exact Or.inr f4

theorem Steady_set {heap : List TimeEvent} {a : Nat} {n v : TimeEvent} (hn : heap[a]? = some n)
    (h1 : v.timeProc = n.timeProc) (h2 : v.finalizerProc = n.finalizerProc)
    (h3 : v.clientData = n.clientData) (h5 : v.refcount = n.refcount)
    (h4 : v.id = n.id ∨ v.id = KE_DeleteEventId) :
    Steady heap (heap.set a v) := by
  refine ⟨by simp, ?_⟩
  intro x m hx
  by_cases hxa : a = x
  · subst hxa
    rw [hn] at hx; injection hx with hx; subst hx
    exact ⟨v, getElem?_set_valid _ hn, h1, h2, h3, h5, h4⟩
  · exact ⟨m, by rw [List.getElem?_set_ne hxa]; exact hx, rfl, rfl, rfl, rfl, Or.inl rfl⟩

theorem Steady_of_Cancels {w w' : World} (h : Cancels w w') : Steady w.heap w'.heap := by
  refine ⟨h.2.2.1, ?_⟩
  intro x n hx
  rcases h.2.2.2 x n hx with h1 | h1
  · exact ⟨n, h1, rfl, rfl, rfl, rfl, Or.inl rfl⟩
  · exact ⟨_, h1, rfl, rfl, rfl, rfl, Or.inr rfl⟩

theorem finCall_steady {heap heap' : List TimeEvent} (h : Steady heap heap') (a : Nat) :
    finCall heap' a = finCall heap a := by
  unfold finCall
  cases hx : heap[a]? with
  | none =>
    have : heap'[a]? = none := by
      apply List.getElem?_eq_none
      rw [h.1]
      rcases Nat.lt_or_ge a heap.length with hl | hl
      · rw [List.getElem?_eq_getElem hl] at hx; cases hx
      · exact hl
    rw [this]
  | some n =>
    obtain ⟨n', hx', _, e2, e3, _⟩ := h.2 a n hx
    rw [hx']
    simp only [e2, e3]

/-- A change of the heap that keeps the link fields, with the same head, keeps
the list. -/
theorem TimerList_links {w w' : World} {kept rest : List Nat} {te : Option Nat}
    (hhead : w'.el.timeEventHead = w.el.timeEventHead)
    (hag : ∀ (x : Nat) (n : TimeEvent), w.heap[x]? = some n →
      ∃ n' : TimeEvent, w'.heap[x]? = some n' ∧ n'.prev = n.prev ∧ n'.next = n.next)
    (hl : TimerList w kept te rest) : TimerList w' kept te rest := by
  obtain ⟨h1, h2, h3⟩ := hl
  refine ⟨?_, ?_, h3⟩
  · rw [hhead]
    exact DSeg_congr kept _ _ _ (fun x _ n hx => hag x n hx) h1
  · exact DSeg_congr rest _ _ _ (fun x _ n hx => hag x n hx) h2

theorem Cancels_links {w w' : World} (h : Cancels w w') (x : Nat) (n : TimeEvent)
    (hx : w.heap[x]? = some n) :
    ∃ n' : TimeEvent, w'.heap[x]? = some n' ∧ n'.prev = n.prev ∧ n'.next = n.next := by
  rcases h.2.2.2 x n hx with h1 | h1
  · exact ⟨n, h1, rfl, rfl⟩
  · exact ⟨_, h1, rfl, rfl⟩

theorem filter_isFinalizer_timeProc (calls : List Call) (p : Nat) (id : Int) (cd : Option Nat) :
    (calls ++ [Call.timeProc p id cd]).filter Call.isFinalizer = calls.filter Call.isFinalizer := by
  simp [List.filter_append, Call.isFinalizer]

theorem filter_isTimeProc_timeProc (calls : List Call) (p : Nat) (id : Int) (cd : Option Nat) :
    (calls ++ [Call.timeProc p id cd]).filter Call.isTimeProc
      = calls.filter Call.isTimeProc ++ [Call.timeProc p id cd] := by
  simp [List.filter_append, Call.isTimeProc]

theorem filter_isFinalizer_finalizer (calls : List Call) (f : Nat) (cd : Option Nat) :
    (calls ++ [Call.finalizerProc f cd]).filter Call.isFinalizer
      = calls.filter Call.isFinalizer ++ [Call.finalizerProc f cd] := by
  simp [List.filter_append, Call.isFinalizer]

theorem filter_isTimeProc_finalizer (calls : List Call) (f : Nat) (cd : Option Nat) :
    (calls ++ [Call.finalizerProc f cd]).filter Call.isTimeProc = calls.filter Call.isTimeProc := by
  simp [List.filter_append, Call.isTimeProc]

theorem Cancels_when {w w' : World} (h : Cancels w w') (x : Nat) (n : TimeEvent)
    (hx : w.heap[x]? = some n) :
    ∃ n' : TimeEvent, w'.heap[x]? = some n' ∧ n'.when = n.when := by
  rcases h.2.2.2 x n hx with h1 | h1
  · exact ⟨n, h1, rfl⟩
  · exact ⟨{ n with id := KE_DeleteEventId }, h1, rfl⟩

/-- A firing writes the due time of the fired entry only. -/
theorem fire_when {w w1 : World} {a x : Nat} {node n v : TimeEvent} {c : Call}
    (hC : Cancels
      (World.record { w with heap := w.heap.set a { node with refcount := node.refcount + 1 } } c)
      w1)
    (hxa : x ≠ a) (hx : w.heap[x]? = some n) :
    ∃ n' : TimeEvent, (w1.heap.set a v)[x]? = some n' ∧ n'.when = n.when := by
  have hne : a ≠ x := fun he => hxa he.symm
  have hxin : (World.record
      { w with heap := w.heap.set a { node with refcount := node.refcount + 1 } } c).heap[x]?
        = some n := by
    show (w.heap.set a _)[x]? = some n
    rw [List.getElem?_set_ne hne]; exact hx
  obtain ⟨n', h1, h2⟩ := Cancels_when hC x n hxin
  exact ⟨n', by rw [List.getElem?_set_ne hne]; exact h1, h2⟩

/-- The entries of the heap across a firing: the reference count of the fired
entry is raised, the callback cancels timers, and the fired entry is then
rewritten to `v`, which has the reference count lowered again. -/
theorem fire_entries {w w1 : World} {a : Nat} {node node1 v : TimeEvent} {c : Call}
    (hn : w.heap[a]? = some node)
    (hC : Cancels
      (World.record { w with heap := w.heap.set a { node with refcount := node.refcount + 1 } } c)
      w1)
    (hnode1 : w1.heap[a]? = some node1)
    (hv : v.prev = node1.prev ∧ v.next = node1.next ∧ v.timeProc = node1.timeProc ∧
      v.finalizerProc = node1.finalizerProc ∧ v.clientData = node1.clientData ∧
      v.refcount = node1.refcount - 1 ∧ (v.id = node1.id ∨ v.id = KE_DeleteEventId))
    (x : Nat) (n : TimeEvent) (hx : w.heap[x]? = some n) :
    ∃ n' : TimeEvent, (w1.heap.set a v)[x]? = some n' ∧ n'.prev = n.prev ∧ n'.next = n.next ∧
      n'.timeProc = n.timeProc ∧ n'.finalizerProc = n.finalizerProc ∧
      n'.clientData = n.clientData ∧ n'.refcount = n.refcount ∧
      (n'.id = n.id ∨ n'.id = KE_DeleteEventId) := by
  obtain ⟨v1, v2, v3, v4, v5, v6, v7⟩ := hv
  by_cases hxa : x = a
  · subst hxa
    rw [hn] at hx; injection hx with hx; subst hx
    have hwin : (World.record
        { w with heap := w.heap.set x { node with refcount := node.refcount + 1 } } c).heap[x]?
          = some { node with refcount := node.refcount + 1 } :=
      getElem?_set_valid _ hn
    refine ⟨v, getElem?_set_valid _ hnode1, ?_⟩
    rcases hC.2.2.2 x _ hwin with h1 | h1
    · rw [hnode1] at h1; injection h1 with h1; subst h1
      refine ⟨v1, v2, v3, v4, v5, ?_, v7⟩
      rw [v6]
      show node.refcount + 1 - 1 = node.refcount
      omega
    · rw [hnode1] at h1; injection h1 with h1; subst h1
      refine ⟨v1, v2, v3, v4, v5, ?_, ?_⟩
      · rw [v6]
        show node.refcount + 1 - 1 = node.refcount
        omega
      · rcases v7 with v7 | v7
        · exact Or.inr v7
        · exact Or.inr v7
  · have hne : a ≠ x := fun he => hxa he.symm
    have hxin : (World.record
        { w with heap := w.heap.set a { node with refcount := node.refcount + 1 } } c).heap[x]?
          = some n := by
      show (w.heap.set a _)[x]? = some n
      rw [List.getElem?_set_ne hne]; exact hx
    rcases hC.2.2.2 x n hxin with h1 | h1
    · exact ⟨n, by rw [List.getElem?_set_ne hne]; exact h1, rfl, rfl, rfl, rfl, rfl, rfl,
        Or.inl rfl⟩
    · exact ⟨{ n with id := KE_DeleteEventId }, by rw [List.getElem?_set_ne hne]; exact h1,
        rfl, rfl, rfl, rfl, rfl, rfl, Or.inr rfl⟩

/-- One iteration of the loop of `ProcessTimeEvents` under user code that only
cancels timers.  It returns and moves to the next entry of the list, and it is
one of three things: a sweep (the entry, a tombstone whose reference count is
not 1, is unlinked and its finalizer, if any, is called once), a firing (the
callback of a live entry is called once and the entry stays linked, whatever
id the callback or its return value leave), or a pass-over (nothing is called
and nothing is written; the entry is live or has reference count 1). -/
theorem ProcessTimeEvents.visit_sweep (ps : Procs) (hp : CancelOnly ps) (maxId : Int) (w : World)
    (kept rest : List Nat) (a : Nat) (node : TimeEvent) (h : Nat) (processed now : Int)
    (hl : TimerList w kept (some a) (a :: rest)) (hn : w.heap[a]? = some node)
    (hclock : w.el.nowProc = some h) (hproc : node.timeProc ≠ none) :
    ∃ it, ProcessTimeEvents.visit ps maxId w a processed now = .ok it ∧
      it.te = rest.head? ∧ it.w.el.nowProc = some h ∧ Steady w.heap it.w.heap ∧
      (∀ (x : Nat) (n : TimeEvent), x ≠ a → w.heap[x]? = some n →
        ∃ n' : TimeEvent, it.w.heap[x]? = some n' ∧ n'.when = n.when) ∧
      ((TimerList it.w kept it.te rest ∧ it.processed = processed ∧
          it.w.calls.filter Call.isFinalizer
            = w.calls.filter Call.isFinalizer ++ (finCall w.heap a).toList ∧
          it.w.calls.filter Call.isTimeProc = w.calls.filter Call.isTimeProc) ∨
       (TimerList it.w (kept ++ [a]) it.te rest ∧ it.processed = processed + 1 ∧
          node.id ≠ KE_DeleteEventId ∧
          it.w.calls.filter Call.isFinalizer = w.calls.filter Call.isFinalizer ∧
          it.w.calls.filter Call.isTimeProc
            = w.calls.filter Call.isTimeProc ++ (timeCall w.heap a).toList) ∨
       (TimerList it.w (kept ++ [a]) it.te rest ∧ it.processed = processed ∧
          it.w.calls = w.calls ∧ (node.id = KE_DeleteEventId → node.refcount = 1))) := by
  have hnext : node.next = rest.head? := by
    obtain ⟨_, node0, hn0, _, hrest⟩ := hl.2.1
    rw [hn] at hn0; injection hn0 with hn0; subst hn0
    exact DSeg_head hrest
  have hload : load w.heap a = .ok node := by simp [load, hn]
  have hadv : TimerList w (kept ++ [a]) node.next rest :=
    TimerList_advance hl hn rfl (fun x n hx => ⟨n, hx, rfl, rfl⟩)
  by_cases hid : node.id = KE_DeleteEventId
  · by_cases hrc : 1 = node.refcount
    · refine ⟨⟨w, node.next, processed, now⟩, ?_, hnext, hclock, Steady_refl _,
        fun x n _ hx => ⟨n, hx, rfl⟩,
        Or.inr (Or.inr ⟨hadv, rfl, rfl, fun _ => hrc.symm⟩)⟩
      unfold ProcessTimeEvents.visit
      simp only [hload, if_pos hid, if_pos hrc]
    · obtain ⟨w1, hu, htl, hclk, _, hcalls, hlen, hfr⟩ :=
        ProcessTimeEvents.unlink_timerList w kept rest a node hl hn
      have hst1 : Steady w.heap w1.heap := by
        refine ⟨hlen, ?_⟩
        intro x n hx
        obtain ⟨n', h1, h2, h3, _, h5, h6, h7⟩ := hfr x n hx
        exact ⟨n', h1, h2, h5, h6, h7, Or.inl h3⟩
      have hwf1 : ∀ (x : Nat) (n : TimeEvent), w.heap[x]? = some n →
          ∃ n' : TimeEvent, w1.heap[x]? = some n' ∧ n'.when = n.when := by
        intro x n hx
        obtain ⟨n', h1, _, _, h4, _⟩ := hfr x n hx
        exact ⟨n', h1, h4⟩
      cases hf : node.finalizerProc with
      | none =>
        have hfc : finCall w.heap a = none := by simp [finCall, hn, hf]
        refine ⟨⟨w1, node.next, processed, now⟩, ?_, hnext, by rw [hclk]; exact hclock, hst1,
          fun x n _ hx => hwf1 x n hx, Or.inl ⟨htl, rfl, ?_, ?_⟩⟩
        · unfold ProcessTimeEvents.visit
          simp only [hload, if_pos hid, if_neg hrc, hu, hf]
        · show w1.calls.filter _ = _
          rw [hcalls, hfc]; simp
        · show w1.calls.filter _ = _
          rw [hcalls]
      | some f =>
        have hfc : finCall w.heap a = some (Call.finalizerProc f node.clientData) := by
          simp [finCall, hn, hf]
        generalize hw2 : ps.finalizerProc f (w1.record (Call.finalizerProc f node.clientData))
          node.clientData = w2
        have hC : Cancels (w1.record (Call.finalizerProc f node.clientData)) w2 := by
          rw [← hw2]
          exact hp.2 f _ node.clientData
        have hclk2 : w2.el.nowProc = some h := by
          rw [hC.1.2]
          show w1.el.nowProc = some h
          rw [hclk]; exact hclock
        have hst2 : Steady w1.heap w2.heap := by
          have hs := Steady_of_Cancels hC
          exact hs
        refine ⟨⟨{ w2 with reads := w2.reads + 1 }, node.next, processed,
          UnixMilli (ps.nowProc h w2.reads)⟩,
          ?_, hnext, hclk2, Steady_trans hst1 hst2, ?_, Or.inl ⟨?_, rfl, ?_, ?_⟩⟩
        · unfold ProcessTimeEvents.visit
          simp only [hload, if_pos hid, if_neg hrc, hu, hf, hw2, callNow, hclk2]
        · intro x n _ hx
          obtain ⟨n1, h1, h2⟩ := hwf1 x n hx
          obtain ⟨n2, h3, h4⟩ := Cancels_when hC x n1 h1
          exact ⟨n2, h3, by rw [h4, h2]⟩
        · refine TimerList_links ?_ ?_ htl
          · show w2.el.timeEventHead = _
            rw [hC.1.1]
            rfl
          · intro x n hx
            exact Cancels_links hC x n hx
        · show w2.calls.filter _ = _
          rw [hC.2.1, hfc]
          show (w1.calls ++ [_]).filter _ = _
          rw [hcalls, filter_isFinalizer_finalizer]
          rfl
        · show w2.calls.filter _ = _
          rw [hC.2.1]
          show (w1.calls ++ [_]).filter _ = _
          rw [hcalls, filter_isTimeProc_finalizer]
  · by_cases hgt : node.id > maxId
    · refine ⟨⟨w, node.next, processed, now⟩, ?_, hnext, hclock, Steady_refl _,
        fun x n _ hx => ⟨n, hx, rfl⟩,
        Or.inr (Or.inr ⟨hadv, rfl, rfl, fun hd => absurd hd hid⟩)⟩
      unfold ProcessTimeEvents.visit
      simp only [hload, if_neg hid, if_pos hgt]
    · by_cases hdue : node.when ≤ now
      · cases hpp : node.timeProc with
        | none => exact absurd hpp hproc
        | some p =>
          have htc : timeCall w.heap a = some (Call.timeProc p node.id node.clientData) := by
            simp [timeCall, hn, hpp]
          cases hcall : ps.timeProc p
            (World.record
              { w with heap := w.heap.set a { node with refcount := node.refcount + 1 } }
              (Call.timeProc p node.id node.clientData)) node.id node.clientData with
          | mk retval w1 =>
          have hC : Cancels
              (World.record
                { w with heap := w.heap.set a { node with refcount := node.refcount + 1 } }
                (Call.timeProc p node.id node.clientData)) w1 := by
            have hC0 := hp.1 p
              (World.record
                { w with heap := w.heap.set a { node with refcount := node.refcount + 1 } }
                (Call.timeProc p node.id node.clientData)) node.id node.clientData
            rw [hcall] at hC0
            exact hC0
          have hwin : (World.record
              { w with heap := w.heap.set a { node with refcount := node.refcount + 1 } }
              (Call.timeProc p node.id node.clientData)).heap[a]?
                = some { node with refcount := node.refcount + 1 } :=
            getElem?_set_valid _ hn
          obtain ⟨node1, hnode1, hn1next⟩ :
              ∃ node1 : TimeEvent, w1.heap[a]? = some node1 ∧ node1.next = node.next := by
            rcases hC.2.2.2 a _ hwin with h1 | h1
            · exact ⟨_, h1, rfl⟩
            · exact ⟨_, h1, rfl⟩
          have hclk1 : w1.el.nowProc = some h := by
            rw [hC.1.2]; exact hclock
          have hfire := ProcessTimeEvents.visit_fire ps maxId w w1 a processed now retval node
            node1 p h hn hid (by omega) hdue hpp hcall hnode1 hclk1
          have hv : ∀ v : TimeEvent,
              v = (if retval ≠ -1
                then { node1 with
                        refcount := node1.refcount - 1
                        when := wrap64 (UnixMilli (ps.nowProc h w1.reads) + retval) }
                else { node1 with refcount := node1.refcount - 1, id := KE_DeleteEventId }) →
              v.prev = node1.prev ∧ v.next = node1.next ∧ v.timeProc = node1.timeProc ∧
              v.finalizerProc = node1.finalizerProc ∧ v.clientData = node1.clientData ∧
              v.refcount = node1.refcount - 1 ∧ (v.id = node1.id ∨ v.id = KE_DeleteEventId) := by
            intro v hveq
            subst hveq
            split
            · exact ⟨rfl, rfl, rfl, rfl, rfl, rfl, Or.inl rfl⟩
            · exact ⟨rfl, rfl, rfl, rfl, rfl, rfl, Or.inr rfl⟩
          have hag := fun x n hx => fire_entries hn hC hnode1 (hv _ rfl) x n hx
          refine ⟨_, hfire, by rw [← hnext]; exact hn1next, hclk1, ?_, ?_,
            Or.inr (Or.inl ⟨?_, rfl, hid, ?_, ?_⟩)⟩
          · refine ⟨?_, ?_⟩
            · show (w1.heap.set a _).length = _
              rw [List.length_set, hC.2.2.1]
              show (w.heap.set a _).length = _
              rw [List.length_set]
            · intro x n hx
              obtain ⟨n', h1, _, _, h4, h5, h6, h7, h8⟩ := hag x n hx
              exact ⟨n', h1, h4, h5, h6, h7, h8⟩
          · intro x n hxa hx
            exact fire_when hC hxa hx
          · refine Eq.mpr (congrArg (fun q => TimerList _ (kept ++ [a]) q rest) hn1next) ?_
            refine TimerList_advance hl hn ?_ ?_
            · show w1.el.timeEventHead = _
              rw [hC.1.1]
              rfl
            · intro x n hx
              obtain ⟨n', h1, h2, h3, _⟩ := hag x n hx
              exact ⟨n', h1, h2, h3⟩
          · show w1.calls.filter _ = _
            rw [hC.2.1]
            exact filter_isFinalizer_timeProc _ _ _ _
          · show w1.calls.filter _ = _
            rw [hC.2.1, htc]
            exact filter_isTimeProc_timeProc _ _ _ _
      · refine ⟨⟨w, node.next, processed, now⟩, ?_, hnext, hclock, Steady_refl _,
        fun x n _ hx => ⟨n, hx, rfl⟩,
          Or.inr (Or.inr ⟨hadv, rfl, rfl, fun hd => absurd hd hid⟩)⟩
        unfold ProcessTimeEvents.visit
        simp only [hload, if_neg hid, if_neg hgt, if_neg hdue]

theorem Steady_none {heap heap' : List TimeEvent} (h : Steady heap heap') (a : Nat)
    (hx : heap[a]? = none) : heap'[a]? = none := by
  apply List.getElem?_eq_none
  rw [h.1]
  rcases Nat.lt_or_ge a heap.length with hl | hl
  · rw [List.getElem?_eq_getElem hl] at hx; cases hx
  · exact hl

/-- An entry that is live after steady changes was live before, with the same
call of its callback. -/
theorem timeCall_steady {heap heap' : List TimeEvent} (h : Steady heap heap') (a : Nat)
    (hlive : ∀ n' : TimeEvent, heap'[a]? = some n' → n'.id ≠ KE_DeleteEventId) :
    timeCall heap' a = timeCall heap a := by
  unfold timeCall
  cases hx : heap[a]? with
  | none => rw [Steady_none h a hx]
  | some n =>
    obtain ⟨n', hx', e1, _, e3, _, e5⟩ := h.2 a n hx
    rw [hx']
    rcases e5 with e5 | e5
    · simp only [e1, e3, e5]
    · exact absurd e5 (hlive n' hx')

theorem Steady_live {heap heap' : List TimeEvent} (h : Steady heap heap') (a : Nat)
    (hlive : ∀ n' : TimeEvent, heap'[a]? = some n' → n'.id ≠ KE_DeleteEventId)
    (n : TimeEvent) (hx : heap[a]? = some n) : n.id ≠ KE_DeleteEventId := by
  obtain ⟨n', hx', _, _, _, _, e5⟩ := h.2 a n hx
  rcases e5 with e5 | e5
  · rw [← e5]; exact hlive n' hx'
  · exact absurd e5 (hlive n' hx')

theorem Steady_tombstone {heap heap' : List TimeEvent} (h : Steady heap heap') (a : Nat)
    (hrc : ∀ n' : TimeEvent, heap'[a]? = some n' → n'.id = KE_DeleteEventId → n'.refcount = 1)
    (n : TimeEvent) (hx : heap[a]? = some n) (hid : n.id = KE_DeleteEventId) :
    n.refcount = 1 := by
  obtain ⟨n', hx', _, _, _, e4, e5⟩ := h.2 a n hx
  rw [← e4]
  apply hrc n' hx'
  rcases e5 with e5 | e5
  · rw [e5]; exact hid
  · exact e5

theorem Steady_timeProc {heap heap' : List TimeEvent} (h : Steady heap heap') (a : Nat)
    (n : TimeEvent) (hx : heap[a]? = some n) (hp : n.timeProc ≠ none)
    (n' : TimeEvent) (hx' : heap'[a]? = some n') : n'.timeProc ≠ none := by
  obtain ⟨m, hm, e1, _⟩ := h.2 a n hx
  rw [hx'] at hm; injection hm with hm; subst hm
  rw [e1]; exact hp

/-- The loop of `ProcessTimeEvents` under user code that only cancels timers,
from a traversal point with the entries `rest` ahead.  It returns; `K` are the
entries of `rest` still linked afterwards, `R` those it has unlinked, `F` those
whose callback it has called.  The finalizers called are those of `R`, one call
each, and the callbacks called are those of `F`, one call each. -/
theorem ProcessTimeEvents.loop_sweep (ps : Procs) (hp : CancelOnly ps) (maxId : Int) (h : Nat) :
    ∀ (rest kept : List Nat) (it : ProcessTimeEvents.Iter) (fuel : Nat),
      TimerList it.w kept it.te rest → it.w.el.nowProc = some h →
      (∀ x ∈ rest, ∀ n : TimeEvent, it.w.heap[x]? = some n → n.timeProc ≠ none) →
      rest.length < fuel →
      ∃ (w' : World) (K R F : List Nat),
        ProcessTimeEvents.loop ps maxId fuel it = .ok (it.processed + (F.length : Int), w') ∧
        TimerList w' (kept ++ K) none [] ∧ w'.el.nowProc = some h ∧
        Steady it.w.heap w'.heap ∧
        (∀ (x : Nat) (n : TimeEvent), x ∉ rest → it.w.heap[x]? = some n →
          ∃ n' : TimeEvent, w'.heap[x]? = some n' ∧ n'.when = n.when) ∧
        K.Sublist rest ∧ R.Sublist rest ∧ F.Sublist K ∧
        (∀ a ∈ rest, a ∈ K ∨ a ∈ R) ∧ (∀ a ∈ R, a ∉ K) ∧
        (∀ a ∈ F, ∀ n : TimeEvent, it.w.heap[a]? = some n → n.id ≠ KE_DeleteEventId) ∧
        (∀ a ∈ K, ∀ n : TimeEvent, it.w.heap[a]? = some n →
          n.id = KE_DeleteEventId → n.refcount = 1) ∧
        w'.calls.filter Call.isFinalizer
          = it.w.calls.filter Call.isFinalizer ++ R.filterMap (finCall it.w.heap) ∧
        w'.calls.filter Call.isTimeProc
          = it.w.calls.filter Call.isTimeProc ++ F.filterMap (timeCall it.w.heap) := by
  intro rest
  induction rest with
  | nil =>
    intro kept it fuel hl hclock _ hf
    cases fuel with
    | zero => simp at hf
    | succ f =>
      have hte : it.te = none := hl.2.1
      refine ⟨it.w, [], [], [], ?_, ?_, hclock, Steady_refl _,
        fun x n _ hx => ⟨n, hx, rfl⟩, List.Sublist.refl _,
        List.Sublist.refl _, List.Sublist.refl _, ?_, ?_, ?_, ?_, ?_, ?_⟩
      · unfold ProcessTimeEvents.loop
        simp only [hte]
        simp
      · rw [hte] at hl
        simpa using hl
      · intro a ha; simp at ha
      · intro a ha; simp at ha
      · intro a ha; simp at ha
      · intro a ha; simp at ha
      · simp
      · simp
  | cons a rest ih =>
    intro kept it fuel hl hclock hprocs hf
    cases fuel with
    | zero => simp at hf
    | succ f =>
      have hte : it.te = some a := hl.2.1.1
      rw [hte] at hl
      obtain ⟨node, hn⟩ := DSeg_valid _ _ _ _ a hl.2.1 (by simp)
      obtain ⟨it1, hv, hte1, hclock1, hst, hwf, hcases⟩ :=
        ProcessTimeEvents.visit_sweep ps hp maxId it.w kept rest a node h it.processed it.now
          hl hn hclock (hprocs a (by simp) node hn)
      have hnd : (kept ++ a :: rest).Nodup := hl.2.2
      have ha_rest : a ∉ rest := by
        rw [List.nodup_append] at hnd
        exact (List.nodup_cons.1 hnd.2.1).1
      have hprocs1 : ∀ x ∈ rest, ∀ n : TimeEvent, it1.w.heap[x]? = some n →
          n.timeProc ≠ none := by
        intro x hx n hxn
        obtain ⟨n0, hn0⟩ := DSeg_valid _ _ _ _ x hl.2.1 (by simp [hx])
        exact Steady_timeProc hst x n0 hn0 (hprocs x (by simp [hx]) n0 hn0) n hxn
      have hfin : finCall it1.w.heap = finCall it.w.heap := funext (finCall_steady hst)
      have hstep : ∀ r, ProcessTimeEvents.loop ps maxId f it1 = r →
          ProcessTimeEvents.loop ps maxId (f + 1) it = r := by
        intro r hr
        rw [← hr]
        conv => lhs; unfold ProcessTimeEvents.loop
        simp only [hte, hv]
      have hwfc : ∀ (w' : World),
          (∀ (x : Nat) (n : TimeEvent), x ∉ rest → it1.w.heap[x]? = some n →
            ∃ n' : TimeEvent, w'.heap[x]? = some n' ∧ n'.when = n.when) →
          ∀ (x : Nat) (n : TimeEvent), x ∉ a :: rest → it.w.heap[x]? = some n →
            ∃ n' : TimeEvent, w'.heap[x]? = some n' ∧ n'.when = n.when := by
        intro w' hfr x n hx hxn
        have hxa : x ≠ a := fun he => hx (by simp [he])
        have hxr : x ∉ rest := fun hm => hx (by simp [hm])
        obtain ⟨n1, h1, h2⟩ := hwf x n hxa hxn
        obtain ⟨n2, h3, h4⟩ := hfr x n1 hxr h1
        exact ⟨n2, h3, by rw [h4, h2]⟩
      rcases hcases with ⟨hl1, hproc1, hfl, htl⟩ | ⟨hl1, hproc1, hlive, hfl, htl⟩ |
        ⟨hl1, hproc1, hcalls, hrc⟩
      · -- sweep
        obtain ⟨w', K, R, F, hloop, hlist, hclk, hst', hwf', hK, hR, hF, hcov, hdis, hFl, hKt, hfl', htl'⟩ :=
          ih kept it1 f hl1 hclock1 hprocs1 (by simpa using hf)
        refine ⟨w', K, a :: R, F, ?_, hlist, hclk, Steady_trans hst hst', hwfc w' hwf',
          List.Sublist.cons a hK, List.Sublist.cons₂ a hR, hF, ?_, ?_, ?_, ?_, ?_, ?_⟩
        · apply hstep
          rw [hloop, hproc1]
        · intro b hb
          rcases List.mem_cons.1 hb with hb | hb
          · exact Or.inr (by simp [hb])
          · rcases hcov b hb with hc | hc
            · exact Or.inl hc
            · exact Or.inr (by simp [hc])
        · intro b hb hbK
          rcases List.mem_cons.1 hb with hb | hb
          · subst hb
            exact ha_rest (hK.subset hbK)
          · exact hdis b hb hbK
        · intro b hb
          exact Steady_live hst b (hFl b hb)
        · intro b hb
          exact Steady_tombstone hst b (hKt b hb)
        · rw [hfl', hfl, hfin, List.filterMap_cons]
          cases finCall it.w.heap a <;> simp
        · rw [htl', htl]
          congr 1
          apply List.filterMap_congr
          intro b hb
          exact timeCall_steady hst b (hFl b hb)
      · -- firing
        obtain ⟨w', K, R, F, hloop, hlist, hclk, hst', hwf', hK, hR, hF, hcov, hdis, hFl, hKt, hfl', htl'⟩ :=
          ih (kept ++ [a]) it1 f hl1 hclock1 hprocs1 (by simpa using hf)
        refine ⟨w', a :: K, R, a :: F, ?_, ?_, hclk, Steady_trans hst hst', hwfc w' hwf',
          List.Sublist.cons₂ a hK, List.Sublist.cons a hR, List.Sublist.cons₂ a hF,
          ?_, ?_, ?_, ?_, ?_, ?_⟩
        · apply hstep
          rw [hloop, hproc1]
          simp only [List.length_cons, Nat.cast_add, Nat.cast_one]
          congr 2
          omega
        · simpa using hlist
        · intro b hb
          rcases List.mem_cons.1 hb with hb | hb
          · exact Or.inl (by simp [hb])
          · rcases hcov b hb with hc | hc
            · exact Or.inl (by simp [hc])
            · exact Or.inr hc
        · intro b hb hbK
          rcases List.mem_cons.1 hbK with hbK | hbK
          · subst hbK
            exact ha_rest (hR.subset hb)
          · exact hdis b hb hbK
        · intro b hb
          rcases List.mem_cons.1 hb with hb | hb
          · subst hb
            intro n hbn
            rw [hn] at hbn; injection hbn with hbn; subst hbn
            exact hlive
          · exact Steady_live hst b (hFl b hb)
        · intro b hb
          rcases List.mem_cons.1 hb with hb | hb
          · subst hb
            intro n hbn hid
            rw [hn] at hbn; injection hbn with hbn; subst hbn
            exact absurd hid hlive
          · exact Steady_tombstone hst b (hKt b hb)
        · rw [hfl', hfl, hfin]
        · rw [htl', htl, List.filterMap_cons]
          have hF' : F.filterMap (timeCall it1.w.heap) = F.filterMap (timeCall it.w.heap) := by
            apply List.filterMap_congr
            intro b hb
            exact timeCall_steady hst b (hFl b hb)
          rw [hF']
          cases timeCall it.w.heap a <;> simp
      · -- pass-over
        obtain ⟨w', K, R, F, hloop, hlist, hclk, hst', hwf', hK, hR, hF, hcov, hdis, hFl, hKt, hfl', htl'⟩ :=
          ih (kept ++ [a]) it1 f hl1 hclock1 hprocs1 (by simpa using hf)
        refine ⟨w', a :: K, R, F, ?_, ?_, hclk, Steady_trans hst hst', hwfc w' hwf',
          List.Sublist.cons₂ a hK, List.Sublist.cons a hR, List.Sublist.cons a hF,
          ?_, ?_, ?_, ?_, ?_, ?_⟩
        · apply hstep
          rw [hloop, hproc1]
        · simpa using hlist
        · intro b hb
          rcases List.mem_cons.1 hb with hb | hb
          · exact Or.inl (by simp [hb])
          · rcases hcov b hb with hc | hc
            · exact Or.inl (by simp [hc])
            · exact Or.inr hc
        · intro b hb hbK
          rcases List.mem_cons.1 hbK with hbK | hbK
          · subst hbK
            exact ha_rest (hR.subset hb)
          · exact hdis b hb hbK
        · intro b hb
          exact Steady_live hst b (hFl b hb)
        · intro b hb
          rcases List.mem_cons.1 hb with hb | hb
          · subst hb
            intro n hbn hid
            rw [hn] at hbn; injection hbn with hbn; subst hbn
            exact hrc hid
          · exact Steady_tombstone hst b (hKt b hb)
        · rw [hfl', hcalls, hfin]
        · rw [htl', hcalls]
          congr 1
          apply List.filterMap_congr
          intro b hb
          exact timeCall_steady hst b (hFl b hb)

theorem Cancels_refl (w : World) : Cancels w w :=
  ⟨⟨rfl, rfl⟩, rfl, rfl, fun _ _ hx => Or.inl hx⟩

theorem CancelOnly_procsCancelSelf : CancelOnly procsCancelSelf := by
  refine ⟨?_, fun _ w _ => Cancels_refl w⟩
  intro p w id cd
  show Cancels w (match DeleteTimeEvent 1 w id with
    | .ok (_, w') => ((100 : Int), w')
    | .error _ => ((100 : Int), w)).2
  unfold DeleteTimeEvent DeleteTimeEvent.loop
  cases hh : w.el.timeEventHead with
  | none => exact Cancels_refl w
  | some te =>
    cases hx : w.heap[te]? with
    | none =>
      simp only [load, hx]
      exact Cancels_refl w
    | some node =>
      simp only [load, hx]
      by_cases hid : node.id = id
      · simp only [if_pos hid]
        refine ⟨⟨rfl, rfl⟩, rfl, by simp, ?_⟩
        intro x n hxn
        by_cases hxt : te = x
        · subst hxt
          rw [hx] at hxn; injection hxn with hxn; subst hxn
          exact Or.inr (getElem?_set_valid _ hx)
        · refine Or.inl ?_
          show (w.heap.set te _)[x]? = some n
          rw [List.getElem?_set_ne hxt]
          exact hxn
      · simp only [if_neg hid, DeleteTimeEvent.loop]
        exact Cancels_refl w

/-- Passes that are not nested.  Under user code that only cancels timers (by
any number of `DeleteTimeEvent` calls that return, on any timers, their own
included), a pass of `ProcessTimeEvents` over the list `L` returns, and with
`K` the entries still linked afterwards, `R` the entries it has unlinked and
`F` the entries whose callback it has called: the finalizers called in the
pass are those of the entries of `R`, one call each; no entry of `R` is linked
afterwards; every entry of `F` was live and is still linked afterwards, so it
is neither unlinked nor finalized in the pass in which its callback runs,
whatever the callback returns or cancels; and every entry that is a tombstone
with a reference count other than 1 when the pass starts is in `R`.  Over a
sequence of such passes: if the finalizer calls on record are, after `base`,
one for each entry of the duplicate-free list `done` of entries no longer
linked, then after the pass the same holds of `done ++ R`, which is again
duplicate-free and disjoint from the list, so no entry is finalized twice. -/
theorem ProcessTimeEvents_finalizes_once (ps : Procs) (hp : CancelOnly ps) (w : World)
    (L done : List Nat) (base : List Call) (h fuel : Nat)
    (hlist : TimerList w [] w.el.timeEventHead L)
    (hclock : w.el.nowProc = some h)
    (hprocs : ∀ x ∈ L, ∀ n : TimeEvent, w.heap[x]? = some n → n.timeProc ≠ none)
    (hdone : done.Nodup) (hdisj : ∀ a ∈ done, a ∉ L)
    (hlog : w.calls.filter Call.isFinalizer = base ++ done.filterMap (finCall w.heap))
    (hfuel : L.length < fuel) :
    ∃ (w' : World) (K R F : List Nat),
      ProcessTimeEvents ps fuel w = .ok ((F.length : Int), w') ∧
      K.Sublist L ∧ R.Sublist L ∧ F.Sublist K ∧
      (∀ a ∈ L, a ∈ K ∨ a ∈ R) ∧ (∀ a ∈ R, a ∉ K) ∧
      (∀ a ∈ L, ∀ n : TimeEvent, w.heap[a]? = some n →
        n.id = KE_DeleteEventId → n.refcount ≠ 1 → a ∈ R) ∧
      (∀ a ∈ F, ∀ n : TimeEvent, w.heap[a]? = some n → n.id ≠ KE_DeleteEventId) ∧
      w'.calls.filter Call.isFinalizer
        = w.calls.filter Call.isFinalizer ++ R.filterMap (finCall w.heap) ∧
      w'.calls.filter Call.isTimeProc
        = w.calls.filter Call.isTimeProc ++ F.filterMap (timeCall w.heap) ∧
      TimerList w' [] w'.el.timeEventHead K ∧ w'.el.nowProc = some h ∧
      (∀ x ∈ K, ∀ n : TimeEvent, w'.heap[x]? = some n → n.timeProc ≠ none) ∧
      (done ++ R).Nodup ∧ (∀ a ∈ done ++ R, a ∉ K) ∧
      w'.calls.filter Call.isFinalizer = base ++ (done ++ R).filterMap (finCall w'.heap) := by
  have hcn : callNow ps w = .ok (ps.nowProc h w.reads, { w with reads := w.reads + 1 }) := by
    simp [callNow, hclock]
  obtain ⟨w', K, R, F, hloop, hlist', hclk, hst, _, hK, hR, hF, hcov, hdis, hFl, hKt, hfl, htl⟩ :=
    ProcessTimeEvents.loop_sweep ps hp (w.el.timeEventNextId - 1) h L []
      ⟨{ w with reads := w.reads + 1 }, w.el.timeEventHead, 0, UnixMilli (ps.nowProc h w.reads)⟩
      fuel hlist hclock hprocs hfuel
  have hst : Steady w.heap w'.heap := hst
  have hLnd : L.Nodup := by simpa using hlist.2.2
  refine ⟨w', K, R, F, ?_, hK, hR, hF, hcov, hdis, ?_, hFl, hfl, htl, ?_, hclk, ?_, ?_, ?_, ?_⟩
  · unfold ProcessTimeEvents
    simp only [hcn]
    rw [hloop]
    simp
  · intro a ha n hn hid hrc
    rcases hcov a ha with hc | hc
    · exact absurd (hKt a hc n hn hid) hrc
    · exact hc
  · obtain ⟨h1, _, h3⟩ := hlist'
    exact ⟨rfl, by simpa using h1, by simpa using h3⟩
  · intro x hx n hxn
    obtain ⟨n0, hn0⟩ := DSeg_valid _ _ _ _ x hlist.2.1 (hK.subset hx)
    exact Steady_timeProc hst x n0 hn0 (hprocs x (hK.subset hx) n0 hn0) n hxn
  · rw [List.nodup_append]
    refine ⟨hdone, hR.nodup hLnd, ?_⟩
    intro a ha haR
    exact hdisj a ha (hR.subset haR)
  · intro a ha haK
    rcases List.mem_append.1 ha with ha | ha
    · exact hdisj a ha (hK.subset haK)
    · exact hdis a ha haK
  · have hfin : finCall w'.heap = finCall w.heap := funext (finCall_steady hst)
    have hfl' : w'.calls.filter Call.isFinalizer
        = w.calls.filter Call.isFinalizer ++ R.filterMap (finCall w.heap) := hfl
    rw [hfl', hlog, hfin, List.filterMap_append, List.append_assoc]

/-- The list entry 2, entry 1 in which entry 2 has been cancelled, under
callbacks that cancel their own timer and return 100.  The first pass unlinks
entry 2 and calls its finalizer, then calls the callback of entry 1, which
cancels entry 1: the entry stays linked.  The second pass unlinks entry 1 and
calls its finalizer; the third pass finds the list empty and calls nothing. -/
theorem ProcessTimeEvents_finalizes_once_witness :
    ProcessTimeEvents procsCancelSelf 3 worldHeadDeleted = .ok (1, worldSelfCancelled) ∧
    ProcessTimeEvents procsCancelSelf 3 worldSelfCancelled = .ok (0, worldSelfSwept) ∧
    ProcessTimeEvents procsCancelSelf 3 worldSelfSwept
      = .ok (0, { worldSelfSwept with reads := 8 }) ∧
    ∃ (w' : World) (K R F : List Nat),
      ProcessTimeEvents procsCancelSelf 3 worldHeadDeleted = .ok ((F.length : Int), w') ∧
      K.Sublist [1, 0] ∧ R.Sublist [1, 0] ∧ F.Sublist K ∧
      (∀ a ∈ [1, 0], a ∈ K ∨ a ∈ R) ∧ (∀ a ∈ R, a ∉ K) ∧
      (∀ a ∈ [1, 0], ∀ n : TimeEvent, worldHeadDeleted.heap[a]? = some n →
        n.id = KE_DeleteEventId → n.refcount ≠ 1 → a ∈ R) ∧
      (∀ a ∈ F, ∀ n : TimeEvent, worldHeadDeleted.heap[a]? = some n →
        n.id ≠ KE_DeleteEventId) ∧
      w'.calls.filter Call.isFinalizer
        = worldHeadDeleted.calls.filter Call.isFinalizer
          ++ R.filterMap (finCall worldHeadDeleted.heap) ∧
      w'.calls.filter Call.isTimeProc
        = worldHeadDeleted.calls.filter Call.isTimeProc
          ++ F.filterMap (timeCall worldHeadDeleted.heap) ∧
      TimerList w' [] w'.el.timeEventHead K ∧ w'.el.nowProc = some 0 ∧
      (∀ x ∈ K, ∀ n : TimeEvent, w'.heap[x]? = some n → n.timeProc ≠ none) ∧
      ([] ++ R).Nodup ∧ (∀ a ∈ [] ++ R, a ∉ K) ∧
      w'.calls.filter Call.isFinalizer = [] ++ ([] ++ R).filterMap (finCall w'.heap) :=
  ⟨by decide, by decide, by decide,
    ProcessTimeEvents_finalizes_once procsCancelSelf CancelOnly_procsCancelSelf
      worldHeadDeleted [1, 0] [] [] 0 3
      ⟨rfl,
        ⟨rfl, ⟨-1, 5000, some 5, some 6, none, none, some 0, 0⟩, rfl, rfl,
          rfl, ⟨1, 5000, some 5, some 6, none, some 1, none, 0⟩, rfl, rfl, rfl⟩,
        by decide⟩
      rfl
      (by
        intro x hx n hn
        simp only [List.mem_cons, List.mem_singleton, List.not_mem_nil, or_false] at hx
        rcases hx with hx | hx
        · subst hx
          have hn1 : some (⟨-1, 5000, some 5, some 6, none, none, some 0, 0⟩ : TimeEvent)
              = some n := hn
          injection hn1 with hn1
          subst hn1
          decide
        · subst hx
          have hn0 : some (⟨1, 5000, some 5, some 6, none, some 1, none, 0⟩ : TimeEvent)
              = some n := hn
          injection hn0 with hn0
          subst hn0
          decide)
      List.nodup_nil (fun a ha => absurd ha (List.not_mem_nil a)) rfl (by decide)⟩

/-! ## Passes started from callbacks and finalizers -/

/-- C12, the code at the failing input.  On the list entry 2, entry 1 with
entry 2 cancelled, the pass unlinks entry 2 and calls the callback of entry 1
(`worldDepth1`, `refcount` 1).  The callback starts a pass, which calls the
callback of entry 1 again (`worldDepth2`, `refcount` 2).  That callback cancels
its own timer (`worldNested`) and starts a pass: this pass finds the tombstone
with `refcount` 2, which the test `1 == te.refcount` does not hold back, so it
unlinks entry 1 and calls its finalizer while both calls of the callback of
entry 1 are still running.  Second input: with both entries cancelled and a
finalizer that starts a pass, the pass calls three finalizers for the two
entries: the nested pass unlinks and finalizes entry 1, and the outer pass,
which had read `next` before the finalizer ran, does so once more. -/
theorem ProcessTimeEvents_sweeps_running_timer :
    ProcessTimeEvents procsDepth1 3 worldHeadDeleted = .ok (1, worldOuterDone) ∧
    procsDepth1.timeProc 5 worldDepth1 1 none = (100, worldDepth1Done) ∧
    procsDepth2.timeProc 5 worldDepth2 1 none = (100, worldNestedSwept) ∧
    DeleteTimeEvent 1 worldDepth2 1 = .ok (true, worldNested) ∧
    worldNested.el.timeEventHead = some 0 ∧
    worldNested.heap[0]? = some ⟨-1, 5000, some 5, some 6, none, none, none, 2⟩ ∧
    ProcessTimeEvents procsRepeat 3 worldNested = .ok (0, worldNestedSwept) ∧
    worldNestedSwept.el.timeEventHead = none ∧
    worldNestedSwept.calls = worldNested.calls ++ [Call.finalizerProc 6 none] ∧
    worldOuterDone.calls = [Call.finalizerProc 6 none, Call.timeProc 5 1 none,
      Call.timeProc 5 1 none, Call.finalizerProc 6 none] ∧
    DeleteTimeEvent 1 worldAfterNoRepeat 2 = .ok (true, worldBothDeleted) ∧
    ProcessTimeEvents procsFinalizerPass 3 worldBothDeleted = .ok (0, worldTwiceFinalized) ∧
    worldBothDeleted.heap.length = 2 ∧
    (worldBothDeleted.calls.filter Call.isFinalizer).length = 0 ∧
    (worldTwiceFinalized.calls.filter Call.isFinalizer).length = 3 := by
  refine ⟨by decide, by decide, by decide, by decide, by decide, by decide, by decide,
    by decide, by decide, by decide, by decide, by decide, by decide, by decide, by decide⟩

/-! ## Rescheduling a repeating timer: the rest of the pass -/

theorem CancelOnly_of_Passive {ps : Procs} (hp : Passive ps) : CancelOnly ps := by
  refine ⟨?_, ?_⟩
  · intro p w id cd
    rw [hp.1 p w id cd]
    exact Cancels_refl w
  · intro f w cd
    rw [hp.2 f w cd]
    exact Cancels_refl w

/-- C10, the claim at two inputs where it fails.  First input: on the list
entry 2, entry 1 with entry 2 cancelled, the callback of entry 1 is called
with id 1, cancels its own timer and returns the repeat value 100; after the
pass the entry is linked and due at 9000 + 100 ms, but its id is the tombstone
id, not 1.  Second input: on the list entry 2, entry 1 the callback of entry 1
returns the repeat value `MaxInt64` and the reading after it is 5000 ms; the
due time stored is the `int64` sum -9223372036854770809, not
`5000 + MaxInt64`. -/
theorem ProcessTimeEvents_repeat_counterexample :
    ProcessTimeEvents procsCancelSelf 3 worldHeadDeleted = .ok (1, worldSelfCancelled) ∧
    worldHeadDeleted.heap[0]? = some ⟨1, 5000, some 5, some 6, none, some 1, none, 0⟩ ∧
    worldSelfCancelled.calls = [Call.finalizerProc 6 none, Call.timeProc 5 1 none] ∧
    (∀ w : World, (procsCancelSelf.timeProc 5 w 1 none).1 = 100) ∧
    worldSelfCancelled.el.timeEventHead = some 0 ∧
    worldSelfCancelled.heap[0]? = some ⟨-1, 9100, some 5, some 6, none, none, none, 0⟩ ∧
    ProcessTimeEvents procsMaxRepeat 3 worldTwoTimers = .ok (1, worldWrapped) ∧
    (∀ w : World, (procsMaxRepeat.timeProc 5 w 1 none).1 = MaxInt64) ∧
    UnixMilli (procsMaxRepeat.nowProc 0 3) = 5000 ∧
    worldWrapped.heap[0]?
      = some ⟨1, -9223372036854770809, some 5, some 6, none, some 1, none, 0⟩ ∧
    (5000 : Int) + MaxInt64 = 9223372036854780807 := by
  refine ⟨by decide, by decide, by decide, ?_, by decide, by decide, by decide,
    fun _ => rfl, by decide, by decide, by decide⟩
  intro w
  show (match DeleteTimeEvent 1 w 1 with
    | .ok (_, w') => ((100 : Int), w')
    | .error _ => ((100 : Int), w)).1 = (100 : Int)
  cases DeleteTimeEvent 1 w 1 with
  | error e => rfl
  | ok r => rfl

/-- C10, as amended: let the loop of `ProcessTimeEvents` stand on an entry `a`
of a doubly linked timer list, the entry being live, within `maxId` and due,
and let its callback return `retval` other than `-1`, leaving the world `w1`;
user code only cancels timers (any timers, the running one included) and the
entries still to visit have a callback.  Then the pass returns, and at the end
of the pass the entry `a` is still linked in the list and is due at the
`int64` sum of `retval` and the clock reading taken after the callback
returned, which is the exact sum whenever that is within `int64`; the previous
due time does not occur in the result.  The entry carries the id it had or,
when user code has cancelled it, the tombstone id; under user code that
cancels nothing it carries the same live id. -/
theorem ProcessTimeEvents.loop_repeat (ps : Procs) (hp : CancelOnly ps) (maxId : Int)
    (w w1 : World) (kept rest : List Nat) (a : Nat) (node : TimeEvent) (p h fuel : Nat)
    (processed now retval : Int)
    (hl : TimerList w kept (some a) (a :: rest))
    (hload : w.heap[a]? = some node)
    (hlive : node.id ≠ KE_DeleteEventId) (hid : node.id ≤ maxId) (hdue : node.when ≤ now)
    (hproc : node.timeProc = some p)
    (hcall : ps.timeProc p
      (World.record { w with heap := w.heap.set a { node with refcount := node.refcount + 1 } }
        (Call.timeProc p node.id node.clientData)) node.id node.clientData = (retval, w1))
    (hret : retval ≠ -1)
    (hclock : w.el.nowProc = some h)
    (hprocs : ∀ x ∈ rest, ∀ n : TimeEvent, w.heap[x]? = some n → n.timeProc ≠ none)
    (hfuel : rest.length + 1 < fuel) :
    ∃ (n : Int) (w' : World) (L : List Nat) (e : TimeEvent),
      ProcessTimeEvents.loop ps maxId fuel ⟨w, some a, processed, now⟩ = .ok (n, w') ∧
      DSeg w'.heap none w'.el.timeEventHead L none ∧ a ∈ L ∧
      w'.heap[a]? = some e ∧
      e.when = wrap64 (UnixMilli (ps.nowProc h w1.reads) + retval) ∧
      (MinInt64 ≤ UnixMilli (ps.nowProc h w1.reads) + retval →
        UnixMilli (ps.nowProc h w1.reads) + retval ≤ MaxInt64 →
        e.when = UnixMilli (ps.nowProc h w1.reads) + retval) ∧
      (e.id = node.id ∨ e.id = KE_DeleteEventId) ∧
      (Passive ps → e.id = node.id ∧ e.id ≠ KE_DeleteEventId) := by
  cases fuel with
  | zero => simp at hfuel
  | succ f =>
    have hpn : node.timeProc ≠ none := by rw [hproc]; simp
    obtain ⟨it, hv, _, hclock', hst, _, hcases⟩ :=
      ProcessTimeEvents.visit_sweep ps hp maxId w kept rest a node h processed now hl hload
        hclock hpn
    have hC : Cancels
        (World.record
          { w with heap := w.heap.set a { node with refcount := node.refcount + 1 } }
          (Call.timeProc p node.id node.clientData)) w1 := by
      have hC0 := hp.1 p
        (World.record
          { w with heap := w.heap.set a { node with refcount := node.refcount + 1 } }
          (Call.timeProc p node.id node.clientData)) node.id node.clientData
      rw [hcall] at hC0
      exact hC0
    have hwin : (World.record
        { w with heap := w.heap.set a { node with refcount := node.refcount + 1 } }
        (Call.timeProc p node.id node.clientData)).heap[a]?
          = some { node with refcount := node.refcount + 1 } :=
      getElem?_set_valid _ hload
    obtain ⟨node1, hnode1, hn1id⟩ :
        ∃ node1 : TimeEvent, w1.heap[a]? = some node1 ∧
          (node1.id = node.id ∨ node1.id = KE_DeleteEventId) := by
      rcases hC.2.2.2 a _ hwin with h1 | h1
      · exact ⟨_, h1, Or.inl rfl⟩
      · exact ⟨_, h1, Or.inr rfl⟩
    have hclk1 : w1.el.nowProc = some h := by
      rw [hC.1.2]; exact hclock
    have hfire := ProcessTimeEvents.visit_fire ps maxId w w1 a processed now retval node
      node1 p h hload hlive hid hdue hproc hcall hnode1 hclk1
    rw [hv] at hfire
    injection hfire with hit
    have hent : it.w.heap[a]? = some
        { node1 with
          refcount := node1.refcount - 1
          when := wrap64 (UnixMilli (ps.nowProc h w1.reads) + retval) } := by
      rw [hit]
      show (w1.heap.set a _)[a]? = _
      rw [if_pos hret]
      exact getElem?_set_valid _ hnode1
    have hproc' : it.processed = processed + 1 := by rw [hit]
    have hl1 : TimerList it.w (kept ++ [a]) it.te rest := by
      rcases hcases with ⟨_, hp1, _⟩ | ⟨hl1, _⟩ | ⟨hl1, _⟩
      · omega
      · exact hl1
      · exact hl1
    have hnd : (kept ++ a :: rest).Nodup := hl.2.2
    have ha_rest : a ∉ rest := by
      rw [List.nodup_append] at hnd
      exact (List.nodup_cons.1 hnd.2.1).1
    have hprocs' : ∀ x ∈ rest, ∀ n : TimeEvent, it.w.heap[x]? = some n →
        n.timeProc ≠ none := by
      intro x hx n hxn
      obtain ⟨n0, hn0⟩ := DSeg_valid _ _ _ _ x hl.2.1 (by simp [hx])
      exact Steady_timeProc hst x n0 hn0 (hprocs x hx n0 hn0) n hxn
    obtain ⟨w', K, R, F, hloop, hlist, _, hst', hwf', _⟩ :=
      ProcessTimeEvents.loop_sweep ps hp maxId h rest (kept ++ [a]) it f hl1 hclock' hprocs'
        (by omega)
    obtain ⟨e, he, hwhen⟩ := hwf' a _ ha_rest hent
    have hwhen' : e.when = wrap64 (UnixMilli (ps.nowProc h w1.reads) + retval) := hwhen
    have hloop' : ProcessTimeEvents.loop ps maxId (f + 1) ⟨w, some a, processed, now⟩
        = .ok (it.processed + (F.length : Int), w') := by
      conv => lhs; unfold ProcessTimeEvents.loop
      simp only [hv]
      exact hloop
    refine ⟨_, w', kept ++ [a] ++ K, e, hloop', hlist.1, by simp, he, hwhen', ?_, ?_, ?_⟩
    · intro hlo hhi
      rw [hwhen', wrap64_eq _ hlo hhi]
    · obtain ⟨e', he', _, _, _, _, hid'⟩ := hst'.2 a _ hent
      rw [he] at he'; injection he' with he'; subst he'
      have hid'' : e.id = node1.id ∨ e.id = KE_DeleteEventId := hid'
      rcases hid'' with h1 | h1
      · rcases hn1id with h2 | h2
        · exact Or.inl (by rw [h1, h2])
        · exact Or.inr (by rw [h1, h2])
      · exact Or.inr h1
    · intro hpas
      obtain ⟨n2, w2, _, e2, hloop2, _, _, he2, hid2, hlive2, _⟩ :=
        ProcessTimeEvents.loop_repeat_passive ps hpas maxId w kept rest a node p h (f + 1)
          processed now retval hl hload hlive hid hdue hproc (by rw [hcall]) hret hclock
          hprocs hfuel
      rw [hloop'] at hloop2
      injection hloop2 with hloop2
      injection hloop2 with _ hw2
      subst hw2
      rw [he] at he2; injection he2 with he2; subst he2
      exact ⟨hid2, hlive2⟩

/-- C10 on two inputs.  On the list entry 2, entry 1, the loop standing on
entry 1 (pointer 0) after it has skipped entry 2: the callback returns 100, the
reading after it is 8 s, and at the end of the pass entry 1 is linked, has id
1 and is due at 8100 ms.  On the list of entry 1 alone, after entry 2 has been
swept: the callback cancels its own timer and returns 100, the reading after
it is 9 s, and at the end of the pass entry 1 is linked and due at 9100 ms. -/
theorem ProcessTimeEvents.loop_repeat_witness :
    ProcessTimeEvents.visit procsCancelSelf 1 { worldHeadDeleted with reads := 3 } 1 0 7000
      = .ok ⟨worldSweptHead, some 0, 0, 8000⟩ ∧
    (∃ (n : Int) (w' : World) (L : List Nat) (e : TimeEvent),
      ProcessTimeEvents.loop procsRepeat 1 2 ⟨{ worldTwoTimers with reads := 3 }, some 0, 0, 7000⟩
        = .ok (n, w') ∧
      DSeg w'.heap none w'.el.timeEventHead L none ∧ 0 ∈ L ∧
      w'.heap[0]? = some e ∧
      e.when = wrap64 (UnixMilli (procsRepeat.nowProc 0 3) + 100) ∧
      (MinInt64 ≤ UnixMilli (procsRepeat.nowProc 0 3) + 100 →
        UnixMilli (procsRepeat.nowProc 0 3) + 100 ≤ MaxInt64 →
        e.when = UnixMilli (procsRepeat.nowProc 0 3) + 100) ∧
      (e.id = 1 ∨ e.id = KE_DeleteEventId) ∧
      (Passive procsRepeat → e.id = 1 ∧ e.id ≠ KE_DeleteEventId)) ∧
    (∃ (n : Int) (w' : World) (L : List Nat) (e : TimeEvent),
      ProcessTimeEvents.loop procsCancelSelf 1 2 ⟨worldSweptHead, some 0, 0, 8000⟩
        = .ok (n, w') ∧
      DSeg w'.heap none w'.el.timeEventHead L none ∧ 0 ∈ L ∧
      w'.heap[0]? = some e ∧
      e.when = wrap64 (UnixMilli (procsCancelSelf.nowProc 0 4) + 100) ∧
      (MinInt64 ≤ UnixMilli (procsCancelSelf.nowProc 0 4) + 100 →
        UnixMilli (procsCancelSelf.nowProc 0 4) + 100 ≤ MaxInt64 →
        e.when = UnixMilli (procsCancelSelf.nowProc 0 4) + 100) ∧
      (e.id = 1 ∨ e.id = KE_DeleteEventId) ∧
      (Passive procsCancelSelf → e.id = 1 ∧ e.id ≠ KE_DeleteEventId)) :=
  ⟨by decide,
    ProcessTimeEvents.loop_repeat procsRepeat (CancelOnly_of_Passive Passive_procsRepeat) 1
      { worldTwoTimers with reads := 3 }
      { worldTwoTimers with
        heap := [⟨1, 5000, some 5, some 6, none, some 1, none, 1⟩,
                 ⟨2, 5000, some 5, some 6, none, none, some 0, 0⟩]
        reads := 3
        calls := [Call.timeProc 5 1 none] }
      [1] [] 0
      ⟨1, 5000, some 5, some 6, none, some 1, none, 0⟩ 5 0 2 0 7000 100
      ⟨⟨rfl, ⟨2, 5000, some 5, some 6, none, none, some 0, 0⟩, rfl, rfl, rfl⟩,
        ⟨rfl, ⟨1, 5000, some 5, some 6, none, some 1, none, 0⟩, rfl, rfl, rfl⟩, by decide⟩
      rfl (by decide) (by decide) (by decide) rfl rfl (by decide) rfl
      (fun x hx => absurd hx (List.not_mem_nil x)) (by decide),
    ProcessTimeEvents.loop_repeat procsCancelSelf CancelOnly_procsCancelSelf 1
      worldSweptHead
      { worldSweptHead with
        heap := [⟨-1, 5000, some 5, some 6, none, none, none, 1⟩,
                 ⟨-1, 5000, some 5, some 6, none, none, some 0, 0⟩]
        calls := [Call.finalizerProc 6 none, Call.timeProc 5 1 none] }
      [] [] 0
      ⟨1, 5000, some 5, some 6, none, none, none, 0⟩ 5 0 2 0 8000 100
      ⟨rfl, ⟨rfl, ⟨1, 5000, some 5, some 6, none, none, none, 0⟩, rfl, rfl, rfl⟩, by decide⟩
      rfl (by decide) (by decide) (by decide) rfl (by decide) (by decide) rfl
      (fun x hx => absurd hx (List.not_mem_nil x)) (by decide)⟩

end Kevent
